import Mathlib

/-!
Enigma simulator (`enigma.cpp`): shallow embedding and verified properties

The C++ program keeps every wiring in a `std::vector<int>` and every alphabet
position in an `int`.  Here a vector is a `List Int`, an `int` is an `Int`
(no arithmetic in the program leaves the range `0..26`), a `std::string` is a
`List Char`, and a `std::map` is an association list.  An access that the C++
standard leaves undefined (indexing outside a vector, returning the
uninitialised `temp` of `Scrambler::ReturningEncipher`) is `none`.
The `while` loop of `Scrambler::Set` takes a fuel argument; `none` from a
fuel-bounded loop means that the loop did not finish within the fuel.

`srand(seed); std::random_shuffle(...)` is implementation defined; it enters
as a parameter `shuffle seed v`, of which the theorems only assume that the
result is a permutation of `v`.
-/

namespace EnigmaCpp

/-! ## Vectors and maps -/

/-- The vector left by `for(int i = 0; i < 26; i++) v.push_back(i);`. -/
def identityWiring : List Int := (List.range 26).map Int.ofNat

/-- Element access `v[code]` with an `int` index; outside the vector it is undefined. -/
def vecAt (v : List Int) (code : Int) : Option Int :=
  if 0 ≤ code then v[code.toNat]? else none

/-- The scan `for(i = 0; i < v.size(); i++) if(v[i] == code){ ...i...; break; }`:
the first index holding `code`, or `none` when the loop runs to the end. -/
def scanIndex (v : List Int) (code : Int) : Option Int :=
  if v.indexOf code < v.length then some (Int.ofNat (v.indexOf code)) else none

/-- The statement `std::swap(v[a], v[b])`. -/
def swapAt (v : List Int) (a b : Int) : Option (List Int) :=
  match vecAt v a, vecAt v b with
  | some x, some y => some ((v.set a.toNat y).set b.toNat x)
  | _, _ => none

/-- The two statements `rotor.insert(rotor.begin(), rotor.back()); rotor.pop_back();`.
On an empty vector `back()` is undefined; no constructor builds one, and the
embedding leaves the empty list as it is. -/
def rotateOnce (rotor : List Int) : List Int :=
  match rotor.getLast? with
  | none => rotor
  | some b => (b :: rotor).dropLast

/-- The assignment `m[k] = v` of a `std::map`. -/
def mapAssign {κ ν : Type} [DecidableEq κ] (m : List (κ × ν)) (k : κ) (v : ν) : List (κ × ν) :=
  (k, v) :: m.filter (fun e => decide (e.1 ≠ k))

/-- The read `m[k]` of a `std::map`: `operator[]` yields the stored value, and for
a key that is absent it inserts and yields the value-initialised `dflt` (`0` for
`int`, the NUL character for `char`); it never fails.  The inserted entry holds
the very value a later read of the same key would yield anyway, so the embedding
keeps the map unchanged. -/
def mapIndex {κ ν : Type} [DecidableEq κ] (m : List (κ × ν)) (k : κ) (dflt : ν) : ν :=
  match m.find? (fun e => decide (e.1 = k)) with
  | some e => e.2
  | none => dflt

/-! ## Alphabet tables -/

/-- The constant `ALPHA`. -/
def ALPHA : List Char := "ABCDEFGHIJKLMNOPQRSTUVWXYZ".toList

/-- `Alpha2AlphaID()`: `alphaTable[ALPHA[i]] = i` for every index of `ALPHA`. -/
def Alpha2AlphaID : List (Char × Int) :=
  ALPHA.enum.foldl (fun alphaTable ic => mapAssign alphaTable ic.2 (Int.ofNat ic.1)) []

/-- `AlphaID2Alpha()`: `alphaTable[i] = ALPHA[i]` for every index of `ALPHA`. -/
def AlphaID2Alpha : List (Int × Char) :=
  ALPHA.enum.foldl (fun alphaTable ic => mapAssign alphaTable (Int.ofNat ic.1) ic.2) []

/-- The expression `alphamap[c]` of `Enigma::KeySet` and `Enigma::Encryption`. -/
def alphamapAt (c : Char) : Int := mapIndex Alpha2AlphaID c 0

/-- The expression `alphaIDmap[temp]` of `Enigma::Encryption`. -/
def alphaIDmapAt (temp : Int) : Char := mapIndex AlphaID2Alpha temp (Char.ofNat 0)

/-! ## Plugboard -/

/-- Class `Plugboard`. -/
structure Plugboard where
  plugboard : List Int
deriving DecidableEq

/-- Default constructor `Plugboard()`. -/
def Plugboard.default : Plugboard := ⟨identityWiring⟩

/-- Constructor `Plugboard(seed)`. -/
def Plugboard.seeded (shuffle : Nat → List Int → List Int) (seed : Nat) : Plugboard :=
  ⟨shuffle seed identityWiring⟩

/-- `Plugboard::GoingEncipher`. -/
def Plugboard.GoingEncipher (p : Plugboard) (code : Int) : Option Int :=
  vecAt p.plugboard code

/-- `Plugboard::ReturningEncipher`: `code_` starts at `0` and keeps it when the scan
finds nothing. -/
def Plugboard.ReturningEncipher (p : Plugboard) (code : Int) : Int :=
  match scanIndex p.plugboard code with
  | some i => i
  | none => 0

/-! ## Scrambler and LatchingScrambler -/

/-- Class `Scrambler`. -/
structure Scrambler where
  rotor : List Int
deriving DecidableEq

/-- Default constructor `Scrambler()`. -/
def Scrambler.default : Scrambler := ⟨identityWiring⟩

/-- Constructor `Scrambler(seed)`. -/
def Scrambler.seeded (shuffle : Nat → List Int → List Int) (seed : Nat) : Scrambler :=
  ⟨shuffle seed identityWiring⟩

/-- The loop of `Scrambler::Set` on the wiring vector: `while(rotor[0] != key)` rotate. -/
def setLoop : Nat → List Int → Int → Option (List Int)
  | 0, _, _ => none
  | fuel + 1, rotor, key =>
    match vecAt rotor 0 with
    | none => none
    | some front =>
      if front ≠ key then setLoop fuel (rotateOnce rotor) key else some rotor

/-- `Scrambler::Set`. -/
def Scrambler.Set (fuel : Nat) (s : Scrambler) (key : Int) : Option Scrambler :=
  (setLoop fuel s.rotor key).map (fun r => { s with rotor := r })

/-- `Scrambler::ChangeKey` (the base class version). -/
def Scrambler.ChangeKey (s : Scrambler) : Scrambler :=
  { s with rotor := rotateOnce s.rotor }

/-- `Scrambler::GoingEncipher`. -/
def Scrambler.GoingEncipher (s : Scrambler) (code : Int) : Option Int :=
  vecAt s.rotor code

/-- `Scrambler::ReturningEncipher`: without a match the uninitialised `temp` is returned. -/
def Scrambler.ReturningEncipher (s : Scrambler) (code : Int) : Option Int :=
  scanIndex s.rotor code

/-- Class `LatchingScrambler : public Scrambler`, with its counter `cnt`.  The pointer
`nextRing` is not stored: the owner passes the next ring and its `ChangeKey`. -/
structure LatchingScrambler extends Scrambler where
  cnt : Int
deriving DecidableEq

/-- Constructor `LatchingScrambler(nextScrambler, seed)`. -/
def LatchingScrambler.seeded (shuffle : Nat → List Int → List Int) (seed : Nat) :
    LatchingScrambler :=
  { toScrambler := Scrambler.seeded shuffle seed, cnt := 0 }

/-- `Scrambler::Set` called on a `LatchingScrambler`: the inherited loop, which rotates
the vector directly and does not go through `AddCnt`. -/
def LatchingScrambler.Set (fuel : Nat) (s : LatchingScrambler) (key : Int) :
    Option LatchingScrambler :=
  (setLoop fuel s.rotor key).map (fun r => { s with rotor := r })

/-- `LatchingScrambler::AddCnt`, with `AddNextCnt` (`nextRing->ChangeKey()`) inlined:
`next` is the state reachable through `nextRing` and `nextChangeKey` its
(virtual) `ChangeKey`. -/
def LatchingScrambler.AddCnt {ν : Type} (s : LatchingScrambler) (next : ν)
    (nextChangeKey : ν → ν) : LatchingScrambler × ν :=
  let cnt := s.cnt + 1
  if cnt = 26 then ({ s with cnt := 0 }, nextChangeKey next)
  else ({ s with cnt := cnt }, next)

/-- `LatchingScrambler::ChangeKey`. -/
def LatchingScrambler.ChangeKey {ν : Type} (s : LatchingScrambler) (next : ν)
    (nextChangeKey : ν → ν) : LatchingScrambler × ν :=
  LatchingScrambler.AddCnt { s with rotor := rotateOnce s.rotor } next nextChangeKey

/-! ## Reflector -/

/-- Class `Reflector`. -/
structure Reflector where
  reflector : List Int
deriving DecidableEq

/-- The loop `for(i = 0; i < 13; i++) std::swap(reflector[a[i]], reflector[a[25-i]])`,
run for the first `n` values of `i`. -/
def swapLoop (a : List Int) (n : Nat) (reflector : List Int) : Option (List Int) :=
  (List.range n).foldlM
    (fun refl i =>
      match vecAt a (Int.ofNat i), vecAt a (25 - Int.ofNat i) with
      | some p, some q => swapAt refl p q
      | _, _ => none)
    reflector

/-- Default constructor `Reflector()`: `std::swap(reflector[i], reflector[25 - i])`, which is
the seeded loop with the identity in place of `ref_copy`. -/
def Reflector.default : Option Reflector :=
  ((List.range 13).foldlM
    (fun refl i => swapAt refl (Int.ofNat i) (25 - Int.ofNat i)) identityWiring).map Reflector.mk

/-- The body of `Reflector(seed)` after the shuffle has produced `ref_copy`. -/
def Reflector.fromShuffled (ref_copy : List Int) : Option Reflector :=
  (swapLoop ref_copy 13 identityWiring).map Reflector.mk

/-- Constructor `Reflector(seed)`. -/
def Reflector.seeded (shuffle : Nat → List Int → List Int) (seed : Nat) : Option Reflector :=
  Reflector.fromShuffled (shuffle seed identityWiring)

/-- `Reflector::Reflect`. -/
def Reflector.Reflect (r : Reflector) (code : Int) : Option Int :=
  vecAt r.reflector code

/-! ## RingSet -/

/-- Class `RingSet`: the three rings it owns. -/
structure RingSet where
  ring3 : Scrambler
  ring2 : LatchingScrambler
  ring1 : LatchingScrambler
deriving DecidableEq

/-- Constructor `RingSet()`: seeds 30, 20, 10; `ring2` latches into `ring3`, `ring1` into `ring2`. -/
def RingSet.new (shuffle : Nat → List Int → List Int) : RingSet :=
  { ring3 := Scrambler.seeded shuffle 30
    ring2 := LatchingScrambler.seeded shuffle 20
    ring1 := LatchingScrambler.seeded shuffle 10 }

/-- `RingSet::KeySet`. -/
def RingSet.KeySet (fuel : Nat) (rs : RingSet) (keyset : List Int) : Option RingSet := do
  let k0 ← keyset[0]?
  let ring1 ← rs.ring1.Set fuel k0
  let k1 ← keyset[1]?
  let ring2 ← rs.ring2.Set fuel k1
  let k2 ← keyset[2]?
  let ring3 ← rs.ring3.Set fuel k2
  pure { ring3 := ring3, ring2 := ring2, ring1 := ring1 }

/-- The call `ring2->ChangeKey()`: the object is a `LatchingScrambler` whose `nextRing` is `ring3`. -/
def RingSet.ChangeKey2 (r23 : LatchingScrambler × Scrambler) : LatchingScrambler × Scrambler :=
  r23.1.ChangeKey r23.2 Scrambler.ChangeKey

/-- `RingSet::EndCycle`: `ring1->ChangeKey()`, whose `nextRing` is `ring2`. -/
def RingSet.EndCycle (rs : RingSet) : RingSet :=
  let r := rs.ring1.ChangeKey (rs.ring2, rs.ring3) RingSet.ChangeKey2
  { ring1 := r.1, ring2 := r.2.1, ring3 := r.2.2 }

/-- `RingSet::GoingEncipher`. -/
def RingSet.GoingEncipher (rs : RingSet) (code : Int) : Option Int := do
  let code_ ← rs.ring1.GoingEncipher code
  let code_ ← rs.ring2.GoingEncipher code_
  rs.ring3.GoingEncipher code_

/-- `RingSet::ReturningEncipher`. -/
def RingSet.ReturningEncipher (rs : RingSet) (code : Int) : Option Int := do
  let code_ ← rs.ring3.ReturningEncipher code
  let code_ ← rs.ring2.ReturningEncipher code_
  rs.ring1.ReturningEncipher code_

/-! ## Enigma -/

/-- Class `Enigma`. -/
structure Enigma where
  plugboard : Plugboard
  ringSet : RingSet
  reflector : Reflector
deriving DecidableEq

/-- Constructor `Enigma()`: `Plugboard(100)`, `RingSet()`, `Reflector(200)`. -/
def Enigma.new (shuffle : Nat → List Int → List Int) : Option Enigma :=
  (Reflector.seeded shuffle 200).map fun reflector =>
    { plugboard := Plugboard.seeded shuffle 100
      ringSet := RingSet.new shuffle
      reflector := reflector }

/-- `Enigma::KeySet`. -/
def Enigma.KeySet (fuel : Nat) (e : Enigma) (key : List Char) : Option Enigma :=
  let key_temp := key.map alphamapAt
  (e.ringSet.KeySet fuel key_temp).map (fun rs => { e with ringSet := rs })

/-- The five substitutions of the loop body of `Enigma::Encryption`, before
`cryptogram += ...` and `EndCycle`. -/
def Enigma.substitute (e : Enigma) (code : Int) : Option Int := do
  let temp ← e.plugboard.GoingEncipher code
  let temp ← e.ringSet.GoingEncipher temp
  let temp ← e.reflector.Reflect temp
  let temp ← e.ringSet.ReturningEncipher temp
  pure (e.plugboard.ReturningEncipher temp)

/-- The second loop of `Enigma::Encryption` over `code_temp`, threading the engine
and the growing `cryptogram`. -/
def Enigma.encryptLoop : List Int → Enigma → List Char → Option (List Char × Enigma)
  | [], e, cryptogram => some (cryptogram, e)
  | code :: rest, e, cryptogram =>
    match e.substitute code with
    | none => none
    | some temp =>
      Enigma.encryptLoop rest { e with ringSet := e.ringSet.EndCycle }
        (cryptogram ++ [alphaIDmapAt temp])

/-- `Enigma::Encryption`: the returned string and the engine it leaves behind. -/
def Enigma.Encryption (e : Enigma) (code : List Char) : Option (List Char × Enigma) :=
  Enigma.encryptLoop (code.map alphamapAt) e []

/-! ## Predicates, call sequences and the command line -/

/-- A position of the alphabet: an `int` in `0..25`. -/
def InRange (x : Int) : Prop := 0 ≤ x ∧ x < 26

instance (x : Int) : Decidable (InRange x) := by unfold InRange; infer_instance

/-- The vector holds each of `0..25` exactly once: it is a permutation of the identity vector. -/
def IsPermutation (v : List Int) : Prop := List.Perm v identityWiring

instance (v : List Int) : Decidable (IsPermutation v) := by unfold IsPermutation; infer_instance

/-- The vector is an involution of `0..25`: 26 entries, and reading twice returns to the start. -/
def IsInvolution (v : List Int) : Prop :=
  v.length = 26 ∧ ∀ n : Nat, n < 26 → (vecAt v (Int.ofNat n)).bind (vecAt v) = some (Int.ofNat n)

instance (v : List Int) : Decidable (IsInvolution v) := by unfold IsInvolution; infer_instance

/-- The three rotor vectors of a bank are permutations of `0..25`. -/
def RingSet.Wired (rs : RingSet) : Prop :=
  IsPermutation rs.ring1.rotor ∧ IsPermutation rs.ring2.rotor ∧ IsPermutation rs.ring3.rotor

instance (rs : RingSet) : Decidable rs.Wired := by unfold RingSet.Wired; infer_instance

/-- The plugboard and the rotors are permutations and the reflector is an involution. -/
def Enigma.Wired (e : Enigma) : Prop :=
  IsPermutation e.plugboard.plugboard ∧ e.ringSet.Wired ∧ IsInvolution e.reflector.reflector

instance (e : Enigma) : Decidable e.Wired := by unfold Enigma.Wired; infer_instance

/-- The engine after `n` calls of `RingSet::EndCycle`. -/
def Enigma.advance (e : Enigma) (n : Nat) : Enigma :=
  { e with ringSet := RingSet.EndCycle^[n] e.ringSet }

/-- The three rotor vectors of a bank, without the counters. -/
def RingSet.wirings (rs : RingSet) : List Int × List Int × List Int :=
  (rs.ring1.rotor, rs.ring2.rotor, rs.ring3.rotor)

/-- The call sequence `KeySet(K); c = Encryption(text); KeySet(K); p = Encryption(c)` on one
engine object; the result is the pair `(c, p)`. -/
def rekeyRoundTrip (fuel : Nat) (e : Enigma) (K text : List Char) :
    Option (List Char × List Char) :=
  (e.KeySet fuel K).bind fun e1 =>
    (e1.Encryption text).bind fun r1 =>
      (r1.2.KeySet fuel K).bind fun e3 =>
        (e3.Encryption r1.1).map fun r2 => (r1.1, r2.1)

/-- A shuffle that leaves the vector as it is (one of the possible outcomes). -/
def idShuffle : Nat → List Int → List Int := fun _ v => v

/-- The vector has 26 entries and holds each of `0..25` exactly once. -/
def EachOnce (v : List Int) : Prop :=
  v.length = 26 ∧ ∀ n : Nat, n < 26 → v.count (Int.ofNat n) = 1

instance (v : List Int) : Decidable (EachOnce v) := by unfold EachOnce; infer_instance

/-- The vector `w` is `v` moved right by one position, the last entry coming to the front. -/
def IsRightShiftOf (w v : List Int) : Prop :=
  w.length = v.length ∧ w[0]? = v[25]? ∧ ∀ i : Nat, i < 25 → w[i + 1]? = v[i]?

instance (w v : List Int) : Decidable (IsRightShiftOf w v) := by
  unfold IsRightShiftOf; infer_instance

/-- The three rings of a `RingSet`. -/
inductive Ring
  | ring1
  | ring2
  | ring3
deriving DecidableEq

/-- A call that can reach the rotors of an engine: `Set` or `ChangeKey` on one ring,
`RingSet::KeySet`, `RingSet::EndCycle`, `Enigma::Encryption`. -/
inductive Call
  | Set (ring : Ring) (key : Int)
  | ChangeKey (ring : Ring)
  | KeySet (keyset : List Int)
  | EndCycle
  | Encryption (code : List Char)
deriving DecidableEq

/-- The keys handed to `Set` and `KeySet` are alphabet positions, three of them for `KeySet`. -/
def Call.Valid : Call → Prop
  | Call.Set _ key => InRange key
  | Call.KeySet keyset => keyset.length = 3 ∧ ∀ k ∈ keyset, InRange k
  | _ => True

instance (c : Call) : Decidable c.Valid := by
  cases c <;> (unfold Call.Valid; infer_instance)

/-- One call on the engine.  `ChangeKey` is virtual: on `ring1` and `ring2` it is the
`LatchingScrambler` version, on `ring3` the base version. -/
def Enigma.call (fuel : Nat) (e : Enigma) : Call → Option Enigma
  | Call.Set Ring.ring1 key =>
    (e.ringSet.ring1.Set fuel key).map fun r => { e with ringSet := { e.ringSet with ring1 := r } }
  | Call.Set Ring.ring2 key =>
    (e.ringSet.ring2.Set fuel key).map fun r => { e with ringSet := { e.ringSet with ring2 := r } }
  | Call.Set Ring.ring3 key =>
    (e.ringSet.ring3.Set fuel key).map fun r => { e with ringSet := { e.ringSet with ring3 := r } }
  | Call.ChangeKey Ring.ring1 => some { e with ringSet := e.ringSet.EndCycle }
  | Call.ChangeKey Ring.ring2 =>
    let r := RingSet.ChangeKey2 (e.ringSet.ring2, e.ringSet.ring3)
    some { e with ringSet := { e.ringSet with ring2 := r.1, ring3 := r.2 } }
  | Call.ChangeKey Ring.ring3 =>
    some { e with ringSet := { e.ringSet with ring3 := e.ringSet.ring3.ChangeKey } }
  | Call.KeySet keyset => (e.ringSet.KeySet fuel keyset).map fun rs => { e with ringSet := rs }
  | Call.EndCycle => some { e with ringSet := e.ringSet.EndCycle }
  | Call.Encryption code => (e.Encryption code).map Prod.snd

/-- A sequence of calls on the engine, left to right. -/
def Enigma.calls (fuel : Nat) (e : Enigma) (cs : List Call) : Option Enigma :=
  cs.foldlM (Enigma.call fuel) e

/-- Default constructor `LatchingScrambler()`: the base default constructor, then `cnt = 0`. -/
def LatchingScrambler.default : LatchingScrambler :=
  { toScrambler := Scrambler.default, cnt := 0 }

/-- A call on one rotor through the base class: `ChangeKey()` or `Set(key)`. -/
inductive RotorCall
  | ChangeKey
  | Set (key : Int)
deriving DecidableEq

/-- The key handed to `Set` is an alphabet position. -/
def RotorCall.Valid : RotorCall → Prop
  | RotorCall.ChangeKey => True
  | RotorCall.Set key => InRange key

instance (c : RotorCall) : Decidable c.Valid := by
  cases c <;> (unfold RotorCall.Valid; infer_instance)

/-- One call on a rotor. -/
def Scrambler.call (fuel : Nat) (s : Scrambler) : RotorCall → Option Scrambler
  | RotorCall.ChangeKey => some s.ChangeKey
  | RotorCall.Set key => s.Set fuel key

/-- A sequence of calls on a rotor, left to right. -/
def Scrambler.calls (fuel : Nat) (s : Scrambler) (cs : List RotorCall) : Option Scrambler :=
  cs.foldlM (Scrambler.call fuel) s

/-- A shuffle that turns the vector left by `seed` places (another possible outcome). -/
def rotateShuffle : Nat → List Int → List Int := fun seed v => v.rotate seed

/-- Function object `ToUpper`: `toupper(c)`. -/
def ToUpper (c : Char) : Char := c.toUpper

/-- Function object `IsDigit`: `isdigit(c)` is non-zero exactly on the decimal digits; the
functor hands that result on as a `char`, which the embedding takes to stay non-zero. -/
def IsDigit (c : Char) : Bool := c.isDigit

/-- Class `Arguments`, reduced to the two fields the cipher reads; file names and the display
mode are left out (the embedding covers command lines without `-t -d -k -f -o -h`). -/
structure Arguments where
  key_ : List Char
  code_ : List Char
deriving DecidableEq

/-- Default constructor `Arguments()`. -/
def Arguments.new : Arguments := { key_ := "OOO".toList, code_ := [] }

/-- `GetOption` for a command line `[-s optarg] word...`: the status and the arguments object.
`sOpt` is the argument of `-s` when the option is given, `words` are the remaining `argv`
entries, which the loop `for(;optind<argc; optind++)` appends to `code`. -/
def GetOption (sOpt : Option (List Char)) (words : List (List Char)) (arguments : Arguments) :
    Int × Arguments :=
  let checked : Option (List Char) :=
    match sOpt with
    | none => some arguments.key_
    | some optarg =>
      let key := optarg.map ToUpper
      if key.any IsDigit || key.length ≠ 3 then none else some key
  match checked with
  | none => (-1, arguments)
  | some key =>
    let code := arguments.code_ ++ words.flatten
    if code.all (fun c => !IsDigit c) then
      (0, { key_ := key, code_ := code.map ToUpper })
    else (-1, arguments)

/-- What `main` leaves behind: exit status, the engine object and the string `cryptogram`. -/
structure MainResult where
  status : Int
  enigma : Enigma
  cryptogram : List Char
deriving DecidableEq

/-- Function `main` for a command line `[-s optarg] word...` (so `Execute` runs
`Encryption`); `argc == 1` is the command line without option and word. -/
def main (shuffle : Nat → List Int → List Int) (fuel : Nat) (sOpt : Option (List Char))
    (words : List (List Char)) : Option MainResult :=
  (Enigma.new shuffle).bind fun enigma =>
    if sOpt = none ∧ words = [] then some ⟨-1, enigma, []⟩
    else
      let r := GetOption sOpt words Arguments.new
      if r.1 < 0 then some ⟨-1, enigma, []⟩
      else
        (enigma.KeySet fuel r.2.key_).bind fun keyed =>
          (keyed.Encryption r.2.code_).map fun out => ⟨0, out.2, out.1⟩

/-! ## Display variants

`std::cout` is the list of the pieces written so far, oldest first; every function that
prints takes the stream and returns it extended. -/

/-- `Plugboard::VisibleGoingEncipher`. -/
def Plugboard.VisibleGoingEncipher (p : Plugboard) (code : Int) (cout : List String) :
    Option (Int × List String) :=
  let cout := cout ++ ["\t  ", String.singleton (alphaIDmapAt code), " --> "]
  match vecAt p.plugboard code with
  | none => none
  | some code_ => some (code_, cout ++ [String.singleton (alphaIDmapAt code_), " --> "])

/-- `Plugboard::VisibleReturningEncipher`: `code_` starts at `0`, as in `ReturningEncipher`. -/
def Plugboard.VisibleReturningEncipher (p : Plugboard) (code : Int) (cout : List String) :
    Int × List String :=
  let code_ : Int :=
    match scanIndex p.plugboard code with
    | some i => i
    | none => 0
  (code_, cout ++ [String.singleton (alphaIDmapAt code_), "\n"])

/-- `Plugboard::ShowKeyArray`. -/
def Plugboard.ShowKeyArray (p : Plugboard) (cout : List String) : List String :=
  cout ++ ["\t  Plugboard [ "]
    ++ p.plugboard.flatMap (fun tmp => [String.singleton (alphaIDmapAt tmp), " "]) ++ ["]", "\n"]

/-- `Scrambler::VisibleGoingEncipher`. -/
def Scrambler.VisibleGoingEncipher (s : Scrambler) (code : Int) (cout : List String) :
    Option (Int × List String) :=
  match vecAt s.rotor code with
  | none => none
  | some code_ => some (code_, cout ++ [String.singleton (alphaIDmapAt code_), " --> "])

/-- `Scrambler::VisibleReturningEncipher`: unlike `ReturningEncipher`, `code_` starts at `0`
and keeps it when the scan finds nothing. -/
def Scrambler.VisibleReturningEncipher (s : Scrambler) (code : Int) (cout : List String) :
    Int × List String :=
  let code_ : Int :=
    match scanIndex s.rotor code with
    | some i => i
    | none => 0
  (code_, cout ++ [String.singleton (alphaIDmapAt code_), " --> "])

/-- `Scrambler::ShowKeyArray`. -/
def Scrambler.ShowKeyArray (s : Scrambler) (cout : List String) : List String :=
  cout ++ ["[ "] ++ s.rotor.flatMap (fun tmp => [String.singleton (alphaIDmapAt tmp), " "])
    ++ ["]", "\n"]

/-- `Reflector::VisibleReflect`. -/
def Reflector.VisibleReflect (r : Reflector) (code : Int) (cout : List String) :
    Option (Int × List String) :=
  match vecAt r.reflector code with
  | none => none
  | some code_ => some (code_, cout ++ [String.singleton (alphaIDmapAt code_), " --> "])

/-- `Reflector::ShowKeyArray`. -/
def Reflector.ShowKeyArray (r : Reflector) (cout : List String) : List String :=
  cout ++ ["\t  Reflector [ "]
    ++ r.reflector.flatMap (fun tmp => [String.singleton (alphaIDmapAt tmp), " "]) ++ ["]", "\n"]

/-- `RingSet::VisibleGoingEncipher`. -/
def RingSet.VisibleGoingEncipher (rs : RingSet) (code : Int) (cout : List String) :
    Option (Int × List String) :=
  match rs.ring1.VisibleGoingEncipher code cout with
  | none => none
  | some (code_, cout) =>
    match rs.ring2.VisibleGoingEncipher code_ cout with
    | none => none
    | some (code_, cout) => rs.ring3.VisibleGoingEncipher code_ cout

/-- `RingSet::VisibleReturningEncipher`. -/
def RingSet.VisibleReturningEncipher (rs : RingSet) (code : Int) (cout : List String) :
    Int × List String :=
  let r3 := rs.ring3.VisibleReturningEncipher code cout
  let r2 := rs.ring2.VisibleReturningEncipher r3.1 r3.2
  rs.ring1.VisibleReturningEncipher r2.1 r2.2

/-- `RingSet::ShowKeyArray`. -/
def RingSet.ShowKeyArray (rs : RingSet) (cout : List String) : List String :=
  let cout := rs.ring1.ShowKeyArray (cout ++ ["\t  Ring1     "])
  let cout := rs.ring2.ShowKeyArray (cout ++ ["\t  Ring2     "])
  rs.ring3.ShowKeyArray (cout ++ ["\t  Ring3     "])

/-- `Enigma::ShowKeyArray`. -/
def Enigma.ShowKeyArray (e : Enigma) (cout : List String) : List String :=
  let cout := cout ++
    ["\t            [ A B C D E F G H I J K L M N O P Q R S T U V W X Y Z ]", "\n",
     "\t              | | | | | | | | | | | | | | | | | | | | | | | | | |  ", "\n"]
  e.reflector.ShowKeyArray (e.ringSet.ShowKeyArray (e.plugboard.ShowKeyArray cout))

/-- The five `Visible...` calls of the loop bodies of `VisibleEncryption` and
`KeyVisibleEncryption`. -/
def Enigma.visibleSubstitute (e : Enigma) (code : Int) (cout : List String) :
    Option (Int × List String) :=
  match e.plugboard.VisibleGoingEncipher code cout with
  | none => none
  | some (temp, cout) =>
    match e.ringSet.VisibleGoingEncipher temp cout with
    | none => none
    | some (temp, cout) =>
      match e.reflector.VisibleReflect temp cout with
      | none => none
      | some (temp, cout) =>
        let r := e.ringSet.VisibleReturningEncipher temp cout
        some (e.plugboard.VisibleReturningEncipher r.1 r.2)

/-- The second loop of `Enigma::VisibleEncryption`. -/
def Enigma.visibleLoop :
    List Int → Enigma → List Char → List String → Option (List Char × Enigma × List String)
  | [], e, cryptogram, cout => some (cryptogram, e, cout)
  | code :: rest, e, cryptogram, cout =>
    match e.visibleSubstitute code cout with
    | none => none
    | some (temp, cout) =>
      Enigma.visibleLoop rest { e with ringSet := e.ringSet.EndCycle }
        (cryptogram ++ [alphaIDmapAt temp]) cout

/-- `Enigma::VisibleEncryption`: the returned string, the engine it leaves behind and the
stream. -/
def Enigma.VisibleEncryption (e : Enigma) (code : List Char) (cout : List String) :
    Option (List Char × Enigma × List String) :=
  let cout := cout ++ ["\tCode Conversion Process\n",
    "\t    Plg   Ri1   Ri2   Ri3   Ref   Ri3   Ri2   Ri1   Plg\n"]
  match Enigma.visibleLoop (code.map alphamapAt) e [] cout with
  | none => none
  | some (cryptogram, e, cout) => some (cryptogram, e, cout ++ ["\n"])

/-- The second loop of `Enigma::KeyVisibleEncryption`, from loop index `i`. -/
def Enigma.keyVisibleLoop :
    List Int → Nat → Enigma → List Char → List String →
      Option (List Char × Enigma × List String)
  | [], _, e, cryptogram, cout => some (cryptogram, e, cout)
  | code :: rest, i, e, cryptogram, cout =>
    let cout := cout ++ ["\tKey Array : ", toString (i + 1), "cycle\n"]
    let cout := e.ShowKeyArray cout
    let cout := cout ++ ["\n", "\tCode Conversion Process\n",
      "\t    Plg   Ri1   Ri2   Ri3   Ref   Ri3   Ri2   Ri1   Plg\n"]
    match e.visibleSubstitute code cout with
    | none => none
    | some (temp, cout) =>
      Enigma.keyVisibleLoop rest (i + 1) { e with ringSet := e.ringSet.EndCycle }
        (cryptogram ++ [alphaIDmapAt temp]) (cout ++ ["\n"])

/-- `Enigma::KeyVisibleEncryption`: the returned string, the engine it leaves behind and the
stream. -/
def Enigma.KeyVisibleEncryption (e : Enigma) (code : List Char) (cout : List String) :
    Option (List Char × Enigma × List String) :=
  match Enigma.keyVisibleLoop (code.map alphamapAt) 0 e [] cout with
  | none => none
  | some (cryptogram, e, cout) => some (cryptogram, e, cout ++ ["\n"])

/-- The engine reached from the constructor by a sequence of calls. -/
def Enigma.reached (shuffle : Nat → List Int → List Int) (fuel : Nat) (cs : List Call) :
    Option Enigma :=
  (Enigma.new shuffle).bind fun e => e.calls fuel cs

/-! ## Odometer predicates -/

/-- The bank `rs` is the bank `rs0` after `n` calls of `EndCycle` counted as an odometer:
`ring1` turned `n` times, `ring2` once per 26 and `ring3` once per 676 calls, the counters
holding the two lower base-26 digits of `n`. -/
def RingSet.IsOdometerAt (rs rs0 : RingSet) (n : Nat) : Prop :=
  rs.ring1.rotor = rotateOnce^[n] rs0.ring1.rotor ∧
  rs.ring2.rotor = rotateOnce^[n / 26] rs0.ring2.rotor ∧
  rs.ring3.rotor = rotateOnce^[n / 676] rs0.ring3.rotor ∧
  rs.ring1.cnt = Int.ofNat (n % 26) ∧ rs.ring2.cnt = Int.ofNat (n / 26 % 26) ∧
  0 ≤ rs.ring1.cnt ∧ rs.ring1.cnt ≤ 25 ∧ 0 ≤ rs.ring2.cnt ∧ rs.ring2.cnt ≤ 25

/-- One call of `EndCycle` turned `ring2` and `ring3` not at all or once each. -/
def RingSet.CarriedAtMostOnce (rs' rs : RingSet) : Prop :=
  (rs'.ring2.rotor = rs.ring2.rotor ∨ rs'.ring2.rotor = rotateOnce rs.ring2.rotor) ∧
  (rs'.ring3.rotor = rs.ring3.rotor ∨ rs'.ring3.rotor = rotateOnce rs.ring3.rotor)

/-! ## Fixed-point-free reflectors and bank call sequences -/

/-- The vector wires the 26 positions to positions and no position to itself. -/
def IsFixedPointFree (v : List Int) : Prop :=
  v.length = 26 ∧ (∀ y ∈ v, InRange y) ∧
    ∀ n : Nat, n < 26 → vecAt v (Int.ofNat n) ≠ some (Int.ofNat n)

instance (v : List Int) : Decidable (IsFixedPointFree v) := by
  unfold IsFixedPointFree; infer_instance

/-- The plugboard and the rotors are permutations and the reflector has no fixed point. -/
def Enigma.Deranging (e : Enigma) : Prop :=
  IsPermutation e.plugboard.plugboard ∧ e.ringSet.Wired ∧
    IsFixedPointFree e.reflector.reflector

/-- A call on the bank: `RingSet::KeySet` with three keys, or `RingSet::EndCycle`. -/
inductive BankCall
  | KeySet (k0 k1 k2 : Int)
  | EndCycle
deriving DecidableEq

/-- The keys handed to `KeySet` are alphabet positions. -/
def BankCall.Valid : BankCall → Prop
  | BankCall.KeySet k0 k1 k2 => InRange k0 ∧ InRange k1 ∧ InRange k2
  | BankCall.EndCycle => True

instance (c : BankCall) : Decidable c.Valid := by
  cases c <;> (unfold BankCall.Valid; infer_instance)

/-- One call on the bank. -/
def RingSet.call (fuel : Nat) (rs : RingSet) : BankCall → Option RingSet
  | BankCall.KeySet k0 k1 k2 => rs.KeySet fuel [k0, k1, k2]
  | BankCall.EndCycle => some rs.EndCycle

/-- A sequence of calls on the bank, left to right. -/
def RingSet.calls (fuel : Nat) (rs : RingSet) (cs : List BankCall) : Option RingSet :=
  cs.foldlM (RingSet.call fuel) rs

/-! ## Theorems -/

theorem identityWiring_length : identityWiring.length = 26 := by decide

theorem mem_identityWiring (x : Int) : x ∈ identityWiring ↔ InRange x := by
  unfold identityWiring InRange
  simp only [List.mem_map, List.mem_range]
  constructor
  · rintro ⟨n, hn, rfl⟩
    simp only [Int.ofNat_eq_coe]
    omega
  · rintro ⟨h0, h1⟩
    refine ⟨x.toNat, by omega, ?_⟩
    simp only [Int.ofNat_eq_coe]
    omega

theorem identityWiring_nodup : identityWiring.Nodup := by decide

theorem IsPermutation.length_eq {v : List Int} (h : IsPermutation v) : v.length = 26 := by
  rw [List.Perm.length_eq h, identityWiring_length]

theorem IsPermutation.mem_iff {v : List Int} (h : IsPermutation v) (x : Int) :
    x ∈ v ↔ InRange x := by
  rw [List.Perm.mem_iff h, mem_identityWiring]

theorem IsPermutation.nodup {v : List Int} (h : IsPermutation v) : v.Nodup :=
  (List.Perm.nodup_iff h).mpr identityWiring_nodup

theorem vecAt_natCast (v : List Int) (i : Nat) : vecAt v (i : Int) = v[i]? := by
  simp [vecAt]

/-- On a permutation the element access is defined on every position, lands on a position,
and the scan brings it back. -/
theorem IsPermutation.vecAt_scan {v : List Int} (h : IsPermutation v) {x : Int}
    (hx : InRange x) :
    ∃ y, vecAt v x = some y ∧ InRange y ∧ scanIndex v y = some x := by
  obtain ⟨h0, h1⟩ := hx
  have hlen := h.length_eq
  have hi : x.toNat < v.length := by omega
  refine ⟨v[x.toNat], ?_, ?_, ?_⟩
  · simp [vecAt, h0, List.getElem?_eq_getElem hi]
  · exact (h.mem_iff _).mp (List.getElem_mem hi)
  · have hidx : v.indexOf v[x.toNat] = x.toNat := List.indexOf_getElem h.nodup _ hi
    simp only [scanIndex, hidx, hi, if_true, Int.ofNat_eq_coe]
    congr 1
    omega

/-- On a permutation the scan finds every position, at a position, and the element access
brings it back. -/
theorem IsPermutation.scan_vecAt {v : List Int} (h : IsPermutation v) {y : Int}
    (hy : InRange y) :
    ∃ x, scanIndex v y = some x ∧ InRange x ∧ vecAt v x = some y := by
  have hmem : y ∈ v := (h.mem_iff y).mpr hy
  have hlt : v.indexOf y < v.length := List.indexOf_lt_length.mpr hmem
  have hlen := h.length_eq
  refine ⟨(v.indexOf y : Nat), ?_, ?_, ?_⟩
  · simp [scanIndex, hlt]
  · constructor <;> omega
  · rw [vecAt_natCast, List.getElem?_eq_getElem hlt, List.getElem_indexOf hlt]

theorem rotateOnce_eq_rotate (r : List Int) : rotateOnce r = r.rotate (r.length - 1) := by
  rcases List.eq_nil_or_concat r with h | ⟨init, b, h⟩
  · subst h; rfl
  · rw [List.concat_eq_append] at h
    subst h
    have h1 : (init ++ [b]).getLast? = some b := by simp
    have h2 : (b :: (init ++ [b])).dropLast = b :: init := by
      have : b :: (init ++ [b]) = (b :: init) ++ [b] := rfl
      rw [this, List.dropLast_concat]
    have h3 : (init ++ [b]).length - 1 = init.length := by simp
    rw [rotateOnce, h1]
    simp only [h2, h3]
    rw [List.rotate_append_length_eq]
    rfl

theorem rotateOnce_length (r : List Int) : (rotateOnce r).length = r.length := by
  rw [rotateOnce_eq_rotate, List.length_rotate]

theorem rotateOnce_iterate (k : Nat) (r : List Int) :
    rotateOnce^[k] r = r.rotate (k * (r.length - 1)) := by
  induction k generalizing r with
  | zero => simp
  | succ k ih =>
    rw [Function.iterate_succ_apply, ih, rotateOnce_length, rotateOnce_eq_rotate,
      List.rotate_rotate]
    congr 1
    ring

theorem rotateOnce_iterate_length (k : Nat) (r : List Int) :
    (rotateOnce^[k] r).length = r.length := by
  rw [rotateOnce_iterate, List.length_rotate]

theorem IsPermutation.rotated {r : List Int} (h : IsPermutation r) :
    IsPermutation (rotateOnce r) := by
  unfold IsPermutation
  rw [rotateOnce_eq_rotate]
  exact (List.rotate_perm r _).trans h

theorem IsPermutation.rotated_iterate {r : List Int} (h : IsPermutation r) (k : Nat) :
    IsPermutation (rotateOnce^[k] r) := by
  unfold IsPermutation
  rw [EnigmaCpp.rotateOnce_iterate]
  exact (List.rotate_perm r _).trans h

/-- Two numbers of rotations give the same vector exactly when they agree modulo 26. -/
theorem IsPermutation.iterate_eq_iff {r : List Int} (h : IsPermutation r)
    (i j : Nat) : rotateOnce^[i] r = rotateOnce^[j] r ↔ i % 26 = j % 26 := by
  rw [EnigmaCpp.rotateOnce_iterate, EnigmaCpp.rotateOnce_iterate,
    h.nodup.rotate_congr_iff, h.length_eq]
  constructor
  · rintro (h1 | h1)
    · omega
    · have := h.length_eq
      rw [h1] at this
      simp at this
  · intro h1
    left
    omega

theorem IsPermutation.iterate_26 {r : List Int} (h : IsPermutation r) :
    rotateOnce^[26] r = r := by
  have := (h.iterate_eq_iff 26 0).mpr (by norm_num)
  simpa using this

theorem vecAt_inRange_of_length {v : List Int} (hlen : v.length = 26) {x y : Int}
    (h : vecAt v x = some y) : InRange x := by
  unfold vecAt at h
  split at h
  · rename_i h0
    have := (List.getElem?_eq_some_iff.mp h).1
    constructor <;> omega
  · cases h

theorem IsInvolution.reflect {v : List Int} (h : IsInvolution v) {x : Int} (hx : InRange x) :
    ∃ y, vecAt v x = some y ∧ InRange y ∧ vecAt v y = some x := by
  obtain ⟨h0, h1⟩ := hx
  have h2 := h.2 x.toNat (by omega)
  have hx' : Int.ofNat x.toNat = x := by simp only [Int.ofNat_eq_coe]; omega
  rw [hx'] at h2
  cases hv : vecAt v x with
  | none => rw [hv] at h2; cases h2
  | some y =>
    rw [hv] at h2
    exact ⟨y, rfl, vecAt_inRange_of_length h.1 h2, h2⟩

theorem RingSet.Wired.going_returning {rs : RingSet} (h : rs.Wired) {x : Int} (hx : InRange x) :
    ∃ y, rs.GoingEncipher x = some y ∧ InRange y ∧ rs.ReturningEncipher y = some x := by
  obtain ⟨a, ha, hra, hsa⟩ := h.1.vecAt_scan hx
  obtain ⟨b, hb, hrb, hsb⟩ := h.2.1.vecAt_scan hra
  obtain ⟨c, hc, hrc, hsc⟩ := h.2.2.vecAt_scan hrb
  refine ⟨c, ?_, hrc, ?_⟩
  · simp [RingSet.GoingEncipher, Scrambler.GoingEncipher, ha, hb, hc]
  · simp [RingSet.ReturningEncipher, Scrambler.ReturningEncipher, hsa, hsb, hsc]

theorem RingSet.Wired.returning_going {rs : RingSet} (h : rs.Wired) {y : Int} (hy : InRange y) :
    ∃ x, rs.ReturningEncipher y = some x ∧ InRange x ∧ rs.GoingEncipher x = some y := by
  obtain ⟨c, hc, hrc, hsc⟩ := h.2.2.scan_vecAt hy
  obtain ⟨b, hb, hrb, hsb⟩ := h.2.1.scan_vecAt hrc
  obtain ⟨a, ha, hra, hsa⟩ := h.1.scan_vecAt hrb
  refine ⟨a, ?_, hra, ?_⟩
  · simp [RingSet.ReturningEncipher, Scrambler.ReturningEncipher, ha, hb, hc]
  · simp [RingSet.GoingEncipher, Scrambler.GoingEncipher, hsa, hsb, hsc]

/-- At a fixed alignment the substitution of a wired engine is defined on every position
and is its own inverse. -/
theorem Enigma.Wired.substitute_pair {e : Enigma} (h : e.Wired) {x : Int} (hx : InRange x) :
    ∃ y, e.substitute x = some y ∧ InRange y ∧ e.substitute y = some x := by
  obtain ⟨hp, hr, hf⟩ := h
  obtain ⟨a, ha, hra, hsa⟩ := hp.vecAt_scan hx
  obtain ⟨b, hb, hrb, hsb⟩ := hr.going_returning hra
  obtain ⟨c, hc, hrc, hsc⟩ := hf.reflect hrb
  obtain ⟨d, hd, hrd, hsd⟩ := hr.returning_going hrc
  obtain ⟨y, hy, hry, hsy⟩ := hp.scan_vecAt hrd
  refine ⟨y, ?_, hry, ?_⟩
  · simp [Enigma.substitute, Plugboard.GoingEncipher, Plugboard.ReturningEncipher,
      Reflector.Reflect, ha, hb, hc, hd, hy]
  · simp [Enigma.substitute, Plugboard.GoingEncipher, Plugboard.ReturningEncipher,
      Reflector.Reflect, hsy, hsd, hsc, hsb, hsa]

/-- Claim C1 (per-symbol reciprocity).  For a plugboard `p` and rotors `r1 r2 r3` that are
permutations of `0..25`, a reflector that is an involution, any number `k1 k2 k3` of rotations
of the rotors, any counter values and any position `x` in `0..25`, the substitution `E` of
one pass of the loop body of `Enigma::Encryption` is defined at `x`, yields a position `y`,
and `E y = x` at the same alignment. -/
theorem substitute_reciprocal (p r1 r2 r3 refl : List Int) (k1 k2 k3 : Nat) (c1 c2 : Int)
    (hp : IsPermutation p) (h1 : IsPermutation r1) (h2 : IsPermutation r2)
    (h3 : IsPermutation r3) (hrefl : IsInvolution refl) (x : Int) (hx : InRange x) :
    ∃ y, InRange y ∧
      Enigma.substitute
        { plugboard := ⟨p⟩
          ringSet :=
            { ring3 := ⟨rotateOnce^[k3] r3⟩
              ring2 := { rotor := rotateOnce^[k2] r2, cnt := c2 }
              ring1 := { rotor := rotateOnce^[k1] r1, cnt := c1 } }
          reflector := ⟨refl⟩ } x = some y ∧
      Enigma.substitute
        { plugboard := ⟨p⟩
          ringSet :=
            { ring3 := ⟨rotateOnce^[k3] r3⟩
              ring2 := { rotor := rotateOnce^[k2] r2, cnt := c2 }
              ring1 := { rotor := rotateOnce^[k1] r1, cnt := c1 } }
          reflector := ⟨refl⟩ } y = some x := by
  have hw : Enigma.Wired
      { plugboard := ⟨p⟩
        ringSet :=
          { ring3 := ⟨rotateOnce^[k3] r3⟩
            ring2 := { rotor := rotateOnce^[k2] r2, cnt := c2 }
            ring1 := { rotor := rotateOnce^[k1] r1, cnt := c1 } }
        reflector := ⟨refl⟩ } :=
    ⟨hp, ⟨h1.rotated_iterate k1, h2.rotated_iterate k2, h3.rotated_iterate k3⟩, hrefl⟩
  obtain ⟨y, hy, hry, hsy⟩ := hw.substitute_pair hx
  exact ⟨y, hry, hy, hsy⟩

theorem substitute_reciprocal_witness :
    IsPermutation (identityWiring.rotate 22) ∧ IsPermutation (identityWiring.rotate 10) ∧
    IsPermutation (identityWiring.rotate 20) ∧ IsPermutation identityWiring.reverse ∧
    IsInvolution (identityWiring.rotate 13) ∧ InRange 7 ∧
    ∃ y, InRange y ∧
      Enigma.substitute
        { plugboard := ⟨identityWiring.rotate 22⟩
          ringSet :=
            { ring3 := ⟨rotateOnce^[5] identityWiring.reverse⟩
              ring2 := { rotor := rotateOnce^[4] (identityWiring.rotate 20), cnt := 2 }
              ring1 := { rotor := rotateOnce^[3] (identityWiring.rotate 10), cnt := 1 } }
          reflector := ⟨identityWiring.rotate 13⟩ } 7 = some y ∧
      Enigma.substitute
        { plugboard := ⟨identityWiring.rotate 22⟩
          ringSet :=
            { ring3 := ⟨rotateOnce^[5] identityWiring.reverse⟩
              ring2 := { rotor := rotateOnce^[4] (identityWiring.rotate 20), cnt := 2 }
              ring1 := { rotor := rotateOnce^[3] (identityWiring.rotate 10), cnt := 1 } }
          reflector := ⟨identityWiring.rotate 13⟩ } y = some 7 :=
  ⟨by decide, by decide, by decide, by decide, by decide, by decide,
    substitute_reciprocal (identityWiring.rotate 22) (identityWiring.rotate 10)
      (identityWiring.rotate 20) identityWiring.reverse (identityWiring.rotate 13) 3 4 5 1 2
      (by decide) (by decide) (by decide) (by decide) (by decide) 7 (by decide)⟩

theorem vecAt_set (v : List Int) (i : Nat) (x : Int) (z : Int) (hi : i < v.length) :
    vecAt (v.set i x) z = if z = (i : Int) then some x else vecAt v z := by
  unfold vecAt
  by_cases h0 : 0 ≤ z
  · simp only [h0, if_true]
    by_cases hz : z = (i : Int)
    · subst hz
      simp [List.getElem?_set, hi]
    · have hne : i ≠ z.toNat := by omega
      simp [hz, List.getElem?_set, hne]
  · have hz : z ≠ (i : Int) := by omega
    simp [h0, hz]

theorem vecAt_lt_length {v : List Int} {x y : Int} (h : vecAt v x = some y) :
    0 ≤ x ∧ x.toNat < v.length := by
  unfold vecAt at h
  split at h
  · rename_i h0
    exact ⟨h0, (List.getElem?_eq_some_iff.mp h).1⟩
  · cases h

/-- What `std::swap(v[p], v[q])` leaves in the vector. -/
theorem swapAt_spec {v : List Int} {p q x y : Int} (hp : vecAt v p = some x)
    (hq : vecAt v q = some y) :
    ∃ w, swapAt v p q = some w ∧ w.length = v.length ∧
      ∀ z, vecAt w z = if z = q then some x else if z = p then some y else vecAt v z := by
  obtain ⟨hp0, hpl⟩ := vecAt_lt_length hp
  obtain ⟨hq0, hql⟩ := vecAt_lt_length hq
  refine ⟨(v.set p.toNat y).set q.toNat x, ?_, ?_, ?_⟩
  · simp [swapAt, hp, hq]
  · simp
  · intro z
    rw [vecAt_set _ _ _ _ (by simpa using hql), vecAt_set _ _ _ _ hpl]
    have e1 : ((q.toNat : Nat) : Int) = q := by omega
    have e2 : ((p.toNat : Nat) : Int) = p := by omega
    rw [e1, e2]

theorem swapLoop_succ (a : List Int) (n : Nat) (v : List Int) :
    swapLoop a (n + 1) v =
      (swapLoop a n v).bind (fun refl =>
        match vecAt a (Int.ofNat n), vecAt a (25 - Int.ofNat n) with
        | some p, some q => swapAt refl p q
        | _, _ => none) := by
  simp [swapLoop, List.range_succ, List.foldlM_append]

theorem vecAt_identityWiring {p : Int} (hp : InRange p) : vecAt identityWiring p = some p := by
  have key : ∀ n : Nat, n < 26 → vecAt identityWiring (Int.ofNat n) = some (Int.ofNat n) := by
    decide
  obtain ⟨h0, h1⟩ := hp
  have := key p.toNat (by omega)
  have e : Int.ofNat p.toNat = p := by simp only [Int.ofNat_eq_coe]; omega
  rwa [e] at this

theorem IsPermutation.vecAt_inj {a : List Int} (ha : IsPermutation a) {x y p : Int}
    (hx : vecAt a x = some p) (hy : vecAt a y = some p) : x = y := by
  obtain ⟨p1, h1, -, s1⟩ := ha.vecAt_scan (vecAt_inRange_of_length ha.length_eq hx)
  obtain ⟨p2, h2, -, s2⟩ := ha.vecAt_scan (vecAt_inRange_of_length ha.length_eq hy)
  rw [hx] at h1
  rw [hy] at h2
  cases h1
  cases h2
  rw [s1] at s2
  exact Option.some.inj s2

/-- State of the reflector vector after `n` rounds of the seeded swap loop: the positions
`ref_copy[j]` with `j < n` or `25 - n < j` hold their partner `ref_copy[25 - j]`, all
others still hold themselves. -/
theorem swapLoop_invariant {a : List Int} (ha : IsPermutation a) (n : Nat) (hn : n ≤ 13) :
    ∃ w, swapLoop a n identityWiring = some w ∧ w.length = 26 ∧
      ∀ j : Nat, j < 26 → ∀ p q, vecAt a (j : Int) = some p → vecAt a (25 - (j : Int)) = some q →
        vecAt w p = some (if j < n ∨ 25 - n < j then q else p) := by
  induction n with
  | zero =>
    refine ⟨identityWiring, rfl, identityWiring_length, ?_⟩
    intro j hj p q hp _
    obtain ⟨p', hp', hr, -⟩ := ha.vecAt_scan (x := (j : Int)) ⟨by omega, by omega⟩
    rw [hp] at hp'
    cases hp'
    simp only [Nat.not_lt_zero, Nat.sub_zero, false_or]
    have : ¬ 25 < j := by omega
    simp only [this, if_false]
    exact vecAt_identityWiring hr
  | succ n ih =>
    obtain ⟨w, hw, hlen, hinv⟩ := ih (by omega)
    obtain ⟨p0, hp0, hrp0, -⟩ := ha.vecAt_scan (x := (n : Int)) ⟨by omega, by omega⟩
    obtain ⟨q0, hq0, hrq0, -⟩ := ha.vecAt_scan (x := 25 - (n : Int)) ⟨by omega, by omega⟩
    have hwp : vecAt w p0 = some p0 := by
      have := hinv n (by omega) p0 q0 hp0 hq0
      have c : ¬ (n < n ∨ 25 - n < n) := by omega
      simpa only [c, if_false] using this
    have hwq : vecAt w q0 = some q0 := by
      have e1 : (((25 - n : Nat) : Nat) : Int) = 25 - (n : Int) := by omega
      have e2 : 25 - (((25 - n : Nat) : Nat) : Int) = (n : Int) := by omega
      have := hinv (25 - n) (by omega) q0 p0 (by rw [e1]; exact hq0) (by rw [e2]; exact hp0)
      have c : ¬ (25 - n < n ∨ 25 - n < 25 - n) := by omega
      simpa only [c, if_false] using this
    obtain ⟨w', hw', hlen', hspec⟩ := swapAt_spec hwp hwq
    refine ⟨w', ?_, by rw [hlen', hlen], ?_⟩
    · rw [swapLoop_succ, hw]
      simp only [Option.bind_some, Int.ofNat_eq_coe, hp0, hq0]
      exact hw'
    · intro j hj p q hp hq
      rw [hspec]
      by_cases hjn : j = n
      · subst hjn
        rw [hp0] at hp
        rw [hq0] at hq
        cases hp
        cases hq
        have hne : p0 ≠ q0 := by
          intro heq
          rw [heq] at hp0
          have := ha.vecAt_inj hp0 hq0
          omega
        have c : j < j + 1 ∨ 25 - (j + 1) < j := by omega
        simp only [hne, c, if_true, if_false]
      · by_cases hjm : j = 25 - n
        · have e1 : ((j : Nat) : Int) = 25 - (n : Int) := by omega
          have e2 : 25 - ((j : Nat) : Int) = (n : Int) := by omega
          rw [e1, hq0] at hp
          rw [e2, hp0] at hq
          cases hp
          cases hq
          have c : j < n + 1 ∨ 25 - (n + 1) < j := by omega
          simp only [c, if_true]
        · have hpq : p ≠ q0 := by
            intro heq
            rw [heq] at hp
            have := ha.vecAt_inj hp hq0
            omega
          have hpp : p ≠ p0 := by
            intro heq
            rw [heq] at hp
            have := ha.vecAt_inj hp hp0
            omega
          simp only [hpq, hpp, if_false]
          rw [hinv j hj p q hp hq]
          have c : (j < n + 1 ∨ 25 - (n + 1) < j) ↔ (j < n ∨ 25 - n < j) := by omega
          simp only [c]

/-- The seeded reflector construction succeeds on every permutation `ref_copy` and wires
`ref_copy[j]` to `ref_copy[25 - j]`. -/
theorem fromShuffled_spec {a : List Int} (ha : IsPermutation a) :
    ∃ r, Reflector.fromShuffled a = some r ∧ r.reflector.length = 26 ∧
      ∀ j : Nat, j < 26 → ∀ p q, vecAt a (j : Int) = some p →
        vecAt a (25 - (j : Int)) = some q → r.Reflect p = some q := by
  obtain ⟨w, hw, hlen, hinv⟩ := swapLoop_invariant ha 13 (le_refl _)
  refine ⟨⟨w⟩, by simp [Reflector.fromShuffled, hw], hlen, ?_⟩
  intro j hj p q hp hq
  have := hinv j hj p q hp hq
  have c : j < 13 ∨ 25 - 13 < j := by omega
  simpa only [c, if_true] using this

theorem fromShuffled_pairs {a : List Int} (ha : IsPermutation a) :
    ∃ r, Reflector.fromShuffled a = some r ∧ r.reflector.length = 26 ∧
      ∀ x, InRange x → ∃ y, r.Reflect x = some y ∧ y ≠ x ∧ r.Reflect y = some x := by
  obtain ⟨r, hr, hlen, hspec⟩ := fromShuffled_spec ha
  refine ⟨r, hr, hlen, ?_⟩
  intro x hx
  obtain ⟨j, -, ⟨hj0, hj1⟩, hjx⟩ := ha.scan_vecAt hx
  obtain ⟨q, hq, -, -⟩ := ha.vecAt_scan (x := 25 - j) ⟨by omega, by omega⟩
  have e1 : ((j.toNat : Nat) : Int) = j := by omega
  have e2 : (((25 - j.toNat : Nat) : Nat) : Int) = 25 - j := by omega
  have e3 : 25 - (((25 - j.toNat : Nat) : Nat) : Int) = j := by omega
  refine ⟨q, ?_, ?_, ?_⟩
  · exact hspec j.toNat (by omega) x q (by rw [e1]; exact hjx) (by rw [e1]; exact hq)
  · intro heq
    rw [heq] at hq
    have := ha.vecAt_inj hq hjx
    omega
  · exact hspec (25 - j.toNat) (by omega) q x (by rw [e2]; exact hq) (by rw [e3]; exact hjx)

theorem fromShuffled_involution {a : List Int} (ha : IsPermutation a) :
    ∃ r, Reflector.fromShuffled a = some r ∧ IsInvolution r.reflector := by
  obtain ⟨r, hr, hlen, hpair⟩ := fromShuffled_pairs ha
  refine ⟨r, hr, hlen, ?_⟩
  intro n hn
  obtain ⟨y, hy, -, hyx⟩ := hpair (Int.ofNat n) ⟨by simp, by simp only [Int.ofNat_eq_coe]; omega⟩
  unfold Reflector.Reflect at hy hyx
  rw [hy]
  exact hyx

/-- Claim C4 (reflector involution without fixed points).  The default constructor succeeds
and its wiring sends every position `x` to `25 - x`, which differs from `x` and is sent back
to `x`.  The seeded constructor, for every permutation `ref_copy` the shuffle may produce,
succeeds and its wiring sends every position `x` to a position `y` with `y ≠ x` that is sent
back to `x`. -/
theorem reflector_involution_no_fixed_point (ref_copy : List Int)
    (hperm : IsPermutation ref_copy) :
    (∃ r, Reflector.default = some r ∧
      ∀ x, InRange x →
        r.Reflect x = some (25 - x) ∧ r.Reflect (25 - x) = some x ∧ 25 - x ≠ x) ∧
    (∃ r, Reflector.fromShuffled ref_copy = some r ∧
      ∀ x, InRange x → ∃ y, r.Reflect x = some y ∧ r.Reflect y = some x ∧ y ≠ x) := by
  constructor
  · have hd : Reflector.default = some ⟨identityWiring.reverse⟩ := by decide
    refine ⟨_, hd, ?_⟩
    have key : ∀ n : Nat, n < 26 →
        vecAt identityWiring.reverse (Int.ofNat n) = some (25 - Int.ofNat n) ∧
        vecAt identityWiring.reverse (25 - Int.ofNat n) = some (Int.ofNat n) := by
      decide
    intro x hx
    obtain ⟨h0, h1⟩ := hx
    have e : Int.ofNat x.toNat = x := by simp only [Int.ofNat_eq_coe]; omega
    have := key x.toNat (by omega)
    rw [e] at this
    exact ⟨this.1, this.2, by omega⟩
  · obtain ⟨r, hr, -, hpair⟩ := fromShuffled_pairs hperm
    refine ⟨r, hr, ?_⟩
    intro x hx
    obtain ⟨y, h1, h2, h3⟩ := hpair x hx
    exact ⟨y, h1, h3, h2⟩

theorem reflector_involution_no_fixed_point_witness :
    IsPermutation (identityWiring.rotate 7) ∧
    (∃ r, Reflector.default = some r ∧
      ∀ x, InRange x →
        r.Reflect x = some (25 - x) ∧ r.Reflect (25 - x) = some x ∧ 25 - x ≠ x) ∧
    (∃ r, Reflector.fromShuffled (identityWiring.rotate 7) = some r ∧
      ∀ x, InRange x → ∃ y, r.Reflect x = some y ∧ r.Reflect y = some x ∧ y ≠ x) :=
  ⟨by decide, reflector_involution_no_fixed_point (identityWiring.rotate 7) (by decide)⟩

theorem vecAt_zero_iterate {r : List Int} (hr : IsPermutation r) (k : Nat) :
    vecAt (rotateOnce^[k] r) 0 = vecAt r (((k * 25 % 26 : Nat) : Nat) : Int) := by
  have hlen := hr.length_eq
  rw [rotateOnce_iterate, vecAt_natCast]
  have h0 : vecAt (r.rotate (k * (r.length - 1))) 0
      = (r.rotate (k * (r.length - 1)))[0]? := by
    simp [vecAt]
  rw [h0, List.getElem?_rotate (by omega), hlen]
  simp

theorem IsPermutation.aligned_unique {r : List Int} (hr : IsPermutation r) {i j : Nat}
    {key : Int} (hi : vecAt (rotateOnce^[i] r) 0 = some key)
    (hj : vecAt (rotateOnce^[j] r) 0 = some key) :
    rotateOnce^[i] r = rotateOnce^[j] r := by
  rw [vecAt_zero_iterate hr] at hi hj
  have := hr.vecAt_inj hi hj
  rw [hr.iterate_eq_iff]
  omega

theorem IsPermutation.exists_aligned {r : List Int} (hr : IsPermutation r) {key : Int}
    (hkey : InRange key) : ∃ k, k < 26 ∧ vecAt (rotateOnce^[k] r) 0 = some key := by
  obtain ⟨j, -, ⟨hj0, hj1⟩, hjx⟩ := hr.scan_vecAt hkey
  refine ⟨(26 - j.toNat) % 26, Nat.mod_lt _ (by norm_num), ?_⟩
  rw [vecAt_zero_iterate hr]
  have e : ((((26 - j.toNat) % 26 * 25 % 26 : Nat) : Nat) : Int) = j := by omega
  rw [e]
  exact hjx

/-- The loop of `Set` stops at the first number of rotations that brings `key` to the front,
as soon as the fuel exceeds that number. -/
theorem setLoop_first (key : Int) :
    ∀ (k fuel : Nat) (r : List Int), k < fuel → vecAt (rotateOnce^[k] r) 0 = some key →
      ∃ k', k' ≤ k ∧ setLoop fuel r key = some (rotateOnce^[k'] r) ∧
        vecAt (rotateOnce^[k'] r) 0 = some key ∧
        ∀ i, i < k' → vecAt (rotateOnce^[i] r) 0 ≠ some key := by
  intro k
  induction k with
  | zero =>
    intro fuel r hf h
    obtain ⟨f, rfl⟩ : ∃ f, fuel = f + 1 := ⟨fuel - 1, by omega⟩
    refine ⟨0, le_refl _, ?_, h, by intro i hi; omega⟩
    simp only [Function.iterate_zero, id_eq] at h
    simp [setLoop, h]
  | succ k ih =>
    intro fuel r hf h
    obtain ⟨f, rfl⟩ : ∃ f, fuel = f + 1 := ⟨fuel - 1, by omega⟩
    cases hfront : vecAt r 0 with
    | none =>
      exfalso
      have hl : r.length = 0 := by
        unfold vecAt at hfront
        simpa using hfront
      have hl' := rotateOnce_iterate_length (k + 1) r
      obtain ⟨-, h2⟩ := vecAt_lt_length h
      omega
    | some front =>
      by_cases hfk : front = key
      · subst hfk
        refine ⟨0, by omega, ?_, hfront, by intro i hi; omega⟩
        simp [setLoop, hfront]
      · rw [Function.iterate_succ_apply] at h
        obtain ⟨k', hk', hset, hal, hmin⟩ := ih f (rotateOnce r) (by omega) h
        refine ⟨k' + 1, by omega, ?_, ?_, ?_⟩
        · rw [Function.iterate_succ_apply, ← hset]
          simp [setLoop, hfront, hfk]
        · rw [Function.iterate_succ_apply]
          exact hal
        · intro i hi
          cases i with
          | zero =>
            simp only [Function.iterate_zero, id_eq, hfront]
            intro hc
            exact hfk (Option.some.inj hc)
          | succ i =>
            rw [Function.iterate_succ_apply]
            exact hmin i (by omega)

/-- On a permutation and a key in `0..25` the loop of `Set` finishes within 26 tests of
the front element, after at most 25 rotations, with `key` at the front. -/
theorem IsPermutation.setLoop_spec {r : List Int} (hr : IsPermutation r) {key : Int}
    (hkey : InRange key) {fuel : Nat} (hfuel : 26 ≤ fuel) :
    ∃ k, k < 26 ∧ setLoop fuel r key = some (rotateOnce^[k] r) ∧
      vecAt (rotateOnce^[k] r) 0 = some key ∧
      ∀ i, i < k → vecAt (rotateOnce^[i] r) 0 ≠ some key := by
  obtain ⟨k, hk, hal⟩ := hr.exists_aligned hkey
  obtain ⟨k', hk', h1, h2, h3⟩ := setLoop_first key k fuel r (by omega) hal
  exact ⟨k', by omega, h1, h2, h3⟩

/-- A rotor that already shows `key` at the front is what `Set` restores from any of
its rotations. -/
theorem IsPermutation.setLoop_restore {r : List Int} (hr : IsPermutation r) {key : Int}
    (hfront : vecAt r 0 = some key) (n : Nat) {fuel : Nat} (hfuel : 26 ≤ fuel) :
    setLoop fuel (rotateOnce^[n] r) key = some r := by
  have hkey : InRange key := (hr.mem_iff key).mp (by
    unfold vecAt at hfront
    simp only [le_refl, if_true] at hfront
    exact List.getElem?_mem hfront)
  obtain ⟨k, -, h1, h2, -⟩ := (hr.rotated_iterate n).setLoop_spec hkey hfuel
  rw [h1]
  rw [← Function.iterate_add_apply] at h2 ⊢
  have := hr.aligned_unique (i := k + n) (j := 0) h2 (by simpa using hfront)
  simpa using this

theorem RingSet.EndCycle_eq (r1 r2 r3 : List Int) (c1 c2 : Int) :
    RingSet.EndCycle ⟨⟨r3⟩, ⟨⟨r2⟩, c2⟩, ⟨⟨r1⟩, c1⟩⟩ =
      if c1 + 1 = 26 then
        if c2 + 1 = 26 then ⟨⟨rotateOnce r3⟩, ⟨⟨rotateOnce r2⟩, 0⟩, ⟨⟨rotateOnce r1⟩, 0⟩⟩
        else ⟨⟨r3⟩, ⟨⟨rotateOnce r2⟩, c2 + 1⟩, ⟨⟨rotateOnce r1⟩, 0⟩⟩
      else ⟨⟨r3⟩, ⟨⟨r2⟩, c2⟩, ⟨⟨rotateOnce r1⟩, c1 + 1⟩⟩ := by
  unfold RingSet.EndCycle LatchingScrambler.ChangeKey LatchingScrambler.AddCnt
    RingSet.ChangeKey2 LatchingScrambler.ChangeKey LatchingScrambler.AddCnt Scrambler.ChangeKey
  by_cases h1 : c1 + 1 = 26
  · by_cases h2 : c2 + 1 = 26
    · simp [h1, h2]
    · simp [h1, h2]
  · simp [h1]

theorem RingSet.Wired.endCycle {rs : RingSet} (h : rs.Wired) : rs.EndCycle.Wired := by
  obtain ⟨⟨r3⟩, ⟨⟨r2⟩, c2⟩, ⟨⟨r1⟩, c1⟩⟩ := rs
  obtain ⟨h1, h2, h3⟩ := h
  rw [RingSet.EndCycle_eq]
  split_ifs
  · exact ⟨h1.rotated, h2.rotated, h3.rotated⟩
  · exact ⟨h1.rotated, h2.rotated, h3⟩
  · exact ⟨h1.rotated, h2, h3⟩

/-- Closed form of `n` calls of `EndCycle` from counters `c1`, `c2`. -/
theorem RingSet.EndCycle_iterate (r1 r2 r3 : List Int) (c1 c2 : Nat) (h1 : c1 < 26)
    (h2 : c2 < 26) (n : Nat) :
    RingSet.EndCycle^[n] ⟨⟨r3⟩, ⟨⟨r2⟩, (c2 : Int)⟩, ⟨⟨r1⟩, (c1 : Int)⟩⟩ =
      ⟨⟨rotateOnce^[(c2 + (c1 + n) / 26) / 26] r3⟩,
       ⟨⟨rotateOnce^[(c1 + n) / 26] r2⟩, (((c2 + (c1 + n) / 26) % 26 : Nat) : Int)⟩,
       ⟨⟨rotateOnce^[n] r1⟩, (((c1 + n) % 26 : Nat) : Int)⟩⟩ := by
  induction n with
  | zero =>
    have e1 : (c1 + 0) / 26 = 0 := by omega
    have e2 : (c1 + 0) % 26 = c1 := by omega
    have e3 : (c2 + 0) / 26 = 0 := by omega
    have e4 : (c2 + 0) % 26 = c2 := by omega
    simp only [e1, e2, e3, e4, Function.iterate_zero, id_eq]
  | succ n ih =>
    rw [Function.iterate_succ_apply', ih, RingSet.EndCycle_eq]
    by_cases hc1 : (c1 + n) % 26 = 25
    · have i1 : ((((c1 + n) % 26 : Nat) : Int) + 1 = 26) := by omega
      have d1 : (c1 + (n + 1)) / 26 = (c1 + n) / 26 + 1 := by omega
      have m1 : (c1 + (n + 1)) % 26 = 0 := by omega
      by_cases hc2 : (c2 + (c1 + n) / 26) % 26 = 25
      · have i2 : ((((c2 + (c1 + n) / 26) % 26 : Nat) : Int) + 1 = 26) := by omega
        have d2 : (c2 + ((c1 + n) / 26 + 1)) / 26 = (c2 + (c1 + n) / 26) / 26 + 1 := by omega
        have m2 : (c2 + ((c1 + n) / 26 + 1)) % 26 = 0 := by omega
        simp only [i1, i2, if_true, d1, m1, d2, m2, Function.iterate_succ_apply', Nat.cast_zero]
      · have i2 : ¬ ((((c2 + (c1 + n) / 26) % 26 : Nat) : Int) + 1 = 26) := by omega
        have d2 : (c2 + ((c1 + n) / 26 + 1)) / 26 = (c2 + (c1 + n) / 26) / 26 := by omega
        have m2 : (c2 + ((c1 + n) / 26 + 1)) % 26 = (c2 + (c1 + n) / 26) % 26 + 1 := by omega
        simp only [i1, i2, if_true, if_false, d1, m1, d2, m2, Function.iterate_succ_apply',
          Nat.cast_zero, Nat.cast_add, Nat.cast_one]
    · have i1 : ¬ ((((c1 + n) % 26 : Nat) : Int) + 1 = 26) := by omega
      have d1 : (c1 + (n + 1)) / 26 = (c1 + n) / 26 := by omega
      have m1 : (c1 + (n + 1)) % 26 = (c1 + n) % 26 + 1 := by omega
      simp only [i1, if_false, d1, m1, Function.iterate_succ_apply', Nat.cast_add, Nat.cast_one]

theorem alphaIDmapAt_alphamapAt : ∀ c ∈ ALPHA, alphaIDmapAt (alphamapAt c) = c := by decide

theorem alphamapAt_alphaIDmapAt_nat :
    ∀ n : Nat, n < 26 →
      alphamapAt (alphaIDmapAt (Int.ofNat n)) = Int.ofNat n ∧ alphaIDmapAt (Int.ofNat n) ∈ ALPHA := by
  decide

theorem alphamapAt_alphaIDmapAt {p : Int} (hp : InRange p) :
    alphamapAt (alphaIDmapAt p) = p ∧ alphaIDmapAt p ∈ ALPHA := by
  obtain ⟨h0, h1⟩ := hp
  have e : Int.ofNat p.toNat = p := by simp only [Int.ofNat_eq_coe]; omega
  have := alphamapAt_alphaIDmapAt_nat p.toNat (by omega)
  rwa [e] at this

/-- The table lookup `alphamap[c]` yields a position for every character at all. -/
theorem alphamapAt_inRange (c : Char) : InRange (alphamapAt c) := by
  have hall : ∀ e ∈ Alpha2AlphaID, InRange e.2 := by decide
  unfold alphamapAt mapIndex
  split
  · rename_i e he
    exact hall e (List.mem_of_find?_eq_some he)
  · decide

/-- A character outside `ALPHA` has no entry, so `alphamap[c]` is the default `0`. -/
theorem alphamapAt_of_not_mem {c : Char} (hc : c ∉ ALPHA) : alphamapAt c = 0 := by
  have hall : ∀ e ∈ Alpha2AlphaID, e.1 ∈ ALPHA := by decide
  unfold alphamapAt mapIndex
  split
  · rename_i e he
    have h1 := hall e (List.mem_of_find?_eq_some he)
    have h2 := List.find?_some he
    simp only [decide_eq_true_eq] at h2
    rw [h2] at h1
    exact absurd h1 hc
  · rfl

theorem Enigma.Wired.step {e : Enigma} (h : e.Wired) :
    Enigma.Wired { e with ringSet := e.ringSet.EndCycle } :=
  ⟨h.1, h.2.1.endCycle, h.2.2⟩

theorem Enigma.advance_succ (e : Enigma) (n : Nat) :
    Enigma.advance { e with ringSet := e.ringSet.EndCycle } n = e.advance (n + 1) := by
  simp [Enigma.advance, Function.iterate_succ_apply]

theorem Enigma.Wired.advance {e : Enigma} (h : e.Wired) (n : Nat) : (e.advance n).Wired := by
  induction n generalizing e with
  | zero => exact h
  | succ n ih =>
    rw [← Enigma.advance_succ]
    exact ih h.step

/-- The loop of `Encryption` on a wired engine: it finishes, it yields one position in
`0..25` per input position, it leaves the engine advanced once per symbol, and the same
loop from the same engine maps the output positions back to the input. -/
theorem Enigma.Wired.encryptLoop_pair :
    ∀ (codes : List Int) (e : Enigma) (acc acc' : List Char), e.Wired →
      (∀ c ∈ codes, InRange c) →
      ∃ out : List Int, (∀ c ∈ out, InRange c) ∧ out.length = codes.length ∧
        Enigma.encryptLoop codes e acc
          = some (acc ++ out.map alphaIDmapAt, e.advance codes.length) ∧
        Enigma.encryptLoop out e acc'
          = some (acc' ++ codes.map alphaIDmapAt, e.advance codes.length) := by
  intro codes
  induction codes with
  | nil =>
    intro e acc acc' _ _
    exact ⟨[], by simp, rfl, by simp [Enigma.encryptLoop, Enigma.advance],
      by simp [Enigma.encryptLoop, Enigma.advance]⟩
  | cons code rest ih =>
    intro e acc acc' hw hr
    obtain ⟨y, hy, hry, hyx⟩ := hw.substitute_pair (hr code (List.mem_cons_self _ _))
    obtain ⟨out, hout, hlen, h1, h2⟩ :=
      ih { e with ringSet := e.ringSet.EndCycle } (acc ++ [alphaIDmapAt y])
        (acc' ++ [alphaIDmapAt code]) hw.step
        (fun c hc => hr c (List.mem_cons_of_mem _ hc))
    refine ⟨y :: out, ?_, by simp [hlen], ?_, ?_⟩
    · intro c hc
      rcases List.mem_cons.mp hc with rfl | hc
      · exact hry
      · exact hout c hc
    · simp only [Enigma.encryptLoop, hy, h1, Enigma.advance_succ, List.length_cons,
        List.map_cons, List.append_assoc, List.singleton_append]
    · simp only [Enigma.encryptLoop, hyx, h2, Enigma.advance_succ, List.length_cons,
        List.map_cons, List.append_assoc, List.singleton_append]

/-- `Encryption` on a wired engine and a text of letters: it returns a text of letters of
the same length, and `Encryption` from the same engine state maps that text back. -/
theorem Enigma.Wired.encryption_pair {e : Enigma} (hw : e.Wired) {text : List Char}
    (ht : ∀ c ∈ text, c ∈ ALPHA) :
    ∃ c : List Char, (∀ ch ∈ c, ch ∈ ALPHA) ∧ c.length = text.length ∧
      e.Encryption text = some (c, e.advance text.length) ∧
      e.Encryption c = some (text, e.advance text.length) := by
  obtain ⟨out, hout, hlen, h1, h2⟩ :=
    hw.encryptLoop_pair (text.map alphamapAt) e [] []
      (by
        intro c hc
        obtain ⟨ch, -, rfl⟩ := List.mem_map.mp hc
        exact alphamapAt_inRange ch)
  have hback : (out.map alphaIDmapAt).map alphamapAt = out := by
    rw [List.map_map]
    conv_rhs => rw [← List.map_id out]
    apply List.map_congr_left
    intro p hp
    exact (alphamapAt_alphaIDmapAt (hout p hp)).1
  have htext : (text.map alphamapAt).map alphaIDmapAt = text := by
    rw [List.map_map]
    conv_rhs => rw [← List.map_id text]
    apply List.map_congr_left
    intro ch hch
    exact alphaIDmapAt_alphamapAt ch (ht ch hch)
  simp only [List.length_map, List.nil_append] at h1 h2 hlen
  refine ⟨out.map alphaIDmapAt, ?_, by simp [hlen], ?_, ?_⟩
  · intro ch hch
    obtain ⟨p, hp, rfl⟩ := List.mem_map.mp hch
    exact (alphamapAt_alphaIDmapAt (hout p hp)).2
  · exact h1
  · unfold Enigma.Encryption
    rw [hback, h2, htext]

/-- `RingSet::KeySet` on a wired bank and three keys in `0..25`: it finishes within 26
tests per ring, rotates each ring fewer than 26 times, leaves the counters alone and
brings each key to the front of its ring. -/
theorem RingSet.Wired.keySet {r1 r2 r3 : List Int} {c1 c2 : Int}
    (h : RingSet.Wired ⟨⟨r3⟩, ⟨⟨r2⟩, c2⟩, ⟨⟨r1⟩, c1⟩⟩) {k0 k1 k2 : Int} (h0 : InRange k0)
    (h1 : InRange k1) (h2 : InRange k2) (rest : List Int) {fuel : Nat} (hfuel : 26 ≤ fuel) :
    ∃ a b c, a < 26 ∧ b < 26 ∧ c < 26 ∧
      RingSet.KeySet fuel ⟨⟨r3⟩, ⟨⟨r2⟩, c2⟩, ⟨⟨r1⟩, c1⟩⟩ (k0 :: k1 :: k2 :: rest)
        = some ⟨⟨rotateOnce^[c] r3⟩, ⟨⟨rotateOnce^[b] r2⟩, c2⟩, ⟨⟨rotateOnce^[a] r1⟩, c1⟩⟩ ∧
      vecAt (rotateOnce^[a] r1) 0 = some k0 ∧ vecAt (rotateOnce^[b] r2) 0 = some k1 ∧
      vecAt (rotateOnce^[c] r3) 0 = some k2 := by
  obtain ⟨a, ha, hsa, hfa, -⟩ := h.1.setLoop_spec h0 hfuel
  obtain ⟨b, hb, hsb, hfb, -⟩ := h.2.1.setLoop_spec h1 hfuel
  obtain ⟨c, hc, hsc, hfc, -⟩ := h.2.2.setLoop_spec h2 hfuel
  simp only at hsa hsb hsc hfa hfb hfc
  refine ⟨a, b, c, ha, hb, hc, ?_, hfa, hfb, hfc⟩
  simp [RingSet.KeySet, LatchingScrambler.Set, Scrambler.Set, hsa, hsb, hsc]

theorem keyPositions (K : List Char) (hK : K.length = 3) :
    ∃ k0 k1 k2, K.map alphamapAt = [k0, k1, k2] ∧ InRange k0 ∧ InRange k1 ∧ InRange k2 := by
  match K, hK with
  | [a, b, c], _ =>
    exact ⟨_, _, _, rfl, alphamapAt_inRange a, alphamapAt_inRange b, alphamapAt_inRange c⟩

/-- The constructor `Enigma()` succeeds for every shuffle and builds a wired engine whose
two counters are zero. -/
theorem Enigma.new_spec (shuffle : Nat → List Int → List Int)
    (hshuffle : ∀ seed v, List.Perm (shuffle seed v) v) :
    ∃ refl, Enigma.new shuffle
        = some ⟨⟨shuffle 100 identityWiring⟩,
            ⟨⟨shuffle 30 identityWiring⟩, ⟨⟨shuffle 20 identityWiring⟩, 0⟩,
              ⟨⟨shuffle 10 identityWiring⟩, 0⟩⟩, refl⟩ ∧
      Reflector.fromShuffled (shuffle 200 identityWiring) = some refl ∧
      IsInvolution refl.reflector := by
  obtain ⟨r, hr, hinv⟩ := fromShuffled_involution (a := shuffle 200 identityWiring) (hshuffle _ _)
  refine ⟨r, ?_, hr, hinv⟩
  simp [Enigma.new, Reflector.seeded, hr, Plugboard.seeded, RingSet.new, Scrambler.seeded,
    LatchingScrambler.seeded]

/-- Constructing an engine and setting a key of three characters succeeds; the keyed engine
is wired, its counters are zero and its rings show the three key positions. -/
theorem Enigma.keyed_spec (shuffle : Nat → List Int → List Int)
    (hshuffle : ∀ seed v, List.Perm (shuffle seed v) v) {fuel : Nat} (hfuel : 26 ≤ fuel)
    (K : List Char) (hK : K.length = 3) :
    ∃ e0 p w1 w2 w3 refl k0 k1 k2, Enigma.new shuffle = some e0 ∧
      K.map alphamapAt = [k0, k1, k2] ∧
      e0.KeySet fuel K = some ⟨p, ⟨⟨w3⟩, ⟨⟨w2⟩, 0⟩, ⟨⟨w1⟩, 0⟩⟩, refl⟩ ∧
      Enigma.Wired ⟨p, ⟨⟨w3⟩, ⟨⟨w2⟩, 0⟩, ⟨⟨w1⟩, 0⟩⟩, refl⟩ ∧
      vecAt w1 0 = some k0 ∧ vecAt w2 0 = some k1 ∧ vecAt w3 0 = some k2 := by
  obtain ⟨refl, hnew, -, hinv⟩ := Enigma.new_spec shuffle hshuffle
  obtain ⟨k0, k1, k2, hkeys, h0, h1, h2⟩ := keyPositions K hK
  have hw : RingSet.Wired ⟨⟨shuffle 30 identityWiring⟩, ⟨⟨shuffle 20 identityWiring⟩, 0⟩,
      ⟨⟨shuffle 10 identityWiring⟩, 0⟩⟩ := ⟨hshuffle _ _, hshuffle _ _, hshuffle _ _⟩
  obtain ⟨a, b, c, -, -, -, hset, hf1, hf2, hf3⟩ := hw.keySet h0 h1 h2 [] hfuel
  refine ⟨_, ⟨shuffle 100 identityWiring⟩, rotateOnce^[a] (shuffle 10 identityWiring),
    rotateOnce^[b] (shuffle 20 identityWiring), rotateOnce^[c] (shuffle 30 identityWiring),
    refl, k0, k1, k2, hnew, hkeys, ?_, ?_, hf1, hf2, hf3⟩
  · simp only [Enigma.KeySet, hkeys, hset, Option.map_some']
  · exact ⟨hshuffle _ _, ⟨hw.1.rotated_iterate a, hw.2.1.rotated_iterate b,
      hw.2.2.rotated_iterate c⟩, hinv⟩

/-- Claim C2 (text reciprocity on fresh engines).  For every shuffle, hence every wiring the
constructors can produce, every key `K` of three characters (in particular three uppercase
letters) and every text of uppercase letters: constructing an engine, `KeySet(K)` and
`Encryption(text)` return a text `c`, and constructing another engine with the same wiring,
`KeySet(K)` and `Encryption(c)` return exactly `text`.  Each loop of `Set` gets `fuel` tests
of the front element; 26 are enough. -/
theorem text_reciprocity_fresh_engines (shuffle : Nat → List Int → List Int)
    (hshuffle : ∀ seed v, List.Perm (shuffle seed v) v) (fuel : Nat) (hfuel : 26 ≤ fuel)
    (K text : List Char) (hK : K.length = 3) (htext : ∀ ch ∈ text, ch ∈ ALPHA) :
    ∃ c after after',
      ((Enigma.new shuffle).bind (fun e => e.KeySet fuel K)).bind (fun e => e.Encryption text)
        = some (c, after) ∧
      ((Enigma.new shuffle).bind (fun e => e.KeySet fuel K)).bind (fun e => e.Encryption c)
        = some (text, after') := by
  obtain ⟨e0, p, w1, w2, w3, refl, k0, k1, k2, hnew, -, hkey, hw, -, -, -⟩ :=
    Enigma.keyed_spec shuffle hshuffle hfuel K hK
  obtain ⟨c, -, -, henc, hdec⟩ := hw.encryption_pair htext
  refine ⟨c, Enigma.advance ⟨p, ⟨⟨w3⟩, ⟨⟨w2⟩, 0⟩, ⟨⟨w1⟩, 0⟩⟩, refl⟩ text.length,
    Enigma.advance ⟨p, ⟨⟨w3⟩, ⟨⟨w2⟩, 0⟩, ⟨⟨w1⟩, 0⟩⟩, refl⟩ text.length, ?_, ?_⟩
  · rw [hnew, Option.some_bind, hkey, Option.some_bind, henc]
  · rw [hnew, Option.some_bind, hkey, Option.some_bind, hdec]

theorem text_reciprocity_fresh_engines_witness :
    (∀ seed v, List.Perm (rotateShuffle seed v) v) ∧ 26 ≤ 26 ∧ "ABC".toList.length = 3 ∧
    (∀ ch ∈ "HELLOWORLD".toList, ch ∈ ALPHA) ∧
    ∃ c after after',
      ((Enigma.new rotateShuffle).bind (fun e => e.KeySet 26 "ABC".toList)).bind
          (fun e => e.Encryption "HELLOWORLD".toList) = some (c, after) ∧
      ((Enigma.new rotateShuffle).bind (fun e => e.KeySet 26 "ABC".toList)).bind
          (fun e => e.Encryption c) = some ("HELLOWORLD".toList, after') :=
  ⟨fun seed v => List.rotate_perm v seed, by decide, by decide, by decide,
    text_reciprocity_fresh_engines rotateShuffle (fun seed v => List.rotate_perm v seed) 26
      (by decide) "ABC".toList "HELLOWORLD".toList (by decide) (by decide)⟩

theorem Enigma.substitute_congr {e e' : Enigma} (hp : e.plugboard = e'.plugboard)
    (hr : e.reflector = e'.reflector) (hw : e.ringSet.wirings = e'.ringSet.wirings)
    (x : Int) : e.substitute x = e'.substitute x := by
  simp only [RingSet.wirings, Prod.mk.injEq] at hw
  obtain ⟨h1, h2, h3⟩ := hw
  simp only [Enigma.substitute, RingSet.GoingEncipher, RingSet.ReturningEncipher,
    Scrambler.GoingEncipher, Scrambler.ReturningEncipher, hp, hr, h1, h2, h3]

/-- The text returned by the loop of `Encryption` depends on the bank only through the
rotor vectors met at each symbol. -/
theorem Enigma.encryptLoop_congr :
    ∀ (codes : List Int) (e e' : Enigma) (acc : List Char), e.plugboard = e'.plugboard →
      e.reflector = e'.reflector →
      (∀ i, i < codes.length →
        (RingSet.EndCycle^[i] e.ringSet).wirings = (RingSet.EndCycle^[i] e'.ringSet).wirings) →
      (Enigma.encryptLoop codes e acc).map Prod.fst
        = (Enigma.encryptLoop codes e' acc).map Prod.fst := by
  intro codes
  induction codes with
  | nil => intro e e' acc _ _ _; rfl
  | cons code rest ih =>
    intro e e' acc hp hr hw
    have h0 := Enigma.substitute_congr hp hr (hw 0 (by simp)) code
    simp only [Enigma.encryptLoop, ← h0]
    cases e.substitute code with
    | none => rfl
    | some temp =>
      simp only
      apply ih
      · exact hp
      · exact hr
      · intro i hi
        have := hw (i + 1) (by simp only [List.length_cons]; omega)
        simpa only [Function.iterate_succ_apply] using this

/-- Claim C3, the statement as written fails: on the engine built with the shuffle that keeps
the identity, key `AAA` and the text of fourteen `A`, the sequence `KeySet; Encryption;
KeySet; Encryption` on one engine object returns `AAAAAAAAAAAACC`, not the text.  The second
`KeySet` restores the vectors but `ring1` still counts 14, so `ring2` turns after twelve
symbols of the second pass. -/
theorem rekeyed_reciprocity_fails_at_fourteen :
    (Enigma.new idShuffle).bind
        (fun e => rekeyRoundTrip 26 e "AAA".toList "AAAAAAAAAAAAAA".toList)
      = some ("ZBDFHJLNPRTVXZ".toList, "AAAAAAAAAAAACC".toList) ∧
    "AAAAAAAAAAAACC".toList ≠ "AAAAAAAAAAAAAA".toList := by
  decide

theorem IsPermutation.eachOnce {v : List Int} (h : IsPermutation v) : EachOnce v := by
  refine ⟨h.length_eq, ?_⟩
  intro n hn
  rw [List.Perm.count_eq h]
  have key : ∀ n : Nat, n < 26 → identityWiring.count (Int.ofNat n) = 1 := by decide
  exact key n hn

theorem IsInvolution.isPermutation {v : List Int} (h : IsInvolution v) : IsPermutation v := by
  have hlen := h.1
  have hin : ∀ x ∈ v, InRange x := by
    intro x hx
    obtain ⟨i, hi, rfl⟩ := List.getElem_of_mem hx
    obtain ⟨y, hy, hry, -⟩ := h.reflect (x := (i : Int)) ⟨by omega, by omega⟩
    rw [vecAt_natCast, List.getElem?_eq_getElem hi] at hy
    cases hy
    exact hry
  have hnd : v.Nodup := by
    rw [List.nodup_iff_injective_getElem]
    intro ⟨i, hi⟩ ⟨j, hj⟩ hij
    simp only at hij
    obtain ⟨y, hy, -, hyi⟩ := h.reflect (x := (i : Int)) ⟨by omega, by omega⟩
    obtain ⟨z, hz, -, hzj⟩ := h.reflect (x := (j : Int)) ⟨by omega, by omega⟩
    rw [vecAt_natCast, List.getElem?_eq_getElem hi] at hy
    rw [vecAt_natCast, List.getElem?_eq_getElem hj] at hz
    cases hy
    cases hz
    rw [hij, hzj] at hyi
    have := Option.some.inj hyi
    apply Fin.ext
    simp only
    omega
  have hsub : v ⊆ identityWiring := fun x hx => (mem_identityWiring x).mpr (hin x hx)
  exact (List.subperm_of_subset hnd hsub).perm_of_length_le
    (by rw [identityWiring_length, hlen])

theorem rotateOnce_isRightShiftOf {v : List Int} (hlen : v.length = 26) :
    IsRightShiftOf (rotateOnce v) v := by
  refine ⟨rotateOnce_length v, ?_, ?_⟩
  · rw [rotateOnce_eq_rotate, List.getElem?_rotate (by omega), hlen]
  · intro i hi
    rw [rotateOnce_eq_rotate, List.getElem?_rotate (by omega), hlen]
    congr 1
    omega

theorem Enigma.Wired.encryption_total {e : Enigma} (hw : e.Wired) (code : List Char) :
    ∃ c, c.length = code.length ∧ (∀ ch ∈ c, ch ∈ ALPHA) ∧
      e.Encryption code = some (c, e.advance code.length) := by
  obtain ⟨out, hout, hlen, h1, -⟩ :=
    hw.encryptLoop_pair (code.map alphamapAt) e [] []
      (by
        intro c hc
        obtain ⟨ch, -, rfl⟩ := List.mem_map.mp hc
        exact alphamapAt_inRange ch)
  simp only [List.length_map, List.nil_append] at h1 hlen
  refine ⟨out.map alphaIDmapAt, by simp [hlen], ?_, h1⟩
  intro ch hch
  obtain ⟨p, hp, rfl⟩ := List.mem_map.mp hch
  exact (alphamapAt_alphaIDmapAt (hout p hp)).2

theorem RingSet.ChangeKey2_eq (r2 r3 : List Int) (c2 : Int) :
    RingSet.ChangeKey2 (⟨⟨r2⟩, c2⟩, ⟨r3⟩) =
      if c2 + 1 = 26 then (⟨⟨rotateOnce r2⟩, 0⟩, ⟨rotateOnce r3⟩)
      else (⟨⟨rotateOnce r2⟩, c2 + 1⟩, ⟨r3⟩) := by
  unfold RingSet.ChangeKey2 LatchingScrambler.ChangeKey LatchingScrambler.AddCnt
    Scrambler.ChangeKey
  by_cases h2 : c2 + 1 = 26
  · simp [h2]
  · simp [h2]

/-- Every valid call on a wired engine finishes and leaves a wired engine. -/
theorem Enigma.Wired.call {e : Enigma} (hw : e.Wired) {fuel : Nat} (hfuel : 26 ≤ fuel)
    {c : Call} (hc : c.Valid) : ∃ e', e.call fuel c = some e' ∧ e'.Wired := by
  obtain ⟨p, ⟨⟨r3⟩, ⟨⟨r2⟩, c2⟩, ⟨⟨r1⟩, c1⟩⟩, refl⟩ := e
  obtain ⟨hp, ⟨h1, h2, h3⟩, hr⟩ := hw
  simp only at hp h1 h2 h3 hr
  cases c with
  | Set ring key =>
    have hkey : InRange key := hc
    cases ring with
    | ring1 =>
      obtain ⟨k, -, hs, -, -⟩ := h1.setLoop_spec hkey hfuel
      have hcall : Enigma.call fuel ⟨p, ⟨⟨r3⟩, ⟨⟨r2⟩, c2⟩, ⟨⟨r1⟩, c1⟩⟩, refl⟩
          (Call.Set Ring.ring1 key)
          = some ⟨p, ⟨⟨r3⟩, ⟨⟨r2⟩, c2⟩, ⟨⟨rotateOnce^[k] r1⟩, c1⟩⟩, refl⟩ := by
        simp [Enigma.call, LatchingScrambler.Set, hs]
      exact ⟨_, hcall, ⟨hp, ⟨h1.rotated_iterate k, h2, h3⟩, hr⟩⟩
    | ring2 =>
      obtain ⟨k, -, hs, -, -⟩ := h2.setLoop_spec hkey hfuel
      have hcall : Enigma.call fuel ⟨p, ⟨⟨r3⟩, ⟨⟨r2⟩, c2⟩, ⟨⟨r1⟩, c1⟩⟩, refl⟩
          (Call.Set Ring.ring2 key)
          = some ⟨p, ⟨⟨r3⟩, ⟨⟨rotateOnce^[k] r2⟩, c2⟩, ⟨⟨r1⟩, c1⟩⟩, refl⟩ := by
        simp [Enigma.call, LatchingScrambler.Set, hs]
      exact ⟨_, hcall, ⟨hp, ⟨h1, h2.rotated_iterate k, h3⟩, hr⟩⟩
    | ring3 =>
      obtain ⟨k, -, hs, -, -⟩ := h3.setLoop_spec hkey hfuel
      have hcall : Enigma.call fuel ⟨p, ⟨⟨r3⟩, ⟨⟨r2⟩, c2⟩, ⟨⟨r1⟩, c1⟩⟩, refl⟩
          (Call.Set Ring.ring3 key)
          = some ⟨p, ⟨⟨rotateOnce^[k] r3⟩, ⟨⟨r2⟩, c2⟩, ⟨⟨r1⟩, c1⟩⟩, refl⟩ := by
        simp [Enigma.call, Scrambler.Set, hs]
      exact ⟨_, hcall, ⟨hp, ⟨h1, h2, h3.rotated_iterate k⟩, hr⟩⟩
  | ChangeKey ring =>
    cases ring with
    | ring1 =>
      exact ⟨_, rfl, Enigma.Wired.step ⟨hp, ⟨h1, h2, h3⟩, hr⟩⟩
    | ring2 =>
      refine ⟨_, rfl, hp, ?_, hr⟩
      simp only [RingSet.ChangeKey2_eq]
      split_ifs
      · exact ⟨h1, h2.rotated, h3.rotated⟩
      · exact ⟨h1, h2.rotated, h3⟩
    | ring3 =>
      exact ⟨_, rfl, hp, ⟨h1, h2, h3.rotated⟩, hr⟩
  | KeySet keyset =>
    obtain ⟨hlen, hks⟩ : keyset.length = 3 ∧ ∀ k ∈ keyset, InRange k := hc
    match keyset, hlen, hks with
    | [k0, k1, k2], _, hks =>
      obtain ⟨a, b, c, -, -, -, hset, -, -, -⟩ :=
        RingSet.Wired.keySet
          (show RingSet.Wired ⟨⟨r3⟩, ⟨⟨r2⟩, c2⟩, ⟨⟨r1⟩, c1⟩⟩ from ⟨h1, h2, h3⟩) (hks k0 (by simp))
          (hks k1 (by simp)) (hks k2 (by simp)) [] hfuel
      have hcall : Enigma.call fuel ⟨p, ⟨⟨r3⟩, ⟨⟨r2⟩, c2⟩, ⟨⟨r1⟩, c1⟩⟩, refl⟩
          (Call.KeySet [k0, k1, k2])
          = some ⟨p, ⟨⟨rotateOnce^[c] r3⟩, ⟨⟨rotateOnce^[b] r2⟩, c2⟩,
              ⟨⟨rotateOnce^[a] r1⟩, c1⟩⟩, refl⟩ := by
        simp only [Enigma.call, hset, Option.map_some']
      exact ⟨_, hcall,
        ⟨hp, ⟨h1.rotated_iterate a, h2.rotated_iterate b, h3.rotated_iterate c⟩, hr⟩⟩
  | EndCycle =>
    exact ⟨_, rfl, Enigma.Wired.step ⟨hp, ⟨h1, h2, h3⟩, hr⟩⟩
  | Encryption code =>
    have hw : Enigma.Wired ⟨p, ⟨⟨r3⟩, ⟨⟨r2⟩, c2⟩, ⟨⟨r1⟩, c1⟩⟩, refl⟩ := ⟨hp, ⟨h1, h2, h3⟩, hr⟩
    obtain ⟨c, -, -, henc⟩ := hw.encryption_total code
    have hcall : Enigma.call fuel ⟨p, ⟨⟨r3⟩, ⟨⟨r2⟩, c2⟩, ⟨⟨r1⟩, c1⟩⟩, refl⟩
        (Call.Encryption code)
        = some (Enigma.advance ⟨p, ⟨⟨r3⟩, ⟨⟨r2⟩, c2⟩, ⟨⟨r1⟩, c1⟩⟩, refl⟩ code.length) := by
      simp only [Enigma.call, henc, Option.map_some']
    exact ⟨_, hcall, hw.advance _⟩

theorem Enigma.Wired.calls {fuel : Nat} (hfuel : 26 ≤ fuel) :
    ∀ (cs : List Call) (e : Enigma), e.Wired → (∀ c ∈ cs, c.Valid) →
      ∃ e', e.calls fuel cs = some e' ∧ e'.Wired := by
  intro cs
  induction cs with
  | nil => intro e hw _; exact ⟨e, rfl, hw⟩
  | cons c cs ih =>
    intro e hw hv
    obtain ⟨e1, h1, hw1⟩ := hw.call hfuel (hv c (List.mem_cons_self _ _))
    obtain ⟨e2, h2, hw2⟩ := ih e1 hw1 (fun c' hc' => hv c' (List.mem_cons_of_mem _ hc'))
    refine ⟨e2, ?_, hw2⟩
    unfold Enigma.calls at h2 ⊢
    rw [List.foldlM_cons, h1]
    exact h2

theorem identityWiring_isPermutation : IsPermutation identityWiring := List.Perm.refl _

/-- Claim C5 (bijectivity invariant).  The vector of every constructed `Plugboard`,
`Scrambler`, `LatchingScrambler` and `Reflector`, default or seeded with any shuffle, has 26
entries and holds each of `0..25` exactly once; and on a constructed engine every sequence of
`Set` (key in `0..25`), `ChangeKey`, `RingSet::KeySet`, `RingSet::EndCycle` and
`Enigma::Encryption` calls finishes and leaves every vector with that property. -/
theorem bijectivity_invariant (shuffle : Nat → List Int → List Int)
    (hshuffle : ∀ seed v, List.Perm (shuffle seed v) v) (seed fuel : Nat) (hfuel : 26 ≤ fuel)
    (cs : List Call) (hcs : ∀ c ∈ cs, c.Valid) :
    EachOnce Plugboard.default.plugboard ∧
    EachOnce (Plugboard.seeded shuffle seed).plugboard ∧
    EachOnce Scrambler.default.rotor ∧
    EachOnce (Scrambler.seeded shuffle seed).rotor ∧
    EachOnce LatchingScrambler.default.rotor ∧
    EachOnce (LatchingScrambler.seeded shuffle seed).rotor ∧
    (∃ r, Reflector.default = some r ∧ EachOnce r.reflector) ∧
    (∃ r, Reflector.seeded shuffle seed = some r ∧ EachOnce r.reflector) ∧
    ∃ e0 e', Enigma.new shuffle = some e0 ∧ e0.calls fuel cs = some e' ∧
      EachOnce e'.plugboard.plugboard ∧ EachOnce e'.reflector.reflector ∧
      EachOnce e'.ringSet.ring1.rotor ∧ EachOnce e'.ringSet.ring2.rotor ∧
      EachOnce e'.ringSet.ring3.rotor := by
  have hs : ∀ s, IsPermutation (shuffle s identityWiring) := fun s => hshuffle s _
  refine ⟨identityWiring_isPermutation.eachOnce, (hs seed).eachOnce,
    identityWiring_isPermutation.eachOnce, (hs seed).eachOnce,
    identityWiring_isPermutation.eachOnce, (hs seed).eachOnce, ?_, ?_, ?_⟩
  · exact ⟨⟨identityWiring.reverse⟩, by decide, by decide⟩
  · obtain ⟨r, hr, hinv⟩ := fromShuffled_involution (hs seed)
    exact ⟨r, hr, hinv.isPermutation.eachOnce⟩
  · obtain ⟨refl, hnew, -, hinv⟩ := Enigma.new_spec shuffle hshuffle
    have hw : Enigma.Wired ⟨⟨shuffle 100 identityWiring⟩,
        ⟨⟨shuffle 30 identityWiring⟩, ⟨⟨shuffle 20 identityWiring⟩, 0⟩,
          ⟨⟨shuffle 10 identityWiring⟩, 0⟩⟩, refl⟩ := ⟨hs 100, ⟨hs 10, hs 20, hs 30⟩, hinv⟩
    obtain ⟨e', he', hw'⟩ := Enigma.Wired.calls hfuel cs _ hw hcs
    exact ⟨_, e', hnew, he', hw'.1.eachOnce, hw'.2.2.isPermutation.eachOnce,
      hw'.2.1.1.eachOnce, hw'.2.1.2.1.eachOnce, hw'.2.1.2.2.eachOnce⟩

theorem bijectivity_invariant_witness :
    (∀ seed v, List.Perm (rotateShuffle seed v) v) ∧ 26 ≤ 26 ∧
    (∀ c ∈ [Call.KeySet [0, 1, 2], Call.Encryption "HELLO".toList, Call.Set Ring.ring2 7,
        Call.ChangeKey Ring.ring2, Call.EndCycle, Call.ChangeKey Ring.ring3], c.Valid) ∧
    (EachOnce Plugboard.default.plugboard ∧
    EachOnce (Plugboard.seeded rotateShuffle 100).plugboard ∧
    EachOnce Scrambler.default.rotor ∧
    EachOnce (Scrambler.seeded rotateShuffle 100).rotor ∧
    EachOnce LatchingScrambler.default.rotor ∧
    EachOnce (LatchingScrambler.seeded rotateShuffle 100).rotor ∧
    (∃ r, Reflector.default = some r ∧ EachOnce r.reflector) ∧
    (∃ r, Reflector.seeded rotateShuffle 100 = some r ∧ EachOnce r.reflector) ∧
    ∃ e0 e', Enigma.new rotateShuffle = some e0 ∧
      e0.calls 26 [Call.KeySet [0, 1, 2], Call.Encryption "HELLO".toList, Call.Set Ring.ring2 7,
        Call.ChangeKey Ring.ring2, Call.EndCycle, Call.ChangeKey Ring.ring3] = some e' ∧
      EachOnce e'.plugboard.plugboard ∧ EachOnce e'.reflector.reflector ∧
      EachOnce e'.ringSet.ring1.rotor ∧ EachOnce e'.ringSet.ring2.rotor ∧
      EachOnce e'.ringSet.ring3.rotor) :=
  ⟨fun seed v => List.rotate_perm v seed, by decide, by decide,
    bijectivity_invariant rotateShuffle (fun seed v => List.rotate_perm v seed) 100 26
      (by decide) _ (by decide)⟩

theorem Scrambler.calls_isPermutation {fuel : Nat} (hfuel : 26 ≤ fuel) :
    ∀ (cs : List RotorCall) (r : List Int), IsPermutation r → (∀ c ∈ cs, c.Valid) →
      ∃ s, Scrambler.calls fuel ⟨r⟩ cs = some s ∧ IsPermutation s.rotor := by
  intro cs
  induction cs with
  | nil => intro r hr _; exact ⟨⟨r⟩, rfl, hr⟩
  | cons c cs ih =>
    intro r hr hv
    have hcv := hv c (List.mem_cons_self _ _)
    have hrest : ∀ c' ∈ cs, c'.Valid := fun c' hc' => hv c' (List.mem_cons_of_mem _ hc')
    cases c with
    | ChangeKey =>
      obtain ⟨s, hs, hp⟩ := ih (rotateOnce r) hr.rotated hrest
      refine ⟨s, ?_, hp⟩
      unfold Scrambler.calls at hs ⊢
      rw [List.foldlM_cons]
      exact hs
    | Set key =>
      have hkey : InRange key := hcv
      obtain ⟨k, -, hset, -, -⟩ := hr.setLoop_spec hkey hfuel
      obtain ⟨s, hs, hp⟩ := ih (rotateOnce^[k] r) (hr.rotated_iterate k) hrest
      refine ⟨s, ?_, hp⟩
      unfold Scrambler.calls at hs ⊢
      rw [List.foldlM_cons]
      simp only [Scrambler.call, Scrambler.Set, hset, Option.map_some']
      exact hs

/-- Claim C6 (rotor inverse correctness).  For a rotor that is a permutation of `0..25`, after
any sequence of `ChangeKey` and `Set` calls (keys in `0..25`), which finishes, and for every
position `x`: `GoingEncipher x` is some `y` with `ReturningEncipher y = x`, and
`ReturningEncipher x` is some `z` (the scan finds a match) with `GoingEncipher z = x`. -/
theorem rotor_inverse_correct (rotor : List Int) (hrotor : IsPermutation rotor) (fuel : Nat)
    (hfuel : 26 ≤ fuel) (cs : List RotorCall) (hcs : ∀ c ∈ cs, c.Valid) (x : Int)
    (hx : InRange x) :
    ∃ s, Scrambler.calls fuel ⟨rotor⟩ cs = some s ∧
      (∃ y, s.GoingEncipher x = some y ∧ s.ReturningEncipher y = some x) ∧
      (∃ z, s.ReturningEncipher x = some z ∧ s.GoingEncipher z = some x) := by
  obtain ⟨s, hs, hp⟩ := Scrambler.calls_isPermutation hfuel cs rotor hrotor hcs
  obtain ⟨y, hy, -, hyx⟩ := hp.vecAt_scan hx
  obtain ⟨z, hz, -, hzx⟩ := hp.scan_vecAt hx
  exact ⟨s, hs, ⟨y, hy, hyx⟩, ⟨z, hz, hzx⟩⟩

theorem rotor_inverse_correct_witness :
    IsPermutation identityWiring.reverse ∧ 26 ≤ 26 ∧
    (∀ c ∈ [RotorCall.ChangeKey, RotorCall.Set 4, RotorCall.ChangeKey], c.Valid) ∧ InRange 9 ∧
    ∃ s, Scrambler.calls 26 ⟨identityWiring.reverse⟩
        [RotorCall.ChangeKey, RotorCall.Set 4, RotorCall.ChangeKey] = some s ∧
      (∃ y, s.GoingEncipher 9 = some y ∧ s.ReturningEncipher y = some 9) ∧
      (∃ z, s.ReturningEncipher 9 = some z ∧ s.GoingEncipher z = some 9) :=
  ⟨by decide, by decide, by decide, by decide,
    rotor_inverse_correct identityWiring.reverse (by decide) 26 (by decide) _ (by decide) 9
      (by decide)⟩

/-- A fresh `RingSet` accepts every key of three positions; afterwards the counters are
still zero, the rings are permutations and show the key. -/
theorem RingSet.new_keySet (shuffle : Nat → List Int → List Int)
    (hshuffle : ∀ seed v, List.Perm (shuffle seed v) v) {fuel : Nat} (hfuel : 26 ≤ fuel)
    {k0 k1 k2 : Int} (h0 : InRange k0) (h1 : InRange k1) (h2 : InRange k2) :
    ∃ w1 w2 w3, (RingSet.new shuffle).KeySet fuel [k0, k1, k2]
        = some ⟨⟨w3⟩, ⟨⟨w2⟩, 0⟩, ⟨⟨w1⟩, 0⟩⟩ ∧
      IsPermutation w1 ∧ IsPermutation w2 ∧ IsPermutation w3 ∧
      vecAt w1 0 = some k0 ∧ vecAt w2 0 = some k1 ∧ vecAt w3 0 = some k2 := by
  have hw : RingSet.Wired ⟨⟨shuffle 30 identityWiring⟩, ⟨⟨shuffle 20 identityWiring⟩, 0⟩,
      ⟨⟨shuffle 10 identityWiring⟩, 0⟩⟩ := ⟨hshuffle _ _, hshuffle _ _, hshuffle _ _⟩
  obtain ⟨a, b, c, -, -, -, hset, hf1, hf2, hf3⟩ := hw.keySet h0 h1 h2 [] hfuel
  exact ⟨_, _, _, hset, hw.1.rotated_iterate a, hw.2.1.rotated_iterate b,
    hw.2.2.rotated_iterate c, hf1, hf2, hf3⟩

/-- Closed form of `n` calls of `EndCycle` from zero counters. -/
theorem RingSet.EndCycle_iterate_zero (w1 w2 w3 : List Int) (n : Nat) :
    RingSet.EndCycle^[n] ⟨⟨w3⟩, ⟨⟨w2⟩, 0⟩, ⟨⟨w1⟩, 0⟩⟩ =
      ⟨⟨rotateOnce^[n / 676] w3⟩, ⟨⟨rotateOnce^[n / 26] w2⟩, ((n / 26 % 26 : Nat) : Int)⟩,
       ⟨⟨rotateOnce^[n] w1⟩, ((n % 26 : Nat) : Int)⟩⟩ := by
  have := RingSet.EndCycle_iterate w1 w2 w3 0 0 (by norm_num) (by norm_num) n
  have e : n / 26 / 26 = n / 676 := by omega
  simp only [Nat.cast_zero, zero_add, e] at this
  exact this

theorem IsPermutation.iterate_of_mod {r : List Int} (hr : IsPermutation r) {n : Nat}
    (hn : n % 26 = 0) : rotateOnce^[n] r = r :=
  ((hr.iterate_eq_iff n 0).mpr (by omega)).trans rfl

/-- Claim C7 (stepping correctness).  On a freshly constructed `RingSet` after `KeySet` with
any key, 26 calls of `EndCycle` leave the vector of `ring1` as it was, the vector of `ring2`
moved right by one position and the vector of `ring3` as it was; 676 calls leave the vectors
of `ring1` and `ring2` as they were and the vector of `ring3` moved right by one position. -/
theorem stepping_correctness (shuffle : Nat → List Int → List Int)
    (hshuffle : ∀ seed v, List.Perm (shuffle seed v) v) (fuel : Nat) (hfuel : 26 ≤ fuel)
    (k0 k1 k2 : Int) (h0 : InRange k0) (h1 : InRange k1) (h2 : InRange k2) :
    ∃ rs, (RingSet.new shuffle).KeySet fuel [k0, k1, k2] = some rs ∧
      (RingSet.EndCycle^[26] rs).ring1.rotor = rs.ring1.rotor ∧
      IsRightShiftOf (RingSet.EndCycle^[26] rs).ring2.rotor rs.ring2.rotor ∧
      (RingSet.EndCycle^[26] rs).ring3.rotor = rs.ring3.rotor ∧
      (RingSet.EndCycle^[676] rs).ring1.rotor = rs.ring1.rotor ∧
      (RingSet.EndCycle^[676] rs).ring2.rotor = rs.ring2.rotor ∧
      IsRightShiftOf (RingSet.EndCycle^[676] rs).ring3.rotor rs.ring3.rotor := by
  obtain ⟨w1, w2, w3, hkey, p1, p2, p3, -, -, -⟩ :=
    RingSet.new_keySet shuffle hshuffle hfuel h0 h1 h2
  refine ⟨_, hkey, ?_⟩
  rw [RingSet.EndCycle_iterate_zero, RingSet.EndCycle_iterate_zero]
  simp only [Nat.reduceDiv, Function.iterate_zero, id_eq, Function.iterate_one]
  refine ⟨p1.iterate_26, rotateOnce_isRightShiftOf p2.length_eq, trivial, ?_, p2.iterate_26,
    rotateOnce_isRightShiftOf p3.length_eq⟩
  exact p1.iterate_of_mod (by norm_num)

theorem stepping_correctness_witness :
    (∀ seed v, List.Perm (rotateShuffle seed v) v) ∧ 26 ≤ 26 ∧ InRange 0 ∧ InRange 0 ∧
    InRange 0 ∧
    ∃ rs, (RingSet.new rotateShuffle).KeySet 26 [0, 0, 0] = some rs ∧
      (RingSet.EndCycle^[26] rs).ring1.rotor = rs.ring1.rotor ∧
      IsRightShiftOf (RingSet.EndCycle^[26] rs).ring2.rotor rs.ring2.rotor ∧
      (RingSet.EndCycle^[26] rs).ring3.rotor = rs.ring3.rotor ∧
      (RingSet.EndCycle^[676] rs).ring1.rotor = rs.ring1.rotor ∧
      (RingSet.EndCycle^[676] rs).ring2.rotor = rs.ring2.rotor ∧
      IsRightShiftOf (RingSet.EndCycle^[676] rs).ring3.rotor rs.ring3.rotor :=
  ⟨fun seed v => List.rotate_perm v seed, by decide, by decide, by decide, by decide,
    stepping_correctness rotateShuffle (fun seed v => List.rotate_perm v seed) 26 (by decide)
      0 0 0 (by decide) (by decide) (by decide)⟩

/-- Claim C8 (period of the bank).  On a freshly constructed and keyed `RingSet`, the triples
of rotor vectors after `i` and after `j` calls of `EndCycle` differ whenever
`i < j < 17576`, and after exactly 17576 calls the triple of vectors and both counters are
what they were after 0 calls. -/
theorem bank_period (shuffle : Nat → List Int → List Int)
    (hshuffle : ∀ seed v, List.Perm (shuffle seed v) v) (fuel : Nat) (hfuel : 26 ≤ fuel)
    (k0 k1 k2 : Int) (h0 : InRange k0) (h1 : InRange k1) (h2 : InRange k2) :
    ∃ rs, (RingSet.new shuffle).KeySet fuel [k0, k1, k2] = some rs ∧
      (∀ i j, i < j → j < 17576 →
        (RingSet.EndCycle^[i] rs).wirings ≠ (RingSet.EndCycle^[j] rs).wirings) ∧
      (RingSet.EndCycle^[17576] rs).wirings = rs.wirings ∧
      (RingSet.EndCycle^[17576] rs).ring1.cnt = rs.ring1.cnt ∧
      (RingSet.EndCycle^[17576] rs).ring2.cnt = rs.ring2.cnt := by
  obtain ⟨w1, w2, w3, hkey, p1, p2, p3, -, -, -⟩ :=
    RingSet.new_keySet shuffle hshuffle hfuel h0 h1 h2
  refine ⟨_, hkey, ?_, ?_⟩
  · intro i j hij hj heq
    rw [RingSet.EndCycle_iterate_zero, RingSet.EndCycle_iterate_zero] at heq
    simp only [RingSet.wirings, Prod.mk.injEq] at heq
    obtain ⟨e1, e2, e3⟩ := heq
    rw [p1.iterate_eq_iff] at e1
    rw [p2.iterate_eq_iff] at e2
    rw [p3.iterate_eq_iff] at e3
    omega
  · rw [RingSet.EndCycle_iterate_zero]
    simp only [RingSet.wirings, Nat.reduceDiv, Nat.reduceMod, Nat.cast_zero, Prod.mk.injEq,
      and_true]
    refine ⟨?_, ?_, ?_⟩
    · exact p1.iterate_of_mod (by norm_num)
    · exact p2.iterate_of_mod (by norm_num)
    · exact p3.iterate_26

theorem bank_period_witness :
    (∀ seed v, List.Perm (rotateShuffle seed v) v) ∧ 26 ≤ 26 ∧ InRange 0 ∧ InRange 1 ∧
    InRange 2 ∧
    ∃ rs, (RingSet.new rotateShuffle).KeySet 26 [0, 1, 2] = some rs ∧
      (∀ i j, i < j → j < 17576 →
        (RingSet.EndCycle^[i] rs).wirings ≠ (RingSet.EndCycle^[j] rs).wirings) ∧
      (RingSet.EndCycle^[17576] rs).wirings = rs.wirings ∧
      (RingSet.EndCycle^[17576] rs).ring1.cnt = rs.ring1.cnt ∧
      (RingSet.EndCycle^[17576] rs).ring2.cnt = rs.ring2.cnt :=
  ⟨fun seed v => List.rotate_perm v seed, by decide, by decide, by decide, by decide,
    bank_period rotateShuffle (fun seed v => List.rotate_perm v seed) 26 (by decide)
      0 1 2 (by decide) (by decide) (by decide)⟩

/-- Claim C9, the statement as written fails: the character `-` is not one of the 26 letters,
yet `alphamap['-']` yields the position `0`; `Encryption` of the text `-` returns a
cryptogram, and `KeySet` with the key `A-A` aligns the three rings to position `0`. -/
theorem invalid_symbol_yields_position :
    '-' ∉ ALPHA ∧ alphamapAt '-' = 0 ∧
    ((Enigma.new idShuffle).bind fun e => (e.KeySet 26 "AAA".toList).bind fun keyed =>
      (keyed.Encryption "-".toList).map Prod.fst) = some "Z".toList ∧
    ((Enigma.new idShuffle).bind fun e => (e.KeySet 26 "A-A".toList).map fun keyed =>
      keyed.ringSet.wirings) = some (identityWiring, identityWiring, identityWiring) := by
  decide

/-- Claim C9, amended.  For every character that is not one of the 26 uppercase letters the
lookup `alphamap[c]` used by `Enigma::KeySet` and `Enigma::Encryption` does not fail: it
yields the position `0`, the position of `A`. -/
theorem invalid_symbol_maps_to_zero (c : Char) (hc : c ∉ ALPHA) :
    alphamapAt c = 0 ∧ alphamapAt c = alphamapAt 'A' ∧ InRange (alphamapAt c) := by
  rw [alphamapAt_of_not_mem hc]
  decide

theorem invalid_symbol_maps_to_zero_witness :
    '-' ∉ ALPHA ∧ alphamapAt '-' = 0 ∧ alphamapAt '-' = alphamapAt 'A' ∧
      InRange (alphamapAt '-') :=
  ⟨by decide, invalid_symbol_maps_to_zero '-' (by decide)⟩

/-- Claim C10 at the key `A-B`: `GetOption` returns status `0` and stores the key, `main`
goes on to `Enigma::KeySet`, which hands the positions `0, 0, 1` to `RingSet::KeySet`; the
run is the run with the key `AAB`. -/
theorem punctuation_key_reaches_keySet :
    GetOption (some "A-B".toList) ["HELLO".toList] Arguments.new
      = (0, { key_ := "A-B".toList, code_ := "HELLO".toList }) ∧
    "A-B".toList.map alphamapAt = [0, 0, 1] ∧
    (main idShuffle 26 (some "A-B".toList) ["HELLO".toList]).map (fun r => r.status) = some 0 ∧
    main idShuffle 26 (some "A-B".toList) ["HELLO".toList]
      = main idShuffle 26 (some "AAB".toList) ["HELLO".toList] := by
  decide

/-- Claim C12 (alphabet codec round trip).  `ALPHA` is the alphabet in order, `Alpha2AlphaID`
maps its `n`-th letter to `n`, `AlphaID2Alpha` has an entry for every position (the read
does not fall back on the default) and maps `n` to the `n`-th letter; for every uppercase
letter `s`, `AlphaID2Alpha[Alpha2AlphaID[s]] = s`, and for every position `p`,
`Alpha2AlphaID[AlphaID2Alpha[p]] = p`. -/
theorem alphabet_round_trip (s : Char) (hs : s ∈ ALPHA) (p : Int) (hp : InRange p) :
    ALPHA = (List.range 26).map (fun n => Char.ofNat (65 + n)) ∧
    alphamapAt s = Int.ofNat (ALPHA.indexOf s) ∧ InRange (alphamapAt s) ∧
    alphaIDmapAt (alphamapAt s) = s ∧
    (AlphaID2Alpha.find? (fun e => decide (e.1 = p))).isSome = true ∧
    some (alphaIDmapAt p) = ALPHA[p.toNat]? ∧
    alphaIDmapAt p ∈ ALPHA ∧
    alphamapAt (alphaIDmapAt p) = p := by
  have h1 : ∀ c ∈ ALPHA, alphamapAt c = Int.ofNat (ALPHA.indexOf c) := by decide
  have h2 : ∀ n : Nat, n < 26 →
      (AlphaID2Alpha.find? (fun e => decide (e.1 = Int.ofNat n))).isSome = true ∧
      some (alphaIDmapAt (Int.ofNat n)) = ALPHA[(Int.ofNat n).toNat]? := by decide
  obtain ⟨hp0, hp1⟩ := hp
  have e : Int.ofNat p.toNat = p := by simp only [Int.ofNat_eq_coe]; omega
  have h3 := h2 p.toNat (by omega)
  rw [e] at h3
  have h4 := alphamapAt_alphaIDmapAt ⟨hp0, hp1⟩
  exact ⟨by decide, h1 s hs, alphamapAt_inRange s, alphaIDmapAt_alphamapAt s hs, h3.1, h3.2,
    h4.2, h4.1⟩

theorem alphabet_round_trip_witness :
    'Q' ∈ ALPHA ∧ InRange 11 ∧
    (ALPHA = (List.range 26).map (fun n => Char.ofNat (65 + n)) ∧
    alphamapAt 'Q' = Int.ofNat (ALPHA.indexOf 'Q') ∧ InRange (alphamapAt 'Q') ∧
    alphaIDmapAt (alphamapAt 'Q') = 'Q' ∧
    (AlphaID2Alpha.find? (fun e => decide (e.1 = 11))).isSome = true ∧
    some (alphaIDmapAt 11) = ALPHA[(11 : Int).toNat]? ∧
    alphaIDmapAt 11 ∈ ALPHA ∧
    alphamapAt (alphaIDmapAt 11) = 11) :=
  ⟨by decide, by decide, alphabet_round_trip 'Q' (by decide) 11 (by decide)⟩

theorem Plugboard.visibleReturning_fst (p : Plugboard) (code : Int)
    (cout : List String) :
    (p.VisibleReturningEncipher code cout).1 = p.ReturningEncipher code := by
  unfold Plugboard.VisibleReturningEncipher Plugboard.ReturningEncipher
  cases scanIndex p.plugboard code <;> rfl

theorem Scrambler.visibleReturning_of_scan {s : Scrambler} {code i : Int}
    (h : s.ReturningEncipher code = some i) (cout : List String) :
    (s.VisibleReturningEncipher code cout).1 = i := by
  unfold Scrambler.ReturningEncipher at h
  unfold Scrambler.VisibleReturningEncipher
  rw [h]

theorem RingSet.VisibleGoingEncipher_of_going {rs : RingSet} {code y : Int}
    (h : rs.GoingEncipher code = some y) (cout : List String) :
    ∃ out, rs.VisibleGoingEncipher code cout = some (y, out) := by
  simp only [RingSet.GoingEncipher, Scrambler.GoingEncipher, Option.bind_eq_bind,
    Option.bind_eq_some] at h
  obtain ⟨b1, hb1, b2, hb2, hb3⟩ := h
  simp only [RingSet.VisibleGoingEncipher, Scrambler.VisibleGoingEncipher, hb1, hb2, hb3]
  exact ⟨_, rfl⟩

theorem RingSet.VisibleReturningEncipher_of_returning {rs : RingSet} {code y : Int}
    (h : rs.ReturningEncipher code = some y) (cout : List String) :
    (rs.VisibleReturningEncipher code cout).1 = y := by
  simp only [RingSet.ReturningEncipher, Option.bind_eq_bind, Option.bind_eq_some] at h
  obtain ⟨d3, hd3, d2, hd2, hd1⟩ := h
  unfold RingSet.VisibleReturningEncipher
  simp only
  rw [Scrambler.visibleReturning_of_scan hd3, Scrambler.visibleReturning_of_scan hd2,
    Scrambler.visibleReturning_of_scan hd1]

/-- Where the substitution of `Encryption` is defined, the five `Visible...` calls yield
the same position. -/
theorem Enigma.visibleSubstitute_of_substitute {e : Enigma} {code y : Int}
    (h : e.substitute code = some y) (cout : List String) :
    ∃ out, e.visibleSubstitute code cout = some (y, out) := by
  simp only [Enigma.substitute, Plugboard.GoingEncipher, Reflector.Reflect,
    Option.bind_eq_bind, Option.bind_eq_some, Option.pure_def, Option.some.injEq] at h
  obtain ⟨a, ha, b, hb, c, hc, d, hd, hy⟩ := h
  unfold Enigma.visibleSubstitute
  simp only [Plugboard.VisibleGoingEncipher, ha]
  obtain ⟨o1, ho1⟩ := RingSet.VisibleGoingEncipher_of_going hb
    (cout ++ ["\t  ", String.singleton (alphaIDmapAt code), " --> "]
      ++ [String.singleton (alphaIDmapAt a), " --> "])
  simp only [ho1, Reflector.VisibleReflect, hc]
  refine ⟨(e.plugboard.VisibleReturningEncipher
    (e.ringSet.VisibleReturningEncipher c (o1 ++ [String.singleton (alphaIDmapAt c), " --> "])).1
    (e.ringSet.VisibleReturningEncipher c
      (o1 ++ [String.singleton (alphaIDmapAt c), " --> "])).2).2, ?_⟩
  rw [Option.some.injEq]
  apply Prod.ext
  · simp only
    rw [Plugboard.visibleReturning_fst,
      RingSet.VisibleReturningEncipher_of_returning hd, hy]
  · rfl

theorem Enigma.visibleLoop_of_encryptLoop :
    ∀ (codes : List Int) (e : Enigma) (acc : List Char) (cout : List String)
      (c : List Char) (e' : Enigma),
      Enigma.encryptLoop codes e acc = some (c, e') →
      ∃ out, Enigma.visibleLoop codes e acc cout = some (c, e', out) := by
  intro codes
  induction codes with
  | nil =>
    intro e acc cout c e' h
    simp only [Enigma.encryptLoop, Option.some.injEq, Prod.mk.injEq] at h
    obtain ⟨rfl, rfl⟩ := h
    exact ⟨cout, rfl⟩
  | cons code rest ih =>
    intro e acc cout c e' h
    unfold Enigma.encryptLoop at h
    cases hs : e.substitute code with
    | none => rw [hs] at h; cases h
    | some temp =>
      rw [hs] at h
      obtain ⟨o1, ho1⟩ := Enigma.visibleSubstitute_of_substitute hs cout
      obtain ⟨o2, ho2⟩ := ih _ _ o1 c e' h
      refine ⟨o2, ?_⟩
      unfold Enigma.visibleLoop
      rw [ho1]
      exact ho2

theorem Enigma.keyVisibleLoop_of_encryptLoop :
    ∀ (codes : List Int) (i : Nat) (e : Enigma) (acc : List Char) (cout : List String)
      (c : List Char) (e' : Enigma),
      Enigma.encryptLoop codes e acc = some (c, e') →
      ∃ out, Enigma.keyVisibleLoop codes i e acc cout = some (c, e', out) := by
  intro codes
  induction codes with
  | nil =>
    intro i e acc cout c e' h
    simp only [Enigma.encryptLoop, Option.some.injEq, Prod.mk.injEq] at h
    obtain ⟨rfl, rfl⟩ := h
    exact ⟨cout, rfl⟩
  | cons code rest ih =>
    intro i e acc cout c e' h
    unfold Enigma.encryptLoop at h
    cases hs : e.substitute code with
    | none => rw [hs] at h; cases h
    | some temp =>
      rw [hs] at h
      obtain ⟨o1, ho1⟩ := Enigma.visibleSubstitute_of_substitute hs
        (e.ShowKeyArray (cout ++ ["\tKey Array : ", toString (i + 1), "cycle\n"])
          ++ ["\n", "\tCode Conversion Process\n",
            "\t    Plg   Ri1   Ri2   Ri3   Ref   Ri3   Ri2   Ri1   Plg\n"])
      obtain ⟨o2, ho2⟩ := ih (i + 1) _ _ (o1 ++ ["\n"]) c e' h
      refine ⟨o2, ?_⟩
      unfold Enigma.keyVisibleLoop
      simp only [ho1]
      exact ho2

/-- Where `Encryption` is defined, the two display variants return the same string and leave
the same engine, for every stream they start from. -/
theorem Enigma.visible_of_encryption {e e' : Enigma} {code c : List Char}
    (h : e.Encryption code = some (c, e')) (cout : List String) :
    (∃ out, e.VisibleEncryption code cout = some (c, e', out)) ∧
    (∃ out, e.KeyVisibleEncryption code cout = some (c, e', out)) := by
  unfold Enigma.Encryption at h
  constructor
  · obtain ⟨o, ho⟩ := Enigma.visibleLoop_of_encryptLoop _ _ _
      (cout ++ ["\tCode Conversion Process\n",
        "\t    Plg   Ri1   Ri2   Ri3   Ref   Ri3   Ri2   Ri1   Plg\n"]) _ _ h
    exact ⟨o ++ ["\n"], by simp only [Enigma.VisibleEncryption, ho]⟩
  · obtain ⟨o, ho⟩ := Enigma.keyVisibleLoop_of_encryptLoop _ 0 _ _ cout _ _ h
    exact ⟨o ++ ["\n"], by simp only [Enigma.KeyVisibleEncryption, ho]⟩

/-- Every engine reached from the constructor by valid calls exists and is wired. -/
theorem Enigma.reached_wired (shuffle : Nat → List Int → List Int)
    (hshuffle : ∀ seed v, List.Perm (shuffle seed v) v) {fuel : Nat} (hfuel : 26 ≤ fuel)
    (cs : List Call) (hcs : ∀ c ∈ cs, c.Valid) :
    ∃ e, Enigma.reached shuffle fuel cs = some e ∧ e.Wired := by
  obtain ⟨refl, hnew, -, hinv⟩ := Enigma.new_spec shuffle hshuffle
  have hw : Enigma.Wired ⟨⟨shuffle 100 identityWiring⟩,
      ⟨⟨shuffle 30 identityWiring⟩, ⟨⟨shuffle 20 identityWiring⟩, 0⟩,
        ⟨⟨shuffle 10 identityWiring⟩, 0⟩⟩, refl⟩ :=
    ⟨hshuffle _ _, ⟨hshuffle _ _, hshuffle _ _, hshuffle _ _⟩, hinv⟩
  obtain ⟨e', he', hw'⟩ := Enigma.Wired.calls hfuel cs _ hw hcs
  refine ⟨e', ?_, hw'⟩
  unfold Enigma.reached
  rw [hnew, Option.some_bind, he']

/-- Claim C13 (display modes do not change the result).  On every engine reached from the
constructor by valid calls, for every input text and every stream content, `Encryption`,
`VisibleEncryption` and `KeyVisibleEncryption` all finish, return the same string and leave
the same engine (rotor vectors and counters); they differ in the stream only. -/
theorem display_modes_same_result (shuffle : Nat → List Int → List Int)
    (hshuffle : ∀ seed v, List.Perm (shuffle seed v) v) (fuel : Nat) (hfuel : 26 ≤ fuel)
    (cs : List Call) (hcs : ∀ c ∈ cs, c.Valid) (code : List Char) (cout : List String) :
    ∃ e c e', Enigma.reached shuffle fuel cs = some e ∧
      e.Encryption code = some (c, e') ∧
      (∃ out, e.VisibleEncryption code cout = some (c, e', out)) ∧
      (∃ out, e.KeyVisibleEncryption code cout = some (c, e', out)) := by
  obtain ⟨e, he, hw⟩ := Enigma.reached_wired shuffle hshuffle hfuel cs hcs
  obtain ⟨c, -, -, henc⟩ := hw.encryption_total code
  obtain ⟨h1, h2⟩ := Enigma.visible_of_encryption henc cout
  exact ⟨e, c, _, he, henc, h1, h2⟩

theorem display_modes_same_result_witness :
    (∀ seed v, List.Perm (rotateShuffle seed v) v) ∧ 26 ≤ 26 ∧
    (∀ c ∈ [Call.KeySet [0, 1, 2], Call.EndCycle], c.Valid) ∧
    ∃ e c e', Enigma.reached rotateShuffle 26 [Call.KeySet [0, 1, 2], Call.EndCycle] = some e ∧
      e.Encryption "HELLO".toList = some (c, e') ∧
      (∃ out, e.VisibleEncryption "HELLO".toList [] = some (c, e', out)) ∧
      (∃ out, e.KeyVisibleEncryption "HELLO".toList [] = some (c, e', out)) :=
  ⟨fun seed v => List.rotate_perm v seed, by decide, by decide,
    display_modes_same_result rotateShuffle (fun seed v => List.rotate_perm v seed) 26
      (by decide) _ (by decide) "HELLO".toList []⟩

/-- Claim C14 (output shape).  On every engine reached from the constructor by valid calls and
for every input text of `n` characters, in particular `n` uppercase letters, `Encryption`
finishes and returns exactly `n` characters, each one of the uppercase letters `A..Z`. -/
theorem encryption_output_shape (shuffle : Nat → List Int → List Int)
    (hshuffle : ∀ seed v, List.Perm (shuffle seed v) v) (fuel : Nat) (hfuel : 26 ≤ fuel)
    (cs : List Call) (hcs : ∀ c ∈ cs, c.Valid) (text : List Char) :
    ∃ e c e', Enigma.reached shuffle fuel cs = some e ∧
      e.Encryption text = some (c, e') ∧ c.length = text.length ∧ ∀ ch ∈ c, ch ∈ ALPHA := by
  obtain ⟨e, he, hw⟩ := Enigma.reached_wired shuffle hshuffle hfuel cs hcs
  obtain ⟨c, hlen, hall, henc⟩ := hw.encryption_total text
  exact ⟨e, c, _, he, henc, hlen, hall⟩

theorem encryption_output_shape_witness :
    (∀ seed v, List.Perm (rotateShuffle seed v) v) ∧ 26 ≤ 26 ∧
    (∀ c ∈ [Call.KeySet [0, 1, 2], Call.Encryption "ABC".toList], c.Valid) ∧
    ∃ e c e', Enigma.reached rotateShuffle 26
        [Call.KeySet [0, 1, 2], Call.Encryption "ABC".toList] = some e ∧
      e.Encryption "HELLOWORLD".toList = some (c, e') ∧
      c.length = "HELLOWORLD".toList.length ∧ ∀ ch ∈ c, ch ∈ ALPHA :=
  ⟨fun seed v => List.rotate_perm v seed, by decide, by decide,
    encryption_output_shape rotateShuffle (fun seed v => List.rotate_perm v seed) 26
      (by decide) _ (by decide) "HELLOWORLD".toList⟩

/-- With a key that no entry of the rotor equals, the loop of `Set` uses up any fuel. -/
theorem setLoop_never (key : Int) (hkey : ¬ InRange key) :
    ∀ (fuel : Nat) (r : List Int), IsPermutation r → setLoop fuel r key = none := by
  intro fuel
  induction fuel with
  | zero => intro r _; rfl
  | succ f ih =>
    intro r hr
    obtain ⟨front, hfront, hrange, -⟩ := hr.vecAt_scan (x := 0) (by decide)
    have hne : front ≠ key := by
      intro h
      rw [h] at hrange
      exact hkey hrange
    simp only [setLoop, hfront, hne, ne_eq, not_false_eq_true, if_true]
    exact ih _ hr.rotated

/-- Claim C15 (`Set` terminates and aligns).  For a rotor that is a permutation of `0..25`:
with a key in `0..25` there is a number `k ≤ 25` of rotations such that `Set(key)` finishes
as soon as it may test the front element `k + 1` times, the rotor afterwards is the rotor
turned right `k` times and shows `key` at the front, no smaller number of rotations does, and
`k = 0` (nothing changes) when the rotor showed `key` already; with a key `bad` outside
`0..25` the loop does not finish within any number of tests. -/
theorem set_terminates_and_aligns (rotor : List Int) (hperm : IsPermutation rotor)
    (key : Int) (hkey : InRange key) (bad : Int) (hbad : ¬ InRange bad) :
    (∃ k, k ≤ 25 ∧
      (∀ fuel, k < fuel → Scrambler.Set fuel ⟨rotor⟩ key = some ⟨rotateOnce^[k] rotor⟩) ∧
      vecAt (rotateOnce^[k] rotor) 0 = some key ∧
      (∀ i, i < k → vecAt (rotateOnce^[i] rotor) 0 ≠ some key) ∧
      (vecAt rotor 0 = some key → k = 0 ∧ rotateOnce^[k] rotor = rotor)) ∧
    (∀ fuel, Scrambler.Set fuel ⟨rotor⟩ bad = none) := by
  constructor
  · obtain ⟨k, hk, -, hal, hmin⟩ := hperm.setLoop_spec hkey (le_refl 26)
    refine ⟨k, by omega, ?_, hal, hmin, ?_⟩
    · intro fuel hf
      obtain ⟨k', hk', hset, hal', -⟩ := setLoop_first key k fuel rotor hf hal
      have hkk : k' = k := by
        by_contra hne
        exact hmin k' (by omega) hal'
      subst hkk
      simp only [Scrambler.Set, hset, Option.map_some']
    · intro hfront
      have hk0 : k = 0 := by
        by_contra hne
        exact hmin 0 (by omega) hfront
      subst hk0
      exact ⟨rfl, rfl⟩
  · intro fuel
    simp only [Scrambler.Set, setLoop_never bad hbad fuel rotor hperm, Option.map_none']

theorem set_terminates_and_aligns_witness :
    IsPermutation identityWiring.reverse ∧ InRange 4 ∧ ¬ InRange 26 ∧
    ((∃ k, k ≤ 25 ∧
      (∀ fuel, k < fuel →
        Scrambler.Set fuel ⟨identityWiring.reverse⟩ 4
          = some ⟨rotateOnce^[k] identityWiring.reverse⟩) ∧
      vecAt (rotateOnce^[k] identityWiring.reverse) 0 = some 4 ∧
      (∀ i, i < k → vecAt (rotateOnce^[i] identityWiring.reverse) 0 ≠ some 4) ∧
      (vecAt identityWiring.reverse 0 = some 4 →
        k = 0 ∧ rotateOnce^[k] identityWiring.reverse = identityWiring.reverse)) ∧
    (∀ fuel, Scrambler.Set fuel ⟨identityWiring.reverse⟩ 26 = none)) :=
  ⟨by decide, by decide, by decide,
    set_terminates_and_aligns identityWiring.reverse (by decide) 4 (by decide) 26 (by decide)⟩

/-- Claim C16 (plugboard inverse).  For the identity plugboard and for the plugboard of every
shuffle, and every position `x`: the scan of `ReturningEncipher(x)` finds a match (the
default `0` is not what it returns for lack of one), the index it returns is the only index
`i` with `plugboard[i] = x`, and `ReturningEncipher(GoingEncipher(x)) = x`. -/
theorem plugboard_inverse (shuffle : Nat → List Int → List Int)
    (hshuffle : ∀ seed v, List.Perm (shuffle seed v) v) (seed : Nat) (p : Plugboard)
    (hp : p = Plugboard.default ∨ p = Plugboard.seeded shuffle seed) (x : Int)
    (hx : InRange x) :
    scanIndex p.plugboard x = some (p.ReturningEncipher x) ∧
    InRange (p.ReturningEncipher x) ∧
    p.GoingEncipher (p.ReturningEncipher x) = some x ∧
    (∀ i, p.GoingEncipher i = some x → i = p.ReturningEncipher x) ∧
    ∃ y, p.GoingEncipher x = some y ∧ InRange y ∧ p.ReturningEncipher y = x := by
  have hperm : IsPermutation p.plugboard := by
    rcases hp with rfl | rfl
    · exact identityWiring_isPermutation
    · exact hshuffle _ _
  obtain ⟨i, hi, hir, hgo⟩ := hperm.scan_vecAt hx
  obtain ⟨y, hy, hyr, hys⟩ := hperm.vecAt_scan hx
  have hret : p.ReturningEncipher x = i := by
    simp only [Plugboard.ReturningEncipher, hi]
  have hret2 : p.ReturningEncipher y = x := by
    simp only [Plugboard.ReturningEncipher, hys]
  rw [hret]
  refine ⟨hi, hir, hgo, ?_, y, hy, hyr, hret2⟩
  intro j hj
  exact hperm.vecAt_inj hj hgo

theorem plugboard_inverse_witness :
    (∀ seed v, List.Perm (rotateShuffle seed v) v) ∧
    (Plugboard.seeded rotateShuffle 100 = Plugboard.default ∨
      Plugboard.seeded rotateShuffle 100 = Plugboard.seeded rotateShuffle 100) ∧
    InRange 9 ∧
    (scanIndex (Plugboard.seeded rotateShuffle 100).plugboard 9
      = some ((Plugboard.seeded rotateShuffle 100).ReturningEncipher 9) ∧
    InRange ((Plugboard.seeded rotateShuffle 100).ReturningEncipher 9) ∧
    (Plugboard.seeded rotateShuffle 100).GoingEncipher
      ((Plugboard.seeded rotateShuffle 100).ReturningEncipher 9) = some 9 ∧
    (∀ i, (Plugboard.seeded rotateShuffle 100).GoingEncipher i = some 9 →
      i = (Plugboard.seeded rotateShuffle 100).ReturningEncipher 9) ∧
    ∃ y, (Plugboard.seeded rotateShuffle 100).GoingEncipher 9 = some y ∧ InRange y ∧
      (Plugboard.seeded rotateShuffle 100).ReturningEncipher y = 9) :=
  ⟨fun seed v => List.rotate_perm v seed, Or.inr rfl, by decide,
    plugboard_inverse rotateShuffle (fun seed v => List.rotate_perm v seed) 100
      (Plugboard.seeded rotateShuffle 100) (Or.inr rfl) 9 (by decide)⟩

theorem Enigma.encryptLoop_acc :
    ∀ (codes : List Int) (e : Enigma) (acc : List Char),
      Enigma.encryptLoop codes e acc
        = (Enigma.encryptLoop codes e []).map (fun r => (acc ++ r.1, r.2)) := by
  intro codes
  induction codes with
  | nil => intro e acc; simp [Enigma.encryptLoop]
  | cons code rest ih =>
    intro e acc
    unfold Enigma.encryptLoop
    cases e.substitute code with
    | none => rfl
    | some temp =>
      simp only [List.nil_append]
      rw [ih _ (acc ++ [alphaIDmapAt temp]), ih _ [alphaIDmapAt temp], Option.map_map]
      congr 1
      funext r
      simp

theorem Enigma.encryptLoop_append :
    ∀ (xs ys : List Int) (e : Enigma) (acc : List Char),
      Enigma.encryptLoop (xs ++ ys) e acc
        = (Enigma.encryptLoop xs e acc).bind (fun r => Enigma.encryptLoop ys r.2 r.1) := by
  intro xs
  induction xs with
  | nil => intro ys e acc; simp [Enigma.encryptLoop]
  | cons code rest ih =>
    intro ys e acc
    rw [List.cons_append]
    cases hs : e.substitute code with
    | none => simp only [Enigma.encryptLoop, hs, Option.none_bind]
    | some temp =>
      simp only [Enigma.encryptLoop, hs]
      exact ih ys _ _

/-- `Encryption` of a concatenation is `Encryption` of the first part followed by
`Encryption` of the second part on the engine the first part leaves. -/
theorem Enigma.Encryption_append (e : Enigma) (s t : List Char) :
    e.Encryption (s ++ t)
      = (e.Encryption s).bind fun r1 =>
          (r1.2.Encryption t).map fun r2 => (r1.1 ++ r2.1, r2.2) := by
  unfold Enigma.Encryption
  rw [List.map_append, Enigma.encryptLoop_append]
  congr 1
  funext r
  exact Enigma.encryptLoop_acc _ _ _

theorem Enigma.advance_zero (e : Enigma) : e.advance 0 = e := rfl

/-- The loop of `Encryption` on a wired engine, symbol by symbol: the `i`-th output position
is the substitution of the `i`-th input position on the engine advanced `i` times. -/
theorem Enigma.Wired.encryptLoop_nth :
    ∀ (codes : List Int) (e : Enigma) (acc : List Char), e.Wired →
      (∀ c ∈ codes, InRange c) →
      ∃ out : List Int, out.length = codes.length ∧
        Enigma.encryptLoop codes e acc
          = some (acc ++ out.map alphaIDmapAt, e.advance codes.length) ∧
        ∀ i, i < codes.length →
          ∃ x y, codes[i]? = some x ∧ (e.advance i).substitute x = some y ∧
            out[i]? = some y := by
  intro codes
  induction codes with
  | nil =>
    intro e acc _ _
    exact ⟨[], rfl, by simp [Enigma.encryptLoop, Enigma.advance],
      by intro i hi; simp at hi⟩
  | cons code rest ih =>
    intro e acc hw hr
    obtain ⟨y, hy, -, -⟩ := hw.substitute_pair (hr code (List.mem_cons_self _ _))
    obtain ⟨out, hlen, h1, hnth⟩ :=
      ih { e with ringSet := e.ringSet.EndCycle } (acc ++ [alphaIDmapAt y]) hw.step
        (fun c hc => hr c (List.mem_cons_of_mem _ hc))
    refine ⟨y :: out, by simp [hlen], ?_, ?_⟩
    · simp only [Enigma.encryptLoop, hy, h1, Enigma.advance_succ, List.length_cons,
        List.map_cons, List.append_assoc, List.singleton_append]
    · intro i hi
      cases i with
      | zero => exact ⟨code, y, by simp, hy, by simp⟩
      | succ i =>
        obtain ⟨x, y', hx, hs, ho⟩ := hnth i (by simpa using hi)
        rw [Enigma.advance_succ] at hs
        exact ⟨x, y', by simpa using hx, hs, by simpa using ho⟩

/-- The substitution of the loop body, stage by stage: where it is defined, each of the five
calls is defined and feeds the next. -/
theorem Enigma.substitute_stages {e : Enigma} {code y : Int}
    (h : e.substitute code = some y) :
    ∃ s1 s2 s3 s4, e.plugboard.GoingEncipher code = some s1 ∧
      e.ringSet.GoingEncipher s1 = some s2 ∧ e.reflector.Reflect s2 = some s3 ∧
      e.ringSet.ReturningEncipher s3 = some s4 ∧ e.plugboard.ReturningEncipher s4 = y := by
  simp only [Enigma.substitute, Option.bind_eq_bind, Option.bind_eq_some, Option.pure_def,
    Option.some.injEq] at h
  obtain ⟨s1, h1, s2, h2, s3, h3, s4, h4, h5⟩ := h
  exact ⟨s1, s2, s3, s4, h1, h2, h3, h4, h5⟩

/-- Claim C17 (`Encryption` is the left-to-right fold of the pipeline, one advance per
symbol).  On every engine `e` reached from the constructor by valid calls and every text:
`Encryption` finishes; for the `i`-th input character `ch`, the five calls
`plugboard.GoingEncipher`, `ringSet.GoingEncipher`, `reflector.Reflect`,
`ringSet.ReturningEncipher`, `plugboard.ReturningEncipher`, taken in this order from the
position of `ch` on the bank of `e` after exactly `i` calls of `EndCycle`, are all defined,
and the `i`-th output character is `AlphaID2Alpha` of the last result; the engine left
behind has the bank of `e` after exactly `n` calls of `EndCycle` and the plugboard and
reflector of `e`; and `Encryption(s ++ t)` is `Encryption(s)` followed by `Encryption(t)` on
the engine left by `s`. -/
theorem encryption_is_fold (shuffle : Nat → List Int → List Int)
    (hshuffle : ∀ seed v, List.Perm (shuffle seed v) v) (fuel : Nat) (hfuel : 26 ≤ fuel)
    (cs : List Call) (hcs : ∀ c ∈ cs, c.Valid) (text s t : List Char) :
    ∃ e cipher after, Enigma.reached shuffle fuel cs = some e ∧
      e.Encryption text = some (cipher, after) ∧
      cipher.length = text.length ∧
      (∀ i, i < text.length →
        ∃ ch s1 s2 s3 s4, text[i]? = some ch ∧
          e.plugboard.GoingEncipher (alphamapAt ch) = some s1 ∧
          (RingSet.EndCycle^[i] e.ringSet).GoingEncipher s1 = some s2 ∧
          e.reflector.Reflect s2 = some s3 ∧
          (RingSet.EndCycle^[i] e.ringSet).ReturningEncipher s3 = some s4 ∧
          cipher[i]? = some (alphaIDmapAt (e.plugboard.ReturningEncipher s4)) ∧
          (e.advance i).substitute (alphamapAt ch)
            = some (e.plugboard.ReturningEncipher s4)) ∧
      after.ringSet = RingSet.EndCycle^[text.length] e.ringSet ∧
      after.plugboard = e.plugboard ∧
      after.reflector = e.reflector ∧
      after = e.advance text.length ∧
      e.Encryption (s ++ t)
        = (e.Encryption s).bind fun r1 =>
            (r1.2.Encryption t).map fun r2 => (r1.1 ++ r2.1, r2.2) := by
  obtain ⟨e, he, hw⟩ := Enigma.reached_wired shuffle hshuffle hfuel cs hcs
  obtain ⟨out, hlen, henc, hnth⟩ :=
    hw.encryptLoop_nth (text.map alphamapAt) e []
      (by
        intro c hc
        obtain ⟨ch, -, rfl⟩ := List.mem_map.mp hc
        exact alphamapAt_inRange ch)
  simp only [List.length_map, List.nil_append] at hlen henc hnth
  refine ⟨e, out.map alphaIDmapAt, e.advance text.length, he, henc, by simp [hlen], ?_,
    rfl, rfl, rfl, rfl, Enigma.Encryption_append e s t⟩
  intro i hi
  obtain ⟨x, y, hx, hs, ho⟩ := hnth i hi
  rw [List.getElem?_map] at hx
  cases hch : text[i]? with
  | none => rw [hch] at hx; cases hx
  | some ch =>
    rw [hch] at hx
    simp only [Option.map_some', Option.some.injEq] at hx
    subst hx
    obtain ⟨s1, s2, s3, s4, g1, g2, g3, g4, g5⟩ := Enigma.substitute_stages hs
    have g5' : e.plugboard.ReturningEncipher s4 = y := g5
    refine ⟨ch, s1, s2, s3, s4, rfl, g1, g2, g3, g4, ?_, ?_⟩
    · rw [g5', List.getElem?_map, ho]; rfl
    · rw [g5']; exact hs

theorem encryption_is_fold_witness :
    (∀ seed v, List.Perm (rotateShuffle seed v) v) ∧ 26 ≤ 26 ∧
    (∀ c ∈ [Call.KeySet [0, 1, 2]], c.Valid) ∧
    ∃ e cipher after, Enigma.reached rotateShuffle 26 [Call.KeySet [0, 1, 2]] = some e ∧
      e.Encryption "HELLO".toList = some (cipher, after) ∧
      cipher.length = "HELLO".toList.length ∧
      (∀ i, i < "HELLO".toList.length →
        ∃ ch s1 s2 s3 s4, "HELLO".toList[i]? = some ch ∧
          e.plugboard.GoingEncipher (alphamapAt ch) = some s1 ∧
          (RingSet.EndCycle^[i] e.ringSet).GoingEncipher s1 = some s2 ∧
          e.reflector.Reflect s2 = some s3 ∧
          (RingSet.EndCycle^[i] e.ringSet).ReturningEncipher s3 = some s4 ∧
          cipher[i]? = some (alphaIDmapAt (e.plugboard.ReturningEncipher s4)) ∧
          (e.advance i).substitute (alphamapAt ch)
            = some (e.plugboard.ReturningEncipher s4)) ∧
      after.ringSet = RingSet.EndCycle^["HELLO".toList.length] e.ringSet ∧
      after.plugboard = e.plugboard ∧
      after.reflector = e.reflector ∧
      after = e.advance "HELLO".toList.length ∧
      e.Encryption ("HEL".toList ++ "LO".toList)
        = (e.Encryption "HEL".toList).bind fun r1 =>
            (r1.2.Encryption "LO".toList).map fun r2 => (r1.1 ++ r2.1, r2.2) :=
  ⟨fun seed v => List.rotate_perm v seed, by decide, by decide,
    encryption_is_fold rotateShuffle (fun seed v => List.rotate_perm v seed) 26 (by decide) _
      (by decide) "HELLO".toList "HEL".toList "LO".toList⟩

/-- Claim C18 (order of the rotor passes).  For every bank and every `x`, `GoingEncipher`
sends `x` through `ring1`, then `ring2`, then `ring3`, and `ReturningEncipher` scans `ring3`,
then `ring2`, then `ring1`; `ring1` is the ring that `EndCycle` turns, on every call. -/
theorem rotor_pass_order (rs : RingSet) (x : Int) :
    rs.GoingEncipher x
      = (rs.ring1.GoingEncipher x).bind
          (fun a => (rs.ring2.GoingEncipher a).bind fun b => rs.ring3.GoingEncipher b) ∧
    rs.ReturningEncipher x
      = (rs.ring3.ReturningEncipher x).bind
          (fun c => (rs.ring2.ReturningEncipher c).bind fun b =>
            rs.ring1.ReturningEncipher b) ∧
    rs.GoingEncipher x
      = (vecAt rs.ring1.rotor x).bind
          (fun a => (vecAt rs.ring2.rotor a).bind (vecAt rs.ring3.rotor)) ∧
    rs.ReturningEncipher x
      = (scanIndex rs.ring3.rotor x).bind
          (fun c => (scanIndex rs.ring2.rotor c).bind (scanIndex rs.ring1.rotor)) ∧
    rs.EndCycle.ring1.rotor = rotateOnce rs.ring1.rotor := by
  refine ⟨rfl, rfl, rfl, rfl, ?_⟩
  obtain ⟨⟨r3⟩, ⟨⟨r2⟩, c2⟩, ⟨⟨r1⟩, c1⟩⟩ := rs
  rw [RingSet.EndCycle_eq]
  split_ifs <;> rfl

/-- Claim C19 (the return pass of the bank inverts its forward pass).  For rotors that are
permutations of `0..25`, turned any number of times, any counter values and every position
`x`: `GoingEncipher x` is some position `y` with `ReturningEncipher y = x`, and
`ReturningEncipher x` is some position `z` with `GoingEncipher z = x`. -/
theorem bank_return_inverts_forward (r1 r2 r3 : List Int) (k1 k2 k3 : Nat) (c1 c2 : Int)
    (h1 : IsPermutation r1) (h2 : IsPermutation r2) (h3 : IsPermutation r3) (x : Int)
    (hx : InRange x) :
    (∃ y, InRange y ∧
      RingSet.GoingEncipher
        ⟨⟨rotateOnce^[k3] r3⟩, ⟨⟨rotateOnce^[k2] r2⟩, c2⟩, ⟨⟨rotateOnce^[k1] r1⟩, c1⟩⟩ x
          = some y ∧
      RingSet.ReturningEncipher
        ⟨⟨rotateOnce^[k3] r3⟩, ⟨⟨rotateOnce^[k2] r2⟩, c2⟩, ⟨⟨rotateOnce^[k1] r1⟩, c1⟩⟩ y
          = some x) ∧
    (∃ z, InRange z ∧
      RingSet.ReturningEncipher
        ⟨⟨rotateOnce^[k3] r3⟩, ⟨⟨rotateOnce^[k2] r2⟩, c2⟩, ⟨⟨rotateOnce^[k1] r1⟩, c1⟩⟩ x
          = some z ∧
      RingSet.GoingEncipher
        ⟨⟨rotateOnce^[k3] r3⟩, ⟨⟨rotateOnce^[k2] r2⟩, c2⟩, ⟨⟨rotateOnce^[k1] r1⟩, c1⟩⟩ z
          = some x) := by
  have hw : RingSet.Wired
      ⟨⟨rotateOnce^[k3] r3⟩, ⟨⟨rotateOnce^[k2] r2⟩, c2⟩, ⟨⟨rotateOnce^[k1] r1⟩, c1⟩⟩ :=
    ⟨h1.rotated_iterate k1, h2.rotated_iterate k2, h3.rotated_iterate k3⟩
  obtain ⟨y, hy, hry, hyx⟩ := hw.going_returning hx
  obtain ⟨z, hz, hrz, hzx⟩ := hw.returning_going hx
  exact ⟨⟨y, hry, hy, hyx⟩, ⟨z, hrz, hz, hzx⟩⟩

theorem bank_return_inverts_forward_witness :
    IsPermutation (identityWiring.rotate 10) ∧ IsPermutation (identityWiring.rotate 20) ∧
    IsPermutation identityWiring.reverse ∧ InRange 7 ∧
    ((∃ y, InRange y ∧
      RingSet.GoingEncipher
        ⟨⟨rotateOnce^[5] identityWiring.reverse⟩,
          ⟨⟨rotateOnce^[4] (identityWiring.rotate 20)⟩, 2⟩,
          ⟨⟨rotateOnce^[3] (identityWiring.rotate 10)⟩, 1⟩⟩ 7 = some y ∧
      RingSet.ReturningEncipher
        ⟨⟨rotateOnce^[5] identityWiring.reverse⟩,
          ⟨⟨rotateOnce^[4] (identityWiring.rotate 20)⟩, 2⟩,
          ⟨⟨rotateOnce^[3] (identityWiring.rotate 10)⟩, 1⟩⟩ y = some 7) ∧
    (∃ z, InRange z ∧
      RingSet.ReturningEncipher
        ⟨⟨rotateOnce^[5] identityWiring.reverse⟩,
          ⟨⟨rotateOnce^[4] (identityWiring.rotate 20)⟩, 2⟩,
          ⟨⟨rotateOnce^[3] (identityWiring.rotate 10)⟩, 1⟩⟩ 7 = some z ∧
      RingSet.GoingEncipher
        ⟨⟨rotateOnce^[5] identityWiring.reverse⟩,
          ⟨⟨rotateOnce^[4] (identityWiring.rotate 20)⟩, 2⟩,
          ⟨⟨rotateOnce^[3] (identityWiring.rotate 10)⟩, 1⟩⟩ z = some 7)) :=
  ⟨by decide, by decide, by decide, by decide,
    bank_return_inverts_forward (identityWiring.rotate 10) (identityWiring.rotate 20)
      identityWiring.reverse 3 4 5 1 2 (by decide) (by decide) (by decide) 7 (by decide)⟩

theorem RingSet.isOdometerAt_iterate (w1 w2 w3 : List Int) (n : Nat) :
    RingSet.IsOdometerAt (RingSet.EndCycle^[n] ⟨⟨w3⟩, ⟨⟨w2⟩, 0⟩, ⟨⟨w1⟩, 0⟩⟩)
      ⟨⟨w3⟩, ⟨⟨w2⟩, 0⟩, ⟨⟨w1⟩, 0⟩⟩ n := by
  rw [RingSet.EndCycle_iterate_zero]
  refine ⟨rfl, rfl, rfl, rfl, rfl, ?_, ?_, ?_, ?_⟩ <;> simp only <;> omega

theorem RingSet.carriedAtMostOnce_endCycle (rs : RingSet) :
    RingSet.CarriedAtMostOnce rs.EndCycle rs := by
  obtain ⟨⟨r3⟩, ⟨⟨r2⟩, c2⟩, ⟨⟨r1⟩, c1⟩⟩ := rs
  rw [RingSet.EndCycle_eq]
  unfold RingSet.CarriedAtMostOnce
  split_ifs
  · exact ⟨Or.inr rfl, Or.inr rfl⟩
  · exact ⟨Or.inr rfl, Or.inl rfl⟩
  · exact ⟨Or.inl rfl, Or.inl rfl⟩

/-- Claim C20 (odometer closed form and counter range).  On a freshly constructed `RingSet`,
as constructed or after `KeySet`, after `n` calls of `EndCycle`: `ring1` has been turned `n`
times, `ring2` `n / 26` times, `ring3` `n / 676` times, the counter of `ring1` is `n % 26`,
the counter of `ring2` is `n / 26 % 26`, both counters lie in `0..25`, and the next call of
`EndCycle` turns `ring2` at most once and `ring3` at most once. -/
theorem odometer_closed_form (shuffle : Nat → List Int → List Int)
    (hshuffle : ∀ seed v, List.Perm (shuffle seed v) v) (fuel : Nat) (hfuel : 26 ≤ fuel)
    (k0 k1 k2 : Int) (h0 : InRange k0) (h1 : InRange k1) (h2 : InRange k2) (n : Nat) :
    RingSet.IsOdometerAt (RingSet.EndCycle^[n] (RingSet.new shuffle)) (RingSet.new shuffle) n ∧
    RingSet.CarriedAtMostOnce (RingSet.EndCycle^[n + 1] (RingSet.new shuffle))
      (RingSet.EndCycle^[n] (RingSet.new shuffle)) ∧
    ∃ rs, (RingSet.new shuffle).KeySet fuel [k0, k1, k2] = some rs ∧
      RingSet.IsOdometerAt (RingSet.EndCycle^[n] rs) rs n ∧
      RingSet.CarriedAtMostOnce (RingSet.EndCycle^[n + 1] rs) (RingSet.EndCycle^[n] rs) := by
  obtain ⟨w1, w2, w3, hkey, -⟩ := RingSet.new_keySet shuffle hshuffle hfuel h0 h1 h2
  refine ⟨RingSet.isOdometerAt_iterate _ _ _ n, ?_, _, hkey,
    RingSet.isOdometerAt_iterate _ _ _ n, ?_⟩
  · rw [Function.iterate_succ_apply']
    exact RingSet.carriedAtMostOnce_endCycle _
  · rw [Function.iterate_succ_apply']
    exact RingSet.carriedAtMostOnce_endCycle _

theorem odometer_closed_form_witness :
    (∀ seed v, List.Perm (rotateShuffle seed v) v) ∧ 26 ≤ 26 ∧ InRange 0 ∧ InRange 1 ∧
    InRange 2 ∧
    (RingSet.IsOdometerAt (RingSet.EndCycle^[700] (RingSet.new rotateShuffle))
      (RingSet.new rotateShuffle) 700 ∧
    RingSet.CarriedAtMostOnce (RingSet.EndCycle^[700 + 1] (RingSet.new rotateShuffle))
      (RingSet.EndCycle^[700] (RingSet.new rotateShuffle)) ∧
    ∃ rs, (RingSet.new rotateShuffle).KeySet 26 [0, 1, 2] = some rs ∧
      RingSet.IsOdometerAt (RingSet.EndCycle^[700] rs) rs 700 ∧
      RingSet.CarriedAtMostOnce (RingSet.EndCycle^[700 + 1] rs) (RingSet.EndCycle^[700] rs)) :=
  ⟨fun seed v => List.rotate_perm v seed, by decide, by decide, by decide, by decide,
    odometer_closed_form rotateShuffle (fun seed v => List.rotate_perm v seed) 26 (by decide)
      0 1 2 (by decide) (by decide) (by decide) 700⟩

theorem LatchingScrambler.ChangeKey_rotor {ν : Type} (s : LatchingScrambler) (next : ν)
    (nextChangeKey : ν → ν) :
    (s.ChangeKey next nextChangeKey).1.rotor = rotateOnce s.rotor := by
  unfold LatchingScrambler.ChangeKey LatchingScrambler.AddCnt
  simp only
  split_ifs <;> rfl

theorem Scrambler.ChangeKey_iterate (k : Nat) (R : List Int) :
    Scrambler.ChangeKey^[k] ⟨R⟩ = ⟨rotateOnce^[k] R⟩ := by
  induction k with
  | zero => rfl
  | succ k ih =>
    rw [Function.iterate_succ_apply', Function.iterate_succ_apply', ih]
    rfl

/-- After `k` rotations of a vector of 26 entries, position `x` holds what position
`(x - k) mod 26` held before. -/
theorem vecAt_rotateOnce_iterate {R : List Int} (hlen : R.length = 26) (k : Nat) {x : Int}
    (hx : InRange x) :
    vecAt (rotateOnce^[k] R) x = vecAt R ((x - (k : Int)) % 26) := by
  obtain ⟨h0, h1⟩ := hx
  have hm0 : 0 ≤ (x - (k : Int)) % 26 := Int.emod_nonneg _ (by norm_num)
  rw [rotateOnce_iterate, hlen]
  unfold vecAt
  simp only [h0, hm0, if_true]
  rw [List.getElem?_rotate (by omega), hlen]
  congr 1
  omega

theorem rotateOnce_iterate_26_of_length {R : List Int} (hlen : R.length = 26) :
    rotateOnce^[26] R = R := by
  rw [rotateOnce_iterate, hlen]
  have h : (26 * (26 - 1)) % R.length = 0 := by rw [hlen]
  rw [← List.rotate_mod, h, List.rotate_zero]

/-- Claim C21 (one rotation is a right cyclic shift).  For every rotor vector `R` of 26
entries: after `Scrambler::ChangeKey`, and after `LatchingScrambler::ChangeKey` whatever its
counter and next ring, the new vector holds `R[25]` at index 0 and `R[i]` at index `i + 1`
for `i < 25`; after `k` calls of `ChangeKey`, `GoingEncipher(x)` returns
`R[(x - k) mod 26]`; and 26 calls restore `R` exactly. -/
theorem rotation_is_right_shift (R : List Int) (hlen : R.length = 26) (cnt : Int)
    (next : Scrambler) (k : Nat) (x : Int) (hx : InRange x) :
    IsRightShiftOf (Scrambler.ChangeKey ⟨R⟩).rotor R ∧
    IsRightShiftOf
      (LatchingScrambler.ChangeKey ⟨⟨R⟩, cnt⟩ next Scrambler.ChangeKey).1.rotor R ∧
    (Scrambler.ChangeKey^[k] ⟨R⟩).GoingEncipher x = vecAt R ((x - (k : Int)) % 26) ∧
    (∃ y, vecAt R ((x - (k : Int)) % 26) = some y) ∧
    Scrambler.ChangeKey^[26] ⟨R⟩ = ⟨R⟩ := by
  refine ⟨rotateOnce_isRightShiftOf hlen, ?_, ?_, ?_, ?_⟩
  · rw [LatchingScrambler.ChangeKey_rotor]
    exact rotateOnce_isRightShiftOf hlen
  · rw [Scrambler.ChangeKey_iterate]
    exact vecAt_rotateOnce_iterate hlen k hx
  · have hm0 : 0 ≤ (x - (k : Int)) % 26 := Int.emod_nonneg _ (by norm_num)
    have hm1 : (x - (k : Int)) % 26 < 26 := Int.emod_lt_of_pos _ (by norm_num)
    have hi : ((x - (k : Int)) % 26).toNat < R.length := by omega
    exact ⟨R[((x - (k : Int)) % 26).toNat], by
      simp only [vecAt, hm0, if_true, List.getElem?_eq_getElem hi]⟩
  · rw [Scrambler.ChangeKey_iterate, rotateOnce_iterate_26_of_length hlen]

theorem rotation_is_right_shift_witness :
    [3, 3, 0, 7, 1, 5, 9, 2, 6, 5, 3, 5, 8, 9, 7, 9, 3, 2, 3, 8, 4, 6, 2, 6, 4, 3].length = 26 ∧
    InRange 2 ∧
    (IsRightShiftOf
      (Scrambler.ChangeKey
        ⟨[3, 3, 0, 7, 1, 5, 9, 2, 6, 5, 3, 5, 8, 9, 7, 9, 3, 2, 3, 8, 4, 6, 2, 6, 4, 3]⟩).rotor
      [3, 3, 0, 7, 1, 5, 9, 2, 6, 5, 3, 5, 8, 9, 7, 9, 3, 2, 3, 8, 4, 6, 2, 6, 4, 3] ∧
    IsRightShiftOf
      (LatchingScrambler.ChangeKey
        ⟨⟨[3, 3, 0, 7, 1, 5, 9, 2, 6, 5, 3, 5, 8, 9, 7, 9, 3, 2, 3, 8, 4, 6, 2, 6, 4, 3]⟩, 25⟩
        Scrambler.default Scrambler.ChangeKey).1.rotor
      [3, 3, 0, 7, 1, 5, 9, 2, 6, 5, 3, 5, 8, 9, 7, 9, 3, 2, 3, 8, 4, 6, 2, 6, 4, 3] ∧
    (Scrambler.ChangeKey^[30]
        ⟨[3, 3, 0, 7, 1, 5, 9, 2, 6, 5, 3, 5, 8, 9, 7, 9, 3, 2, 3, 8, 4, 6, 2, 6, 4, 3]⟩
      ).GoingEncipher 2
      = vecAt [3, 3, 0, 7, 1, 5, 9, 2, 6, 5, 3, 5, 8, 9, 7, 9, 3, 2, 3, 8, 4, 6, 2, 6, 4, 3]
          ((2 - ((30 : Nat) : Int)) % 26) ∧
    (∃ y, vecAt [3, 3, 0, 7, 1, 5, 9, 2, 6, 5, 3, 5, 8, 9, 7, 9, 3, 2, 3, 8, 4, 6, 2, 6, 4, 3]
      ((2 - ((30 : Nat) : Int)) % 26) = some y) ∧
    Scrambler.ChangeKey^[26]
        ⟨[3, 3, 0, 7, 1, 5, 9, 2, 6, 5, 3, 5, 8, 9, 7, 9, 3, 2, 3, 8, 4, 6, 2, 6, 4, 3]⟩
      = ⟨[3, 3, 0, 7, 1, 5, 9, 2, 6, 5, 3, 5, 8, 9, 7, 9, 3, 2, 3, 8, 4, 6, 2, 6, 4, 3]⟩) :=
  ⟨by decide, by decide,
    rotation_is_right_shift
      [3, 3, 0, 7, 1, 5, 9, 2, 6, 5, 3, 5, 8, 9, 7, 9, 3, 2, 3, 8, 4, 6, 2, 6, 4, 3]
      (by decide) 25 Scrambler.default 30 2 (by decide)⟩

theorem IsFixedPointFree.moves {v : List Int} (h : IsFixedPointFree v) {x : Int}
    (hx : InRange x) : ∃ y, vecAt v x = some y ∧ InRange y ∧ y ≠ x := by
  obtain ⟨hlen, hrange, hfix⟩ := h
  obtain ⟨h0, h1⟩ := hx
  have hi : x.toNat < v.length := by omega
  have e : Int.ofNat x.toNat = x := by simp only [Int.ofNat_eq_coe]; omega
  have hv : vecAt v x = some v[x.toNat] := by
    simp [vecAt, h0, List.getElem?_eq_getElem hi]
  refine ⟨v[x.toNat], hv, hrange _ (List.getElem_mem hi), ?_⟩
  intro heq
  have := hfix x.toNat (by omega)
  rw [e, hv, heq] at this
  exact this rfl

/-- At a fixed alignment the substitution of an engine whose reflector has no fixed point is
defined on every position and moves it. -/
theorem Enigma.Deranging.substitute_ne {e : Enigma} (h : e.Deranging) {x : Int}
    (hx : InRange x) : ∃ y, e.substitute x = some y ∧ InRange y ∧ y ≠ x := by
  obtain ⟨hp, hr, hf⟩ := h
  obtain ⟨a, ha, hra, -⟩ := hp.vecAt_scan hx
  obtain ⟨b, hb, hrb, -⟩ := hr.going_returning hra
  obtain ⟨c, hc, hrc, hcb⟩ := hf.moves hrb
  obtain ⟨d, hd, hrd, hdc⟩ := hr.returning_going hrc
  obtain ⟨y, hy, hry, hyd⟩ := hp.scan_vecAt hrd
  refine ⟨y, ?_, hry, ?_⟩
  · simp [Enigma.substitute, Plugboard.GoingEncipher, Plugboard.ReturningEncipher,
      Reflector.Reflect, ha, hb, hc, hd, hy]
  · intro hyx
    rw [hyx, ha] at hyd
    have had : a = d := Option.some.inj hyd
    rw [← had, hb] at hdc
    exact hcb (Option.some.inj hdc).symm

theorem Enigma.Deranging.after_endCycle {e : Enigma} (h : e.Deranging) :
    Enigma.Deranging { e with ringSet := e.ringSet.EndCycle } :=
  ⟨h.1, h.2.1.endCycle, h.2.2⟩

/-- The loop of `Encryption` on an engine whose reflector has no fixed point: it finishes and
every output position differs from the input position at the same index. -/
theorem Enigma.Deranging.encryptLoop_ne :
    ∀ (codes : List Int) (e : Enigma) (acc : List Char), e.Deranging →
      (∀ c ∈ codes, InRange c) →
      ∃ out : List Int, out.length = codes.length ∧
        Enigma.encryptLoop codes e acc
          = some (acc ++ out.map alphaIDmapAt, e.advance codes.length) ∧
        ∀ (i : Nat) (x : Int), codes[i]? = some x → ∃ y, out[i]? = some y ∧ InRange y ∧ y ≠ x := by
  intro codes
  induction codes with
  | nil =>
    intro e acc _ _
    exact ⟨[], rfl, by simp [Enigma.encryptLoop, Enigma.advance],
      by intro i x hi; simp at hi⟩
  | cons code rest ih =>
    intro e acc hw hr
    obtain ⟨y, hy, hry, hne⟩ := hw.substitute_ne (hr code (List.mem_cons_self _ _))
    obtain ⟨out, hlen, h1, hnth⟩ :=
      ih { e with ringSet := e.ringSet.EndCycle } (acc ++ [alphaIDmapAt y]) hw.after_endCycle
        (fun c hc => hr c (List.mem_cons_of_mem _ hc))
    refine ⟨y :: out, by simp [hlen], ?_, ?_⟩
    · simp only [Enigma.encryptLoop, hy, h1, Enigma.advance_succ, List.length_cons,
        List.map_cons, List.append_assoc, List.singleton_append]
    · intro i x hi
      cases i with
      | zero =>
        simp only [List.getElem?_cons_zero, Option.some.injEq] at hi
        subst hi
        exact ⟨y, by simp, hry, hne⟩
      | succ i =>
        simp only [List.getElem?_cons_succ] at hi
        obtain ⟨y', ho, hr', hn'⟩ := hnth i x hi
        exact ⟨y', by simpa using ho, hr', hn'⟩

/-- `Encryption` on an engine whose reflector has no fixed point: it finishes, and no output
character equals the input character at the same index. -/
theorem Enigma.Deranging.encryption_ne {e : Enigma} (h : e.Deranging) (text : List Char) :
    ∃ cipher e', e.Encryption text = some (cipher, e') ∧ cipher.length = text.length ∧
      ∀ (i : Nat) (ch : Char), text[i]? = some ch → ∃ ch', cipher[i]? = some ch' ∧ ch' ≠ ch := by
  obtain ⟨out, hlen, henc, hnth⟩ :=
    h.encryptLoop_ne (text.map alphamapAt) e []
      (by
        intro c hc
        obtain ⟨ch, -, rfl⟩ := List.mem_map.mp hc
        exact alphamapAt_inRange ch)
  simp only [List.length_map, List.nil_append] at hlen henc
  refine ⟨out.map alphaIDmapAt, _, henc, by simp [hlen], ?_⟩
  intro i ch hch
  obtain ⟨y, hy, hry, hne⟩ := hnth i (alphamapAt ch) (by rw [List.getElem?_map, hch]; rfl)
  refine ⟨alphaIDmapAt y, by rw [List.getElem?_map, hy]; rfl, ?_⟩
  intro heq
  have := (alphamapAt_alphaIDmapAt hry).1
  rw [heq] at this
  exact hne this.symm

/-- Claim C22 (no letter enciphers to itself).  For a plugboard and rotors that are
permutations of `0..25`, a reflector that wires positions to positions without fixed point,
any number of rotations of the rotors, any counter values and every position `x`, the
per-symbol substitution of `Enigma::Encryption` is defined at `x` and differs from `x`; and
for every text `Encryption` finishes and each character of its output differs from the input
character at the same index. -/
theorem no_letter_enciphers_to_itself (p r1 r2 r3 refl : List Int) (k1 k2 k3 : Nat)
    (c1 c2 : Int) (hp : IsPermutation p) (h1 : IsPermutation r1) (h2 : IsPermutation r2)
    (h3 : IsPermutation r3) (hrefl : IsFixedPointFree refl) (x : Int) (hx : InRange x)
    (text : List Char) :
    (∃ y, InRange y ∧ y ≠ x ∧
      Enigma.substitute
        { plugboard := ⟨p⟩
          ringSet :=
            { ring3 := ⟨rotateOnce^[k3] r3⟩
              ring2 := { rotor := rotateOnce^[k2] r2, cnt := c2 }
              ring1 := { rotor := rotateOnce^[k1] r1, cnt := c1 } }
          reflector := ⟨refl⟩ } x = some y) ∧
    ∃ cipher after,
      Enigma.Encryption
        { plugboard := ⟨p⟩
          ringSet :=
            { ring3 := ⟨rotateOnce^[k3] r3⟩
              ring2 := { rotor := rotateOnce^[k2] r2, cnt := c2 }
              ring1 := { rotor := rotateOnce^[k1] r1, cnt := c1 } }
          reflector := ⟨refl⟩ } text = some (cipher, after) ∧
      cipher.length = text.length ∧
      ∀ (i : Nat) (ch : Char), text[i]? = some ch →
        ∃ ch', cipher[i]? = some ch' ∧ ch' ≠ ch := by
  have hd : Enigma.Deranging
      { plugboard := ⟨p⟩
        ringSet :=
          { ring3 := ⟨rotateOnce^[k3] r3⟩
            ring2 := { rotor := rotateOnce^[k2] r2, cnt := c2 }
            ring1 := { rotor := rotateOnce^[k1] r1, cnt := c1 } }
        reflector := ⟨refl⟩ } :=
    ⟨hp, ⟨h1.rotated_iterate k1, h2.rotated_iterate k2, h3.rotated_iterate k3⟩, hrefl⟩
  obtain ⟨y, hy, hry, hne⟩ := hd.substitute_ne hx
  exact ⟨⟨y, hry, hne, hy⟩, hd.encryption_ne text⟩

theorem no_letter_enciphers_to_itself_witness :
    IsPermutation (identityWiring.rotate 22) ∧ IsPermutation (identityWiring.rotate 10) ∧
    IsPermutation (identityWiring.rotate 20) ∧ IsPermutation identityWiring.reverse ∧
    IsFixedPointFree (identityWiring.rotate 5) ∧ InRange 7 ∧
    ((∃ y, InRange y ∧ y ≠ 7 ∧
      Enigma.substitute
        { plugboard := ⟨identityWiring.rotate 22⟩
          ringSet :=
            { ring3 := ⟨rotateOnce^[5] identityWiring.reverse⟩
              ring2 := { rotor := rotateOnce^[4] (identityWiring.rotate 20), cnt := 2 }
              ring1 := { rotor := rotateOnce^[3] (identityWiring.rotate 10), cnt := 1 } }
          reflector := ⟨identityWiring.rotate 5⟩ } 7 = some y) ∧
    ∃ cipher after,
      Enigma.Encryption
        { plugboard := ⟨identityWiring.rotate 22⟩
          ringSet :=
            { ring3 := ⟨rotateOnce^[5] identityWiring.reverse⟩
              ring2 := { rotor := rotateOnce^[4] (identityWiring.rotate 20), cnt := 2 }
              ring1 := { rotor := rotateOnce^[3] (identityWiring.rotate 10), cnt := 1 } }
          reflector := ⟨identityWiring.rotate 5⟩ } "HELLOWORLD".toList
        = some (cipher, after) ∧
      cipher.length = "HELLOWORLD".toList.length ∧
      ∀ (i : Nat) (ch : Char), "HELLOWORLD".toList[i]? = some ch →
        ∃ ch', cipher[i]? = some ch' ∧ ch' ≠ ch) :=
  ⟨by decide, by decide, by decide, by decide, by decide, by decide,
    no_letter_enciphers_to_itself (identityWiring.rotate 22) (identityWiring.rotate 10)
      (identityWiring.rotate 20) identityWiring.reverse (identityWiring.rotate 5) 3 4 5 1 2
      (by decide) (by decide) (by decide) (by decide) (by decide) 7 (by decide)
      "HELLOWORLD".toList⟩

/-- A sequence of valid calls on a bank whose rings are rotations of three permutations
finishes and leaves rings that are rotations of the same permutations. -/
theorem RingSet.calls_turned {fuel : Nat} (hfuel : 26 ≤ fuel) {w1 w2 w3 : List Int}
    (p1 : IsPermutation w1) (p2 : IsPermutation w2) (p3 : IsPermutation w3) :
    ∀ (cs : List BankCall) (a b c : Nat) (c1 c2 : Int), (∀ call ∈ cs, call.Valid) →
      ∃ a' b' c' c1' c2',
        RingSet.calls fuel
          ⟨⟨rotateOnce^[c] w3⟩, ⟨⟨rotateOnce^[b] w2⟩, c2⟩, ⟨⟨rotateOnce^[a] w1⟩, c1⟩⟩ cs
          = some ⟨⟨rotateOnce^[c'] w3⟩, ⟨⟨rotateOnce^[b'] w2⟩, c2'⟩,
              ⟨⟨rotateOnce^[a'] w1⟩, c1'⟩⟩ := by
  intro cs
  induction cs with
  | nil => intro a b c c1 c2 _; exact ⟨a, b, c, c1, c2, rfl⟩
  | cons call cs ih =>
    intro a b c c1 c2 hv
    have hcv := hv call (List.mem_cons_self _ _)
    have hrest : ∀ call' ∈ cs, call'.Valid :=
      fun call' hc' => hv call' (List.mem_cons_of_mem _ hc')
    unfold RingSet.calls
    rw [List.foldlM_cons]
    cases call with
    | KeySet k0 k1 k2 =>
      obtain ⟨hk0, hk1, hk2⟩ : InRange k0 ∧ InRange k1 ∧ InRange k2 := hcv
      have hw : RingSet.Wired
          ⟨⟨rotateOnce^[c] w3⟩, ⟨⟨rotateOnce^[b] w2⟩, c2⟩, ⟨⟨rotateOnce^[a] w1⟩, c1⟩⟩ :=
        ⟨p1.rotated_iterate a, p2.rotated_iterate b, p3.rotated_iterate c⟩
      obtain ⟨a1, b1, d1, -, -, -, hset, -, -, -⟩ := hw.keySet hk0 hk1 hk2 [] hfuel
      simp only [RingSet.call, hset, ← Function.iterate_add_apply]
      exact ih (a1 + a) (b1 + b) (d1 + c) c1 c2 hrest
    | EndCycle =>
      simp only [RingSet.call, RingSet.EndCycle_eq, ← Function.iterate_succ_apply']
      split_ifs
      · exact ih (a + 1) (b + 1) (c + 1) 0 0 hrest
      · exact ih (a + 1) (b + 1) c 0 (c2 + 1) hrest
      · exact ih (a + 1) b c (c1 + 1) c2 hrest

/-- Claim C23 (re-keying restores the alignment but not the counters).  For every bank
reached from a fresh `RingSet` by valid `KeySet` and `EndCycle` calls and every key of three
positions, `RingSet::KeySet` finishes; afterwards the three rotor vectors are those of a
freshly constructed `RingSet` after the same `KeySet`, with the keys at the front, and the
counters of `ring1` and `ring2` hold the values they had before the call. -/
theorem rekey_restores_alignment_not_counters (shuffle : Nat → List Int → List Int)
    (hshuffle : ∀ seed v, List.Perm (shuffle seed v) v) (fuel : Nat) (hfuel : 26 ≤ fuel)
    (cs : List BankCall) (hcs : ∀ call ∈ cs, call.Valid) (k0 k1 k2 : Int) (h0 : InRange k0)
    (h1 : InRange k1) (h2 : InRange k2) :
    ∃ rs rekeyed fresh,
      (RingSet.new shuffle).calls fuel cs = some rs ∧
      rs.KeySet fuel [k0, k1, k2] = some rekeyed ∧
      (RingSet.new shuffle).KeySet fuel [k0, k1, k2] = some fresh ∧
      rekeyed.wirings = fresh.wirings ∧
      vecAt rekeyed.ring1.rotor 0 = some k0 ∧ vecAt rekeyed.ring2.rotor 0 = some k1 ∧
      vecAt rekeyed.ring3.rotor 0 = some k2 ∧
      rekeyed.ring1.cnt = rs.ring1.cnt ∧ rekeyed.ring2.cnt = rs.ring2.cnt := by
  have p1 : IsPermutation (shuffle 10 identityWiring) := hshuffle _ _
  have p2 : IsPermutation (shuffle 20 identityWiring) := hshuffle _ _
  have p3 : IsPermutation (shuffle 30 identityWiring) := hshuffle _ _
  obtain ⟨a, b, c, c1, c2, hreach⟩ :=
    RingSet.calls_turned hfuel p1 p2 p3 cs 0 0 0 0 0 hcs
  have hw : RingSet.Wired
      ⟨⟨rotateOnce^[c] (shuffle 30 identityWiring)⟩,
        ⟨⟨rotateOnce^[b] (shuffle 20 identityWiring)⟩, c2⟩,
        ⟨⟨rotateOnce^[a] (shuffle 10 identityWiring)⟩, c1⟩⟩ :=
    ⟨p1.rotated_iterate a, p2.rotated_iterate b, p3.rotated_iterate c⟩
  obtain ⟨a1, b1, d1, -, -, -, hset, hf1, hf2, hf3⟩ := hw.keySet h0 h1 h2 [] hfuel
  have hw0 : RingSet.Wired
      ⟨⟨shuffle 30 identityWiring⟩, ⟨⟨shuffle 20 identityWiring⟩, 0⟩,
        ⟨⟨shuffle 10 identityWiring⟩, 0⟩⟩ := ⟨p1, p2, p3⟩
  obtain ⟨a0, b0, d0, -, -, -, hset0, hg1, hg2, hg3⟩ := hw0.keySet h0 h1 h2 [] hfuel
  rw [← Function.iterate_add_apply] at hf1 hf2 hf3
  have e1 := p1.aligned_unique hf1 hg1
  have e2 := p2.aligned_unique hf2 hg2
  have e3 := p3.aligned_unique hf3 hg3
  refine ⟨_, _, _, hreach, hset, hset0, ?_, ?_, ?_, ?_, rfl, rfl⟩
  · simp only [RingSet.wirings, ← Function.iterate_add_apply, e1, e2, e3]
  · simp only [← Function.iterate_add_apply]; exact hf1
  · simp only [← Function.iterate_add_apply]; exact hf2
  · simp only [← Function.iterate_add_apply]; exact hf3

theorem rekey_restores_alignment_not_counters_witness :
    (∀ seed v, List.Perm (rotateShuffle seed v) v) ∧ 26 ≤ 26 ∧
    (∀ call ∈ [BankCall.KeySet 3 4 5, BankCall.EndCycle, BankCall.EndCycle], call.Valid) ∧
    InRange 0 ∧ InRange 1 ∧ InRange 2 ∧
    ∃ rs rekeyed fresh,
      (RingSet.new rotateShuffle).calls 26
        [BankCall.KeySet 3 4 5, BankCall.EndCycle, BankCall.EndCycle] = some rs ∧
      rs.KeySet 26 [0, 1, 2] = some rekeyed ∧
      (RingSet.new rotateShuffle).KeySet 26 [0, 1, 2] = some fresh ∧
      rekeyed.wirings = fresh.wirings ∧
      vecAt rekeyed.ring1.rotor 0 = some 0 ∧ vecAt rekeyed.ring2.rotor 0 = some 1 ∧
      vecAt rekeyed.ring3.rotor 0 = some 2 ∧
      rekeyed.ring1.cnt = rs.ring1.cnt ∧ rekeyed.ring2.cnt = rs.ring2.cnt :=
  ⟨fun seed v => List.rotate_perm v seed, by decide, by decide, by decide, by decide,
    by decide,
    rekey_restores_alignment_not_counters rotateShuffle
      (fun seed v => List.rotate_perm v seed) 26 (by decide) _ (by decide) 0 1 2 (by decide)
      (by decide) (by decide)⟩

/-! ### Re-keying after a pass: the lengths for which the carries fall at the same symbols -/

/-- A pass of `n` symbols from zero counters leaves the counters `n % 26` and `n / 26 % 26`.
For a length up to 13, a multiple of 26 up to `26 * 13` or a multiple of 676, a second pass
from these counters turns `ring2` and `ring3` as often before each symbol as the first. -/
theorem rekey_same_carries {n : Nat}
    (h : n ≤ 13 ∨ (n % 26 = 0 ∧ n / 26 ≤ 13) ∨ n % 676 = 0) {i : Nat} (hi : i < n) :
    (n % 26 + i) / 26 = i / 26 ∧ (n / 26 % 26 + (n % 26 + i) / 26) / 26 = i / 676 := by
  omega

/-- For every other length some symbol of the second pass meets `ring2` or `ring3` turned
once more than in the first pass, and neither is turned less there. -/
theorem rekey_shifted_carry {n : Nat}
    (h : ¬ (n ≤ 13 ∨ (n % 26 = 0 ∧ n / 26 ≤ 13) ∨ n % 676 = 0)) :
    ∃ i, i < n ∧
      (((n % 26 + i) / 26 = i / 26 + 1 ∧
          ((n / 26 % 26 + (n % 26 + i) / 26) / 26 = i / 676 ∨
           (n / 26 % 26 + (n % 26 + i) / 26) / 26 = i / 676 + 1)) ∨
       ((n % 26 + i) / 26 = i / 26 ∧
          (n / 26 % 26 + (n % 26 + i) / 26) / 26 = i / 676 + 1)) := by
  by_cases h1 : n % 26 = 0
  · refine ⟨26 * (26 - n / 26 % 26), ?_, ?_⟩ <;> omega
  · refine ⟨26 - n % 26, ?_, ?_⟩ <;> omega

/-- After a pass of `n` symbols from a keyed engine with zero counters, `KeySet` with the
same key brings back the three keyed vectors and leaves the counters `n % 26` and
`n / 26 % 26` of the pass. -/
theorem Enigma.rekey_after_pass {p : Plugboard} {refl : Reflector} {w1 w2 w3 : List Int}
    {k0 k1 k2 : Int} {K : List Char} {fuel : Nat} (hfuel : 26 ≤ fuel)
    (hkeys : K.map alphamapAt = [k0, k1, k2])
    (hw : Enigma.Wired ⟨p, ⟨⟨w3⟩, ⟨⟨w2⟩, 0⟩, ⟨⟨w1⟩, 0⟩⟩, refl⟩)
    (hf1 : vecAt w1 0 = some k0) (hf2 : vecAt w2 0 = some k1) (hf3 : vecAt w3 0 = some k2)
    (n : Nat) :
    Enigma.KeySet fuel (Enigma.advance ⟨p, ⟨⟨w3⟩, ⟨⟨w2⟩, 0⟩, ⟨⟨w1⟩, 0⟩⟩, refl⟩ n) K
      = some ⟨p, ⟨⟨w3⟩, ⟨⟨w2⟩, ((n / 26 % 26 : Nat) : Int)⟩,
          ⟨⟨w1⟩, ((n % 26 : Nat) : Int)⟩⟩, refl⟩ := by
  have s1 := hw.2.1.1.setLoop_restore hf1 n hfuel
  have s2 := hw.2.1.2.1.setLoop_restore hf2 (n / 26) hfuel
  have s3 := hw.2.1.2.2.setLoop_restore hf3 (n / 676) hfuel
  simp only at s1 s2 s3
  simp [Enigma.advance, RingSet.EndCycle_iterate_zero, Enigma.KeySet, hkeys, RingSet.KeySet,
    LatchingScrambler.Set, Scrambler.Set, s1, s2, s3]

/-- The sequence `KeySet; Encryption; KeySet; Encryption` on an engine that the first
`KeySet` leaves wired with zero counters: the first pass returns a text `c` of letters that
a pass from the keyed engine maps back, and the second pass is a pass over `c` from the
keyed vectors with the counters the first pass left. -/
theorem rekeyRoundTrip_keyed {e0 : Enigma} {p : Plugboard} {refl : Reflector}
    {w1 w2 w3 : List Int} {k0 k1 k2 : Int} {K : List Char} {fuel : Nat} (hfuel : 26 ≤ fuel)
    (hkeys : K.map alphamapAt = [k0, k1, k2])
    (hkey : e0.KeySet fuel K = some ⟨p, ⟨⟨w3⟩, ⟨⟨w2⟩, 0⟩, ⟨⟨w1⟩, 0⟩⟩, refl⟩)
    (hw : Enigma.Wired ⟨p, ⟨⟨w3⟩, ⟨⟨w2⟩, 0⟩, ⟨⟨w1⟩, 0⟩⟩, refl⟩)
    (hf1 : vecAt w1 0 = some k0) (hf2 : vecAt w2 0 = some k1) (hf3 : vecAt w3 0 = some k2)
    {text : List Char} (htext : ∀ ch ∈ text, ch ∈ ALPHA) :
    ∃ c : List Char, c.length = text.length ∧
      Enigma.Encryption ⟨p, ⟨⟨w3⟩, ⟨⟨w2⟩, 0⟩, ⟨⟨w1⟩, 0⟩⟩, refl⟩ text
        = some (c, Enigma.advance ⟨p, ⟨⟨w3⟩, ⟨⟨w2⟩, 0⟩, ⟨⟨w1⟩, 0⟩⟩, refl⟩ text.length) ∧
      Enigma.Encryption ⟨p, ⟨⟨w3⟩, ⟨⟨w2⟩, 0⟩, ⟨⟨w1⟩, 0⟩⟩, refl⟩ c
        = some (text, Enigma.advance ⟨p, ⟨⟨w3⟩, ⟨⟨w2⟩, 0⟩, ⟨⟨w1⟩, 0⟩⟩, refl⟩ text.length) ∧
      rekeyRoundTrip fuel e0 K text
        = (Enigma.Encryption
            ⟨p, ⟨⟨w3⟩, ⟨⟨w2⟩, ((text.length / 26 % 26 : Nat) : Int)⟩,
              ⟨⟨w1⟩, ((text.length % 26 : Nat) : Int)⟩⟩, refl⟩ c).map
            fun r => (c, r.1) := by
  obtain ⟨c, -, hclen, henc, hdec⟩ := hw.encryption_pair htext
  refine ⟨c, hclen, henc, hdec, ?_⟩
  have hrekey := Enigma.rekey_after_pass hfuel hkeys hw hf1 hf2 hf3 text.length
  simp only [rekeyRoundTrip, hkey, Option.some_bind, henc, hrekey]

/-- The wirings met by a pass from counters `a1`, `a2`, symbol by symbol. -/
theorem RingSet.wirings_iterate (w1 w2 w3 : List Int) (a1 a2 : Nat) (h1 : a1 < 26)
    (h2 : a2 < 26) (i : Nat) :
    (RingSet.EndCycle^[i] ⟨⟨w3⟩, ⟨⟨w2⟩, (a2 : Int)⟩, ⟨⟨w1⟩, (a1 : Int)⟩⟩).wirings
      = (rotateOnce^[i] w1, rotateOnce^[(a1 + i) / 26] w2,
          rotateOnce^[(a2 + (a1 + i) / 26) / 26] w3) := by
  rw [RingSet.EndCycle_iterate w1 w2 w3 a1 a2 h1 h2 i]
  rfl

/-- For a length up to 13, a multiple of 26 up to `26 * 13` or a multiple of 676, the second
pass meets the vectors of the first pass at every symbol and returns the text. -/
theorem rekeyRoundTrip_safe (shuffle : Nat → List Int → List Int)
    (hshuffle : ∀ seed v, List.Perm (shuffle seed v) v) {fuel : Nat} (hfuel : 26 ≤ fuel)
    {K text : List Char} (hK : K.length = 3) (htext : ∀ ch ∈ text, ch ∈ ALPHA)
    (hsafe : text.length ≤ 13 ∨ (text.length % 26 = 0 ∧ text.length / 26 ≤ 13) ∨
      text.length % 676 = 0) :
    ∃ c, (Enigma.new shuffle).bind (fun e => rekeyRoundTrip fuel e K text)
      = some (c, text) := by
  obtain ⟨e0, p, w1, w2, w3, refl, k0, k1, k2, hnew, hkeys, hkey, hw, hf1, hf2, hf3⟩ :=
    Enigma.keyed_spec shuffle hshuffle hfuel K hK
  obtain ⟨c, hclen, -, hdec, hrt⟩ := rekeyRoundTrip_keyed hfuel hkeys hkey hw hf1 hf2 hf3 htext
  have hsame : (Enigma.Encryption
      ⟨p, ⟨⟨w3⟩, ⟨⟨w2⟩, ((text.length / 26 % 26 : Nat) : Int)⟩,
        ⟨⟨w1⟩, ((text.length % 26 : Nat) : Int)⟩⟩, refl⟩ c).map Prod.fst = some text := by
    have hc := Enigma.encryptLoop_congr (c.map alphamapAt)
      ⟨p, ⟨⟨w3⟩, ⟨⟨w2⟩, ((text.length / 26 % 26 : Nat) : Int)⟩,
        ⟨⟨w1⟩, ((text.length % 26 : Nat) : Int)⟩⟩, refl⟩
      ⟨p, ⟨⟨w3⟩, ⟨⟨w2⟩, ((0 : Nat) : Int)⟩, ⟨⟨w1⟩, ((0 : Nat) : Int)⟩⟩, refl⟩ [] rfl rfl (by
        intro i hi
        simp only [List.length_map, hclen] at hi
        obtain ⟨e1, e2⟩ := rekey_same_carries hsafe hi
        have e3 : (0 + i) / 26 = i / 26 := by omega
        have e4 : (0 + (0 + i) / 26) / 26 = i / 676 := by omega
        rw [RingSet.wirings_iterate _ _ _ _ _ (Nat.mod_lt _ (by norm_num))
          (Nat.mod_lt _ (by norm_num)), RingSet.wirings_iterate _ _ _ 0 0 (by norm_num)
          (by norm_num), e2, e1, e4, e3])
    unfold Enigma.Encryption at hdec ⊢
    rw [hc]
    simp only [Nat.cast_zero]
    rw [hdec]
    rfl
  obtain ⟨r2, hr2, hr2t⟩ := Option.map_eq_some'.mp hsame
  refine ⟨c, ?_⟩
  rw [hnew, Option.some_bind, hrt, hr2, Option.map_some', hr2t]

/-! ### The engine with identity wirings -/

theorem vecAt_rotated_identity (a : Nat) {x : Int} (hx : InRange x) :
    vecAt (rotateOnce^[a] identityWiring) x = some ((x - (a : Int)) % 26) := by
  rw [vecAt_rotateOnce_iterate identityWiring_length a hx]
  exact vecAt_identityWiring
    ⟨Int.emod_nonneg _ (by norm_num), Int.emod_lt_of_pos _ (by norm_num)⟩

theorem IsPermutation.scan_of_vecAt {v : List Int} (h : IsPermutation v) {j y : Int}
    (hj : vecAt v j = some y) : scanIndex v y = some j := by
  obtain ⟨y', h1, -, h2⟩ := h.vecAt_scan (vecAt_inRange_of_length h.length_eq hj)
  rw [hj] at h1
  cases h1
  exact h2

theorem scanIndex_rotated_identity (a : Nat) {y : Int} (hy : InRange y) :
    scanIndex (rotateOnce^[a] identityWiring) y = some ((y + (a : Int)) % 26) := by
  obtain ⟨h0, h1⟩ := hy
  apply (identityWiring_isPermutation.rotated_iterate a).scan_of_vecAt
  rw [vecAt_rotated_identity a
    ⟨Int.emod_nonneg _ (by norm_num), Int.emod_lt_of_pos _ (by norm_num)⟩]
  congr 1
  omega

theorem vecAt_reverse_identity {x : Int} (hx : InRange x) :
    vecAt identityWiring.reverse x = some (25 - x) := by
  have key : ∀ n : Nat, n < 26 →
      vecAt identityWiring.reverse (Int.ofNat n) = some (25 - Int.ofNat n) := by decide
  obtain ⟨h0, h1⟩ := hx
  have e : Int.ofNat x.toNat = x := by simp only [Int.ofNat_eq_coe]; omega
  have := key x.toNat (by omega)
  rwa [e] at this

/-- The substitution of the engine with identity plugboard, identity rotors turned `a`, `b`,
`c` times and the reflector `x ↦ 25 - x`. -/
theorem substitute_identity_wirings (a b c : Nat) (c1 c2 : Int) {x : Int} (hx : InRange x) :
    Enigma.substitute
        ⟨⟨identityWiring⟩,
          ⟨⟨rotateOnce^[c] identityWiring⟩, ⟨⟨rotateOnce^[b] identityWiring⟩, c2⟩,
            ⟨⟨rotateOnce^[a] identityWiring⟩, c1⟩⟩,
          ⟨identityWiring.reverse⟩⟩ x
      = some ((25 - x + 2 * ((a : Int) + (b : Int) + (c : Int))) % 26) := by
  have r : ∀ z : Int, InRange (z % 26) := fun z =>
    ⟨Int.emod_nonneg _ (by norm_num), Int.emod_lt_of_pos _ (by norm_num)⟩
  obtain ⟨h0, h1⟩ := hx
  have g0 : vecAt identityWiring x = some x := vecAt_identityWiring ⟨h0, h1⟩
  have g1 := vecAt_rotated_identity a (x := x) ⟨h0, h1⟩
  have g2 := vecAt_rotated_identity b (r (x - (a : Int)))
  have g3 := vecAt_rotated_identity c (r ((x - (a : Int)) % 26 - (b : Int)))
  have hu3 := r (((x - (a : Int)) % 26 - (b : Int)) % 26 - (c : Int))
  have hu4 : InRange (25 - (((x - (a : Int)) % 26 - (b : Int)) % 26 - (c : Int)) % 26) := by
    obtain ⟨k0, k1⟩ := hu3
    exact ⟨by omega, by omega⟩
  have g4 := vecAt_reverse_identity hu3
  have g5 := scanIndex_rotated_identity c hu4
  have g6 := scanIndex_rotated_identity b
    (r (25 - (((x - (a : Int)) % 26 - (b : Int)) % 26 - (c : Int)) % 26 + (c : Int)))
  have g7 := scanIndex_rotated_identity a
    (r ((25 - (((x - (a : Int)) % 26 - (b : Int)) % 26 - (c : Int)) % 26 + (c : Int)) % 26
      + (b : Int)))
  have g8 := scanIndex_rotated_identity 0
    (r (((25 - (((x - (a : Int)) % 26 - (b : Int)) % 26 - (c : Int)) % 26 + (c : Int)) % 26
      + (b : Int)) % 26 + (a : Int)))
  simp only [Function.iterate_zero, id_eq] at g8
  simp only [Enigma.substitute, Plugboard.GoingEncipher, RingSet.GoingEncipher,
    Scrambler.GoingEncipher, Reflector.Reflect, RingSet.ReturningEncipher,
    Scrambler.ReturningEncipher, Plugboard.ReturningEncipher, Option.bind_eq_bind,
    Option.some_bind, Option.pure_def, g0, g1, g2, g3, g4, g5, g6, g7, g8]
  congr 1
  omega

/-- A pass of `Encryption` on a wired engine, character by character. -/
theorem Enigma.Wired.encryption_nth {e : Enigma} (hw : e.Wired) (text : List Char) :
    ∃ cipher : List Char, e.Encryption text = some (cipher, e.advance text.length) ∧
      cipher.length = text.length ∧
      ∀ (i : Nat) (ch : Char), text[i]? = some ch →
        ∃ y, (e.advance i).substitute (alphamapAt ch) = some y ∧
          cipher[i]? = some (alphaIDmapAt y) := by
  obtain ⟨out, hlen, henc, hnth⟩ :=
    hw.encryptLoop_nth (text.map alphamapAt) e []
      (by
        intro c hc
        obtain ⟨ch, -, rfl⟩ := List.mem_map.mp hc
        exact alphamapAt_inRange ch)
  simp only [List.length_map, List.nil_append] at hlen henc hnth
  refine ⟨out.map alphaIDmapAt, henc, by simp [hlen], ?_⟩
  intro i ch hch
  have hi : i < text.length := by
    by_contra hcon
    rw [List.getElem?_eq_none (by omega)] at hch
    cases hch
  obtain ⟨x, y, hx, hs, ho⟩ := hnth i hi
  rw [List.getElem?_map, hch] at hx
  simp only [Option.map_some', Option.some.injEq] at hx
  subst hx
  exact ⟨y, hs, by rw [List.getElem?_map, ho]; rfl⟩

/-- The substitution met by the `i`-th symbol of a pass that starts from identity wirings
with the counters `a1`, `a2`. -/
theorem substitute_identity_advance (a1 a2 : Nat) (h1 : a1 < 26) (h2 : a2 < 26) (i : Nat)
    {x : Int} (hx : InRange x) :
    (Enigma.advance
        ⟨⟨identityWiring⟩,
          ⟨⟨identityWiring⟩, ⟨⟨identityWiring⟩, (a2 : Int)⟩, ⟨⟨identityWiring⟩, (a1 : Int)⟩⟩,
          ⟨identityWiring.reverse⟩⟩ i).substitute x
      = some ((25 - x + 2 * ((i : Int) + (((a1 + i) / 26 : Nat) : Int)
          + (((a2 + (a1 + i) / 26) / 26 : Nat) : Int))) % 26) := by
  simp only [Enigma.advance]
  rw [RingSet.EndCycle_iterate _ _ _ a1 a2 h1 h2 i]
  exact substitute_identity_wirings i ((a1 + i) / 26) ((a2 + (a1 + i) / 26) / 26) _ _ hx

theorem Enigma.new_idShuffle :
    Enigma.new idShuffle
      = some ⟨⟨identityWiring⟩,
          ⟨⟨identityWiring⟩, ⟨⟨identityWiring⟩, 0⟩, ⟨⟨identityWiring⟩, 0⟩⟩,
          ⟨identityWiring.reverse⟩⟩ := by
  decide

theorem Enigma.wired_identity :
    Enigma.Wired ⟨⟨identityWiring⟩,
      ⟨⟨identityWiring⟩, ⟨⟨identityWiring⟩, 0⟩, ⟨⟨identityWiring⟩, 0⟩⟩,
      ⟨identityWiring.reverse⟩⟩ := by
  decide

/-- For every other length the round trip with re-keying fails on the engine with
identity wirings, key `AAA` and the text of `n` letters `A`: at the first symbol where the
carries of the second pass differ from those of the first, the output is not `A`. -/
theorem rekeyRoundTrip_unsafe {fuel : Nat} (hfuel : 26 ≤ fuel) {n : Nat}
    (hn : ¬ (n ≤ 13 ∨ (n % 26 = 0 ∧ n / 26 ≤ 13) ∨ n % 676 = 0)) :
    ∃ c p, (Enigma.new idShuffle).bind
        (fun e => rekeyRoundTrip fuel e "AAA".toList (List.replicate n 'A')) = some (c, p) ∧
      p ≠ List.replicate n 'A' := by
  have hw := Enigma.wired_identity
  have hf : vecAt identityWiring 0 = some 0 := by decide
  have hkeys : "AAA".toList.map alphamapAt = [0, 0, 0] := by decide
  have hkey := Enigma.rekey_after_pass hfuel hkeys hw hf hf hf 0
  simp only [Enigma.advance_zero, Nat.zero_div, Nat.zero_mod, Nat.cast_zero] at hkey
  have htext : ∀ ch ∈ List.replicate n 'A', ch ∈ ALPHA := by
    intro ch hch
    rw [List.eq_of_mem_replicate hch]
    decide
  obtain ⟨c, hclen, henc1, -, hrt⟩ := rekeyRoundTrip_keyed hfuel hkeys hkey hw hf hf hf htext
  simp only [List.length_replicate] at hclen henc1 hrt
  obtain ⟨c1, hc1, -, hnth1⟩ := hw.encryption_nth (List.replicate n 'A')
  rw [henc1] at hc1
  simp only [Option.some.injEq, Prod.mk.injEq] at hc1
  obtain ⟨hc1, -⟩ := hc1
  subst hc1
  have hw2 : Enigma.Wired ⟨⟨identityWiring⟩,
      ⟨⟨identityWiring⟩, ⟨⟨identityWiring⟩, ((n / 26 % 26 : Nat) : Int)⟩,
        ⟨⟨identityWiring⟩, ((n % 26 : Nat) : Int)⟩⟩,
      ⟨identityWiring.reverse⟩⟩ := hw
  obtain ⟨p, hp, hplen, hnth2⟩ := hw2.encryption_nth c
  refine ⟨c, p, ?_, ?_⟩
  · rw [Enigma.new_idShuffle, Option.some_bind, hrt, hp]
    rfl
  · intro hcon
    obtain ⟨i, hi, hcarry⟩ := rekey_shifted_carry hn
    obtain ⟨y1, hs1, ho1⟩ := hnth1 i 'A' (by simp [List.getElem?_replicate, hi])
    have hA : alphamapAt 'A' = 0 := by decide
    have hz : InRange 0 := by decide
    have q1 := substitute_identity_advance 0 0 (by norm_num) (by norm_num) i hz
    simp only [Nat.cast_zero] at q1
    rw [hA, q1] at hs1
    simp only [Option.some.injEq] at hs1
    have hy1 : InRange y1 := by
      rw [← hs1]
      exact ⟨Int.emod_nonneg _ (by norm_num), Int.emod_lt_of_pos _ (by norm_num)⟩
    obtain ⟨y2, hs2, ho2⟩ := hnth2 i (alphaIDmapAt y1) ho1
    rw [(alphamapAt_alphaIDmapAt hy1).1,
      substitute_identity_advance (n % 26) (n / 26 % 26) (Nat.mod_lt _ (by norm_num))
        (Nat.mod_lt _ (by norm_num)) i hy1] at hs2
    simp only [Option.some.injEq] at hs2
    have hy2 : InRange y2 := by
      rw [← hs2]
      exact ⟨Int.emod_nonneg _ (by norm_num), Int.emod_lt_of_pos _ (by norm_num)⟩
    rw [hcon, List.getElem?_replicate, if_pos hi] at ho2
    simp only [Option.some.injEq] at ho2
    have hy2z : y2 = 0 := by
      have := (alphamapAt_alphaIDmapAt hy2).1
      rw [← ho2, hA] at this
      exact this.symm
    have e3 : (0 + i) / 26 = i / 26 := by omega
    have e4 : (0 + (0 + i) / 26) / 26 = i / 676 := by omega
    rw [e4, e3] at hs1
    omega

/-- The four calls behind a result of the sequence `KeySet; Encryption; KeySet;
Encryption`. -/
theorem rekeyRoundTrip_steps {fuel : Nat} {e : Enigma} {K text c p : List Char}
    (h : rekeyRoundTrip fuel e K text = some (c, p)) :
    ∃ e1 e2 e3 e4, e.KeySet fuel K = some e1 ∧ e1.Encryption text = some (c, e2) ∧
      e2.KeySet fuel K = some e3 ∧ e3.Encryption c = some (p, e4) := by
  simp only [rekeyRoundTrip, Option.bind_eq_some, Option.map_eq_some', Prod.mk.injEq] at h
  obtain ⟨e1, h1, ⟨c1, e2⟩, h2, e3, h3, ⟨p1, e4⟩, h4, hc, hp⟩ := h
  simp only at hc hp h3 h4
  subst hc hp
  exact ⟨e1, e2, e3, e4, h1, h2, h3, h4⟩

/-- Claim C3, amended (text reciprocity on the same engine re-keyed, for the lengths that
leave the carries in place).  `KeySet` re-aligns the three vectors but never resets the
counters `cnt`.  On a freshly constructed engine, for every key `K` of three characters and
every text of uppercase letters whose length is at most 13, or a multiple of 26 up to
`26 * 13`, or a multiple of 676, the sequence `KeySet(K); c = Encryption(text); KeySet(K);
p = Encryption(c)` on that one engine object finishes and yields `p = text`.  For every other
length `n` the statement fails: on the engine with identity wirings, key `AAA` and the text
of `n` letters `A`, the same sequence finishes with `p ≠ text`. -/
theorem rekeyed_reciprocity_safe_lengths (shuffle : Nat → List Int → List Int)
    (hshuffle : ∀ seed v, List.Perm (shuffle seed v) v) (fuel : Nat) (hfuel : 26 ≤ fuel)
    (K text : List Char) (hK : K.length = 3) (htext : ∀ ch ∈ text, ch ∈ ALPHA)
    (hsafe : text.length ≤ 13 ∨ (text.length % 26 = 0 ∧ text.length / 26 ≤ 13) ∨
      text.length % 676 = 0)
    (n : Nat) (hn : ¬ (n ≤ 13 ∨ (n % 26 = 0 ∧ n / 26 ≤ 13) ∨ n % 676 = 0)) :
    (∃ e0 e1 c e2 e3 e4, Enigma.new shuffle = some e0 ∧ e0.KeySet fuel K = some e1 ∧
      e1.Encryption text = some (c, e2) ∧ e2.KeySet fuel K = some e3 ∧
      e3.Encryption c = some (text, e4) ∧
      rekeyRoundTrip fuel e0 K text = some (c, text)) ∧
    (∀ seed v, List.Perm (idShuffle seed v) v) ∧
    (∃ e0 e1 c e2 e3 p e4, Enigma.new idShuffle = some e0 ∧
      e0.KeySet fuel "AAA".toList = some e1 ∧
      e1.Encryption (List.replicate n 'A') = some (c, e2) ∧
      e2.KeySet fuel "AAA".toList = some e3 ∧ e3.Encryption c = some (p, e4) ∧
      p ≠ List.replicate n 'A' ∧
      rekeyRoundTrip fuel e0 "AAA".toList (List.replicate n 'A') = some (c, p)) := by
  refine ⟨?_, fun _ v => List.Perm.refl v, ?_⟩
  · obtain ⟨c, hc⟩ := rekeyRoundTrip_safe shuffle hshuffle hfuel hK htext hsafe
    obtain ⟨e0, h0, hrt⟩ := Option.bind_eq_some.mp hc
    obtain ⟨e1, e2, e3, e4, h1, h2, h3, h4⟩ := rekeyRoundTrip_steps hrt
    exact ⟨e0, e1, c, e2, e3, e4, h0, h1, h2, h3, h4, hrt⟩
  · obtain ⟨c, p, hc, hne⟩ := rekeyRoundTrip_unsafe hfuel hn
    obtain ⟨e0, h0, hrt⟩ := Option.bind_eq_some.mp hc
    obtain ⟨e1, e2, e3, e4, h1, h2, h3, h4⟩ := rekeyRoundTrip_steps hrt
    exact ⟨e0, e1, c, e2, e3, p, e4, h0, h1, h2, h3, h4, hne, hrt⟩

theorem rekeyed_reciprocity_safe_lengths_witness :
    (∀ seed v, List.Perm (rotateShuffle seed v) v) ∧ 26 ≤ 26 ∧ "ABC".toList.length = 3 ∧
    (∀ ch ∈ "HELLOWORLDHEL".toList, ch ∈ ALPHA) ∧
    ("HELLOWORLDHEL".toList.length ≤ 13 ∨
      ("HELLOWORLDHEL".toList.length % 26 = 0 ∧ "HELLOWORLDHEL".toList.length / 26 ≤ 13) ∨
      "HELLOWORLDHEL".toList.length % 676 = 0) ∧
    ¬ (14 ≤ 13 ∨ (14 % 26 = 0 ∧ 14 / 26 ≤ 13) ∨ 14 % 676 = 0) ∧
    (∃ e0 e1 c e2 e3 e4, Enigma.new rotateShuffle = some e0 ∧
      e0.KeySet 26 "ABC".toList = some e1 ∧
      e1.Encryption "HELLOWORLDHEL".toList = some (c, e2) ∧
      e2.KeySet 26 "ABC".toList = some e3 ∧
      e3.Encryption c = some ("HELLOWORLDHEL".toList, e4) ∧
      rekeyRoundTrip 26 e0 "ABC".toList "HELLOWORLDHEL".toList
        = some (c, "HELLOWORLDHEL".toList)) ∧
    (∀ seed v, List.Perm (idShuffle seed v) v) ∧
    (∃ e0 e1 c e2 e3 p e4, Enigma.new idShuffle = some e0 ∧
      e0.KeySet 26 "AAA".toList = some e1 ∧
      e1.Encryption (List.replicate 14 'A') = some (c, e2) ∧
      e2.KeySet 26 "AAA".toList = some e3 ∧ e3.Encryption c = some (p, e4) ∧
      p ≠ List.replicate 14 'A' ∧
      rekeyRoundTrip 26 e0 "AAA".toList (List.replicate 14 'A') = some (c, p)) :=
  ⟨fun seed v => List.rotate_perm v seed, by decide, by decide, by decide, by decide,
    by decide,
    rekeyed_reciprocity_safe_lengths rotateShuffle (fun seed v => List.rotate_perm v seed) 26
      (by decide) "ABC".toList "HELLOWORLDHEL".toList (by decide) (by decide) (by decide)
      14 (by decide)⟩

end EnigmaCpp
